import Mathlib

/-
  Shallow embedding of src/encoder.py (adaptive Huffman word-level codec).

  Python objects live in an arena: a node is an entry of `State.nodes`, and
  object identity (`is` in Python) is index equality.  Every Python loop is
  given explicit fuel; `none` means the fuel ran out (the Python loop did not
  terminate within that many iterations).  Raised exceptions are modelled by
  `PyErr`; they carry the mutated state, as a raised Python exception leaves
  the instance mutated.
-/

namespace AHuff

/-- Python exception kinds raised inside encoder.py.  Python's
UnicodeDecodeError is a subclass of ValueError, so the strict-utf8 failure of
bytes.decode() is modelled as a `valueError` as well.  `attributeError`
models attribute access on None (no such access is reachable, which is
proved below). -/
inductive PyErr where
  | valueError (msg : String)
  | runtimeError (msg : String)
  | attributeError
deriving DecidableEq, Repr

instance {ε α : Type} [DecidableEq ε] [DecidableEq α] :
    DecidableEq (Except ε α) := fun x y =>
  match x, y with
  | .ok a, .ok b =>
    if h : a = b then .isTrue (by rw [h])
    else .isFalse (fun hh => h (Except.ok.inj hh))
  | .error e, .error f =>
    if h : e = f then .isTrue (by rw [h])
    else .isFalse (fun hh => h (Except.error.inj hh))
  | .ok _, .error _ => .isFalse (fun hh => Except.noConfusion hh)
  | .error _, .ok _ => .isFalse (fun hh => Except.noConfusion hh)

/-- Mirror of class _Node (encoder.py lines 119-152); `left`, `right`,
`parent` are arena indices. -/
structure Node where
  symbol : Option (List Char)
  weight : Nat
  key : Nat
  left : Option Nat
  right : Option Nat
  parent : Option Nat
  isNyt : Bool
  isNcw : Bool
deriving DecidableEq, Repr, Inhabited

/-- Mirror of _Node.is_leaf (line 151). -/
def Node.is_leaf (n : Node) : Bool := n.left.isNone && n.right.isNone

/-- The mutable fields of an AdaptiveHuffman instance (lines 158-170):
the node arena, the word index `_leaves` (an association list used exactly
like the Python dict: words are inserted only when absent), the key counter
and the three distinguished node indices. -/
structure State where
  nodes : List Node
  leaves : List (List Char × Nat)
  nextKey : Nat
  nyt : Nat
  ncw : Nat
  root : Nat
deriving DecidableEq, Repr

/-- Read a node of the arena (attribute access on a Python reference). -/
def getNode (s : State) (i : Nat) : Node := s.nodes.getD i default

/-- Write a node of the arena. -/
def setNode (s : State) (i : Nat) (n : Node) : State :=
  { s with nodes := s.nodes.set i n }

/-- In-place field update of one node. -/
def updNode (s : State) (i : Nat) (f : Node → Node) : State :=
  setNode s i (f (getNode s i))

/-- Mirror of AdaptiveHuffman.__init__ (lines 158-170): arena slot 0 is the
NYT leaf (key 1), slot 1 the NCW leaf (key 2), slot 2 the root (key 3); the
key counter starts at 3 exactly as `self._next_key: int = 3` does. -/
def initState : State :=
  { nodes := [
      { symbol := none, weight := 0, key := 1, left := none, right := none,
        parent := some 2, isNyt := true, isNcw := false },
      { symbol := none, weight := 0, key := 2, left := none, right := none,
        parent := some 2, isNyt := false, isNcw := true },
      { symbol := none, weight := 0, key := 3, left := some 0, right := some 1,
        parent := none, isNyt := false, isNcw := false }],
    leaves := [], nextKey := 3, nyt := 0, ncw := 1, root := 2 }

/-! ### Bit I/O (classes _BitWriter and _BitReader, lines 27-116) -/

/-- Mirror of _BitWriter: `buffer` holds finished bytes (as Nat < 256),
`current`/`filled` the byte being filled. -/
structure BitWriter where
  buffer : List Nat
  current : Nat
  filled : Nat
deriving DecidableEq, Repr

def BitWriter.init : BitWriter := ⟨[], 0, 0⟩

/-- Mirror of _BitWriter.add_bit (lines 35-41). -/
def BitWriter.add_bit (w : BitWriter) (bit : Bool) : BitWriter :=
  let current := w.current * 2 + (if bit then 1 else 0)
  let filled := w.filled + 1
  if filled == 8 then
    { buffer := w.buffer ++ [current], current := 0, filled := 0 }
  else
    { w with current := current, filled := filled }

/-- Mirror of _BitWriter.add_bits (lines 43-45). -/
def BitWriter.add_bits (w : BitWriter) (bits : List Bool) : BitWriter :=
  bits.foldl BitWriter.add_bit w

/-- Mirror of _BitWriter.flush_to_byte (lines 47-54): `<<= 8 - filled`. -/
def BitWriter.flush_to_byte (w : BitWriter) : BitWriter :=
  if w.filled == 0 then w
  else { buffer := w.buffer ++ [w.current * 2 ^ (8 - w.filled)],
         current := 0, filled := 0 }

/-- Mirror of _BitWriter.add_uint16 (lines 56-59); the only caller
guarantees value < 2^16, for which the two big-endian bytes of
value.to_bytes(2, "big") are value / 256 and value % 256. -/
def BitWriter.add_uint16 (w : BitWriter) (value : Nat) : BitWriter :=
  let w := w.flush_to_byte
  { w with buffer := w.buffer ++ [value / 256, value % 256] }

/-- Mirror of _BitWriter.add_bytes (lines 61-63). -/
def BitWriter.add_bytes (w : BitWriter) (data : List Nat) : BitWriter :=
  let w := w.flush_to_byte
  { w with buffer := w.buffer ++ data }

/-- Mirror of _BitWriter.get_data (lines 65-67). -/
def BitWriter.get_data (w : BitWriter) : List Nat :=
  w.flush_to_byte.buffer

/-- Mirror of _BitReader (lines 70-116). -/
structure BitReader where
  data : List Nat
  bytePos : Nat
  bitPos : Nat
deriving DecidableEq, Repr

def BitReader.init (data : List Nat) : BitReader := ⟨data, 0, 0⟩

/-- remaining_bits as computed in _require_bits / has_bits (lines 78-81,
114-116); in every reader state the code builds, bytePos ≤ data.length, so
Nat subtraction agrees with the Python integers. -/
def BitReader.remainingBits (r : BitReader) : Nat :=
  (r.data.length - r.bytePos) * 8 - r.bitPos

/-- Mirror of _BitReader.read_bit (lines 83-90). -/
def BitReader.read_bit (r : BitReader) : Except PyErr (Bool × BitReader) :=
  if r.remainingBits < 1 then
    .error (.valueError "Not enough bits left in stream")
  else
    let bit := (r.data.getD r.bytePos 0) / 2 ^ (7 - r.bitPos) % 2
    let bitPos := r.bitPos + 1
    let r' := if bitPos == 8 then { r with bitPos := 0, bytePos := r.bytePos + 1 }
              else { r with bitPos := bitPos }
    .ok (bit == 1, r')

/-- Mirror of _BitReader.align_to_byte (lines 92-96). -/
def BitReader.align_to_byte (r : BitReader) : BitReader :=
  if r.bitPos == 0 then r
  else { r with bitPos := 0, bytePos := r.bytePos + 1 }

/-- Mirror of _BitReader.read_uint16 (lines 98-104). -/
def BitReader.read_uint16 (r : BitReader) : Except PyErr (Nat × BitReader) :=
  let r := r.align_to_byte
  if r.data.length < r.bytePos + 2 then
    .error (.valueError "Unexpected end of stream while reading uint16")
  else
    let value := (r.data.getD r.bytePos 0) * 256 + r.data.getD (r.bytePos + 1) 0
    .ok (value, { r with bytePos := r.bytePos + 2 })

/-- Mirror of _BitReader.read_bytes (lines 106-112). -/
def BitReader.read_bytes (r : BitReader) (length : Nat) :
    Except PyErr (List Nat × BitReader) :=
  let r := r.align_to_byte
  if r.data.length < r.bytePos + length then
    .error (.valueError "Unexpected end of stream while reading bytes")
  else
    let out := (r.data.drop r.bytePos).take length
    .ok (out, { r with bytePos := r.bytePos + length })

/-- Mirror of _BitReader.has_bits (lines 114-116). -/
def BitReader.has_bits (r : BitReader) : Bool := 0 < r.remainingBits

/-! ### Text helpers: str.split(" "), str.encode(), bytes.decode() -/

/-- Helper for split_sp, accumulating the current word. -/
def split_sp_go : List Char → List Char → List (List Char)
  | [], acc => [acc.reverse]
  | c :: rest, acc =>
    if c == ' ' then acc.reverse :: split_sp_go rest []
    else split_sp_go rest (c :: acc)

/-- Python's text.split(" "): split at every single space, keeping empty
pieces (so "a  b" gives ["a", "", "b"]). -/
def split_sp (t : List Char) : List (List Char) := split_sp_go t []

/-- UTF-8 bytes of one scalar value (Python str.encode(); Lean Char is a
unicode scalar value, exactly Python's model of a str element). -/
def utf8EncodeChar (c : Char) : List Nat :=
  let n := c.toNat
  if n < 0x80 then [n]
  else if n < 0x800 then [0xC0 + n / 0x40, 0x80 + n % 0x40]
  else if n < 0x10000 then
    [0xE0 + n / 0x1000, 0x80 + n / 0x40 % 0x40, 0x80 + n % 0x40]
  else
    [0xF0 + n / 0x40000, 0x80 + n / 0x1000 % 0x40,
     0x80 + n / 0x40 % 0x40, 0x80 + n % 0x40]

/-- Python word.encode(): UTF-8 bytes of the word. -/
def utf8Encode (w : List Char) : List Nat :=
  w.foldr (fun c acc => utf8EncodeChar c ++ acc) []

/-- Is b a UTF-8 continuation byte. -/
def isCont (b : Nat) : Bool := 0x80 ≤ b && b ≤ 0xBF

/-- The error raised by Python's bytes.decode() on invalid strict UTF-8
(a UnicodeDecodeError, which is a subclass of ValueError). -/
def utf8Err : PyErr := .valueError "utf-8 codec cannot decode"

/-- One step of Python raw.decode() in strict UTF-8: decode the character
led by b0, rejecting truncated sequences, overlong forms, surrogates and
values above 0x10FFFF, and return it with the unconsumed suffix. -/
def utf8DecodeOne (b0 : Nat) (rest : List Nat) :
    Except PyErr (Char × List Nat) :=
  if b0 < 0x80 then .ok (Char.ofNat b0, rest)
  else if 0xC2 ≤ b0 && b0 ≤ 0xDF then
    match rest with
    | b1 :: rest1 =>
      if isCont b1 then
        .ok (Char.ofNat ((b0 - 0xC0) * 0x40 + (b1 - 0x80)), rest1)
      else .error utf8Err
    | [] => .error utf8Err
  else if 0xE0 ≤ b0 && b0 ≤ 0xEF then
    match rest with
    | b1 :: b2 :: rest2 =>
      let okB1 :=
        if b0 == 0xE0 then 0xA0 ≤ b1 && b1 ≤ 0xBF
        else if b0 == 0xED then 0x80 ≤ b1 && b1 ≤ 0x9F
        else isCont b1
      if okB1 && isCont b2 then
        .ok (Char.ofNat ((b0 - 0xE0) * 0x1000 + (b1 - 0x80) * 0x40 +
          (b2 - 0x80)), rest2)
      else .error utf8Err
    | _ => .error utf8Err
  else if 0xF0 ≤ b0 && b0 ≤ 0xF4 then
    match rest with
    | b1 :: b2 :: b3 :: rest3 =>
      let okB1 :=
        if b0 == 0xF0 then 0x90 ≤ b1 && b1 ≤ 0xBF
        else if b0 == 0xF4 then 0x80 ≤ b1 && b1 ≤ 0x8F
        else isCont b1
      if okB1 && isCont b2 && isCont b3 then
        .ok (Char.ofNat ((b0 - 0xF0) * 0x40000 + (b1 - 0x80) * 0x1000 +
          (b2 - 0x80) * 0x40 + (b3 - 0x80)), rest3)
      else .error utf8Err
    | _ => .error utf8Err
  else .error utf8Err

/-- The decoding loop of bytes.decode(); each character consumes at least
one byte, so the byte count bounds the number of steps and the fuel-out
branch is never taken when started with the length of the input. -/
def utf8Decode_go : Nat → List Nat → Except PyErr (List Char)
  | _, [] => .ok []
  | 0, _ :: _ => .error utf8Err
  | fuel+1, b0 :: rest =>
    match utf8DecodeOne b0 rest with
    | .error e => .error e
    | .ok (c, suffix) =>
      match utf8Decode_go fuel suffix with
      | .error e => .error e
      | .ok cs => .ok (c :: cs)

/-- Python raw.decode(): strict UTF-8 decoding of the whole byte string. -/
def utf8Decode (bs : List Nat) : Except PyErr (List Char) :=
  utf8Decode_go bs.length bs


/-! ### Tree manipulation (lines 259-346) -/

/-- Mirror of AdaptiveHuffman._is_ancestor's while loop (lines 319-325);
`current` is the running variable, one fuel unit per iteration. -/
def is_ancestor_loop (s : State) (anc : Nat) : Nat → Option Nat → Option Bool
  | _, none => some false
  | 0, some _ => none
  | fuel+1, some cur =>
    if cur == anc then some true
    else is_ancestor_loop s anc fuel (getNode s cur).parent

/-- Mirror of AdaptiveHuffman._is_ancestor (lines 319-325). -/
def is_ancestor (fuel : Nat) (s : State) (anc desc : Nat) : Option Bool :=
  is_ancestor_loop s anc fuel (getNode s desc).parent

/-- Mirror of the stack loop of _find_highest_node_in_block (lines 308-317):
pop the top of the stack, update `highest` when the popped node has the
target weight, a larger key than the current `highest` and is not an
ancestor of `node` (is_ancestor is evaluated only when the first two
conjuncts hold, as Python's `and` short-circuits), then push left and right
children so that the right child is popped first. -/
def find_highest_loop (s : State) (target_weight node : Nat) :
    Nat → List Nat → Nat → Option Nat
  | _, [], highest => some highest
  | 0, _ :: _, _ => none
  | fuel+1, cur :: stack, highest =>
    let cnd := (getNode s cur).weight == target_weight &&
      (getNode s highest).key < (getNode s cur).key
    match (if cnd then is_ancestor fuel s cur node else some false) with
    | none => none
    | some anc =>
      let highest := if cnd && !anc then cur else highest
      let stack := match (getNode s cur).left with
        | some l => l :: stack
        | none => stack
      let stack := match (getNode s cur).right with
        | some r => r :: stack
        | none => stack
      find_highest_loop s target_weight node fuel stack highest

/-- Mirror of AdaptiveHuffman._find_highest_node_in_block (lines 304-317). -/
def find_highest_node_in_block (fuel : Nat) (s : State) (node : Nat) :
    Option Nat :=
  find_highest_loop s (getNode s node).weight node fuel [s.root] node

/-- Mirror of the inner _replace_child of _swap_nodes (lines 336-342); the
error carries the state because a raised exception leaves prior mutations
in place. -/
def replace_child (s : State) (p old new : Nat) : Option PyErr × State :=
  if (getNode s p).left == some old then
    (none, updNode s p (fun n => { n with left := some new }))
  else if (getNode s p).right == some old then
    (none, updNode s p (fun n => { n with right := some new }))
  else (some (.runtimeError "Child not found when swapping nodes"), s)

/-- Mirror of AdaptiveHuffman._swap_nodes (lines 327-346): read both
parents, bail out if the nodes are equal or either parent is absent,
otherwise run the two child replacements in order and reassign the parent
pointers crosswise. -/
def swap_nodes (s : State) (a b : Nat) : Option PyErr × State :=
  if a == b then (none, s)
  else
    match (getNode s a).parent, (getNode s b).parent with
    | some ap, some bp =>
      match replace_child s ap a b with
      | (some e, s) => (some e, s)
      | (none, s) =>
        match replace_child s bp b a with
        | (some e, s) => (some e, s)
        | (none, s) =>
          (none, updNode (updNode s a (fun n => { n with parent := some bp }))
            b (fun n => { n with parent := some ap }))
    | _, _ => (none, s)

/-- Mirror of the while loop of _increment_weight (lines 295-302): find the
highest node of the block, swap unless the candidate is the node itself or
its parent or child, increment the weight, then step to the (possibly new)
parent.  One fuel unit per iteration. -/
def increment_weight_loop : Nat → State → Option Nat → Option (Option PyErr × State)
  | _, s, none => some (none, s)
  | 0, _, some _ => none
  | fuel+1, s, some node =>
    match find_highest_node_in_block fuel s node with
    | none => none
    | some highest =>
      let doSwap := highest != node && (getNode s node).parent != some highest &&
        (getNode s highest).parent != some node
      match (if doSwap then swap_nodes s node highest else (none, s)) with
      | (some e, s) => some (some e, s)
      | (none, s) =>
        let s := updNode s node (fun n => { n with weight := n.weight + 1 })
        increment_weight_loop fuel s (getNode s node).parent

/-- Mirror of AdaptiveHuffman._increment_weight (lines 295-302). -/
def increment_weight (fuel : Nat) (s : State) (node : Nat) :
    Option (Option PyErr × State) :=
  increment_weight_loop fuel s (some node)

/-- Mirror of AdaptiveHuffman._insert_new_word (lines 259-280): the new word
leaf is created first (key `_next_key`, arena index = old length), then the
new NYT (key `_next_key + 1`, next index); the old NYT becomes internal with
the new NYT as left child and the word leaf as right child; the word index
and the NYT pointer are updated, and the weight walk starts at the word
leaf. -/
def insert_new_word (fuel : Nat) (s : State) (word : List Char) :
    Option (Option PyErr × State) :=
  let leafIdx := s.nodes.length
  let nytIdx := s.nodes.length + 1
  let internal := s.nyt
  let leafNode : Node :=
    { symbol := some word, weight := 0, key := s.nextKey,
      left := none, right := none, parent := none, isNyt := false, isNcw := false }
  let nytNode : Node :=
    { symbol := none, weight := 0, key := s.nextKey + 1,
      left := none, right := none, parent := none, isNyt := true, isNcw := false }
  let s := { s with nodes := s.nodes ++ [leafNode, nytNode], nextKey := s.nextKey + 2 }
  let s := updNode s internal
    (fun n => { n with isNyt := false, left := some nytIdx, right := some leafIdx })
  let s := updNode s leafIdx (fun n => { n with parent := some internal })
  let s := updNode s nytIdx (fun n => { n with parent := some internal })
  let s := { s with leaves := (word, leafIdx) :: s.leaves, nyt := nytIdx }
  increment_weight fuel s leafIdx

/-- Mirror of the while loop of _path_to_node (lines 282-292), appending
`parent.right is current` for each step and reversing at the end. -/
def path_to_node_loop (s : State) :
    Nat → Nat → List Bool → Option (Except PyErr (List Bool))
  | 0, _, _ => none
  | fuel+1, current, path =>
    if current == s.root then some (.ok path.reverse)
    else
      match (getNode s current).parent with
      | none => some (.error (.runtimeError "Node has no parent - corrupted tree"))
      | some p =>
        path_to_node_loop s fuel p (path ++ [(getNode s p).right == some current])

/-- Mirror of AdaptiveHuffman._path_to_node (lines 282-292). -/
def path_to_node (fuel : Nat) (s : State) (node : Nat) :
    Option (Except PyErr (List Bool)) :=
  path_to_node_loop s fuel node []

/-! ### Encoding and decoding (lines 175-254) -/

/-- The full mutable context of one encode/decode call: the tree state plus
the local _BitWriter / _BitReader. -/
structure Ctx where
  st : State
  bw : BitWriter
  br : BitReader
deriving DecidableEq, Repr

/-- Computation that mutates a `Ctx`, may raise a `PyErr` (carrying the
mutated context) and may fail to terminate (`none`). -/
def M (α : Type) : Type := Ctx → Option (Except PyErr α × Ctx)

instance : Monad M where
  pure a := fun c => some (.ok a, c)
  bind x f := fun c =>
    match x c with
    | none => none
    | some (.error e, c') => some (.error e, c')
    | some (.ok a, c') => f a c'

/-- Raise a Python exception, keeping the current context. -/
def M.throw (e : PyErr) : M α := fun c => some (.error e, c)

/-- The surrounding loop ran out of fuel. -/
def M.dead : M α := fun _ => none

def M.getCtx : M Ctx := fun c => some (.ok c, c)

def M.setSt (s : State) : M Unit := fun c => some (.ok (), { c with st := s })

def M.modBw (f : BitWriter → BitWriter) : M Unit :=
  fun c => some (.ok (), { c with bw := f c.bw })

/-- Run a tree operation (which may diverge or raise) inside `M`. -/
def M.liftTree (x : State → Option (Option PyErr × State)) : M Unit := fun c =>
  match x c.st with
  | none => none
  | some (some e, s') => some (.error e, { c with st := s' })
  | some (none, s') => some (.ok (), { c with st := s' })

/-- Lift a _BitReader operation into `M`. -/
def M.liftRead (x : BitReader → Except PyErr (α × BitReader)) : M α := fun c =>
  match x c.br with
  | .error e => some (.error e, c)
  | .ok (a, r') => some (.ok a, { c with br := r' })

/-- Mirror of AdaptiveHuffman._encode_word (lines 198-218). -/
def encode_word (fuel : Nat) (word : List Char) : M Unit := do
  let c ← M.getCtx
  let new_word := (c.st.leaves.lookup word).isNone
  let target_node := (c.st.leaves.lookup word).getD c.st.ncw
  match path_to_node fuel c.st target_node with
  | none => M.dead
  | some (.error e) => M.throw e
  | some (.ok path) => do
    M.modBw (fun w => w.add_bits path)
    if new_word then do
      M.modBw BitWriter.flush_to_byte
      let raw := utf8Encode word
      if 2 ^ 16 ≤ raw.length then
        M.throw (.valueError "Word too long to encode (more than 65535 bytes)")
      else do
        M.modBw (fun w => w.add_uint16 raw.length)
        M.modBw (fun w => w.add_bytes raw)
        M.liftTree (fun s => insert_new_word fuel s word)
    else
      match (c.st.leaves.lookup word) with
      | some leaf => M.liftTree (fun s => increment_weight fuel s leaf)
      | none => M.throw (.runtimeError "unreachable")

/-- The for-loop of _encode_internal (lines 192-195): a separator word is
encoded before every word except the first. -/
def encode_words_loop (fuel : Nat) : List (List Char) → Bool → M Unit
  | [], _ => pure ()
  | w :: ws, first => do
    if first then pure () else encode_word fuel [' ']
    encode_word fuel w
    encode_words_loop fuel ws false

/-- Mirror of AdaptiveHuffman._encode_internal (lines 189-196) together with
the lock-acquiring wrapper encode (lines 175-178); returns the payload bytes
and the mutated tree state (also on error, as the Python instance keeps its
mutations when an exception propagates). -/
def encodeFuel (fuel : Nat) (s : State) (text : List Char) :
    Option (Except PyErr (List Nat) × State) :=
  let words := if text.isEmpty then [] else split_sp text
  match encode_words_loop fuel words true
      { st := s, bw := BitWriter.init, br := BitReader.init [] } with
  | none => none
  | some (.error e, c) => some (.error e, c.st)
  | some (.ok _, c) => some (.ok c.bw.get_data, c.st)

/-- The walk of _decode_next_word (lines 234-237): start at the root and
consume one bit per internal node; Python would hit an AttributeError on a
missing child when re-entering the loop guard. -/
def decode_walk_loop (fuel : Nat) : Nat → Nat → M Nat
  | 0, _ => M.dead
  | wfuel+1, node => do
    let c ← M.getCtx
    if (getNode c.st node).is_leaf then pure node
    else do
      let bit ← M.liftRead BitReader.read_bit
      let c ← M.getCtx
      match (if bit then (getNode c.st node).right else (getNode c.st node).left) with
      | none => M.throw .attributeError
      | some nxt => decode_walk_loop fuel wfuel nxt

/-- Mirror of AdaptiveHuffman._decode_next_word (lines 233-254). -/
def decode_next_word (fuel : Nat) : M (List Char) := do
  let c ← M.getCtx
  let node ← decode_walk_loop fuel fuel c.st.root
  let c ← M.getCtx
  if (getNode c.st node).isNcw then do
    M.liftTree (fun s => increment_weight fuel s node)
    let _ ← M.liftRead (fun r => Except.ok ((), r.align_to_byte))
    let length ← M.liftRead BitReader.read_uint16
    let raw ← M.liftRead (fun r => r.read_bytes length)
    match utf8Decode raw with
    | .error e => M.throw e
    | .ok word => do
      M.liftTree (fun s => insert_new_word fuel s word)
      pure word
  else if (getNode c.st node).isNyt then
    pure []
  else do
    M.liftTree (fun s => increment_weight fuel s node)
    pure ((getNode c.st node).symbol.getD [])

/-- The while-loop of _decode_internal (lines 226-230): single-space tokens
are dropped, everything else is appended. -/
def decode_loop (fuel : Nat) : Nat → List (List Char) → M (List (List Char))
  | 0, _ => M.dead
  | wfuel+1, words => do
    let c ← M.getCtx
    if c.br.has_bits then do
      let word ← decode_next_word fuel
      if word == [' '] then decode_loop fuel wfuel words
      else decode_loop fuel wfuel (words ++ [word])
    else pure words

/-- Mirror of AdaptiveHuffman._decode_internal (lines 223-231) together with
the lock-acquiring wrapper decode (lines 180-183); the output is the
remaining tokens joined by single spaces. -/
def decodeFuel (fuel : Nat) (s : State) (data : List Nat) :
    Option (Except PyErr (List Char) × State) :=
  match decode_loop fuel fuel []
      { st := s, bw := BitWriter.init, br := BitReader.init data } with
  | none => none
  | some (.error e, c) => some (.error e, c.st)
  | some (.ok words, c) => some (.ok (List.intercalate [' '] words), c.st)

/-- The value returned (or raised) by an encode call. -/
def encRes (fuel : Nat) (s : State) (text : List Char) :
    Option (Except PyErr (List Nat)) :=
  (encodeFuel fuel s text).map Prod.fst

/-- The tree state an encode call leaves behind. -/
def encSt (fuel : Nat) (s : State) (text : List Char) : Option State :=
  (encodeFuel fuel s text).map Prod.snd

/-- The value returned (or raised) by a decode call. -/
def decRes (fuel : Nat) (s : State) (data : List Nat) :
    Option (Except PyErr (List Char)) :=
  (decodeFuel fuel s data).map Prod.fst

/-- The tree state a decode call leaves behind. -/
def decSt (fuel : Nat) (s : State) (data : List Nat) : Option State :=
  (decodeFuel fuel s data).map Prod.snd

end AHuff


namespace AHuff

/-! ### Evaluation helpers

Concrete runs of the codec are proved in chunks: each call to a Python
method on a literal context is evaluated by `decide` into a literal result,
and the chunks are glued with the bind lemmas below.  The literal contexts
are spelled out once here. -/

/-- Shorthand node constructor used for literal states. -/
def N (sym : Option (List Char)) (w k : Nat) (l r p : Option Nat)
    (ny nc : Bool) : Node :=
  ⟨sym, w, k, l, r, p, ny, nc⟩

/-- The context at the start of an encode call on a fresh instance. -/
def c0 : Ctx := { st := initState, bw := BitWriter.init, br := BitReader.init [] }

/-- The context at the start of a decode call on a fresh instance. -/
def cD (data : List Nat) : Ctx :=
  { st := initState, bw := BitWriter.init, br := BitReader.init data }

theorem M.bind_ok {α β : Type} {x : M α} {f : α → M β} {c c' : Ctx} {a : α}
    (h : x c = some (.ok a, c')) : (x >>= f) c = f a c' := by
  show (match x c with
    | none => none
    | some (.error e, c') => some (.error e, c')
    | some (.ok a, c') => f a c') = f a c'
  rw [h]

theorem M.bind_err {α β : Type} {x : M α} {f : α → M β} {c c' : Ctx} {e : PyErr}
    (h : x c = some (.error e, c')) : (x >>= f) c = some (.error e, c') := by
  show (match x c with
    | none => none
    | some (.error e, c') => some (.error e, c')
    | some (.ok a, c') => f a c') = some (.error e, c')
  rw [h]

theorem M.bind_dead {α β : Type} {x : M α} {f : α → M β} {c : Ctx}
    (h : x c = none) : (x >>= f) c = none := by
  show (match x c with
    | none => none
    | some (.error e, c') => some (.error e, c')
    | some (.ok a, c') => f a c') = none
  rw [h]

/-- The tree state after a fresh instance encodes the single word "a": the
old NYT (index 0) became internal, the leaf of "a" is index 3 with key 3,
the new NYT is index 4 with key 4. -/
def stA : State :=
  ⟨[N none 1 1 (some 3) (some 4) (some 2) false false,
    N none 0 2 none none (some 2) false true,
    N none 1 3 (some 0) (some 1) none false false,
    N (some ['a']) 1 3 none none (some 0) false false,
    N none 0 4 none none (some 0) true false],
   [(['a'], 3)], 5, 4, 1, 2⟩

/-- Context after encode_word "a" on a fresh encoder. -/
def cA : Ctx := ⟨stA, ⟨[128, 0, 1, 97], 0, 0⟩, ⟨[], 0, 0⟩⟩

theorem ew_a : encode_word 100 ['a'] c0 = some (.ok (), cA) := by decide

theorem loop_a : encode_words_loop 100 [['a']] true c0 = some (.ok (), cA) := by
  rw [show encode_words_loop 100 [['a']] true c0 =
    ((do
      if (true : Bool) then pure () else encode_word 100 [' ']
      encode_word 100 ['a']
      encode_words_loop 100 [] false) : M Unit) c0 from rfl]
  simp only [if_true]
  rw [M.bind_ok (show (pure () : M Unit) c0 = some (.ok (), c0) from rfl)]
  rw [M.bind_ok ew_a]
  decide

/-- Full run: a fresh instance encodes "a". -/
theorem enc_a : encodeFuel 100 initState (String.toList "a") =
    some (.ok [128, 0, 1, 97], stA) := by
  simp only [encodeFuel]
  rw [show (if (String.toList "a").isEmpty then ([] : List (List Char))
      else split_sp (String.toList "a")) = [['a']] from by decide]
  rw [show ({ st := initState, bw := BitWriter.init, br := BitReader.init [] } : Ctx)
      = c0 from rfl]
  rw [loop_a]
  rfl

/-- The tree state after a fresh instance encodes the single word "alpha". -/
def stAl : State :=
  ⟨[N none 1 1 (some 3) (some 4) (some 2) false false,
    N none 0 2 none none (some 2) false true,
    N none 1 3 (some 0) (some 1) none false false,
    N (some ['a', 'l', 'p', 'h', 'a']) 1 3 none none (some 0) false false,
    N none 0 4 none none (some 0) true false],
   [(['a', 'l', 'p', 'h', 'a'], 3)], 5, 4, 1, 2⟩

/-- Context after encode_word "alpha" on a fresh encoder. -/
def cAl : Ctx := ⟨stAl, ⟨[128, 0, 5, 97, 108, 112, 104, 97], 0, 0⟩, ⟨[], 0, 0⟩⟩

theorem ew_alpha :
    encode_word 100 ['a', 'l', 'p', 'h', 'a'] c0 = some (.ok (), cAl) := by
  decide

theorem loop_alpha :
    encode_words_loop 100 [['a', 'l', 'p', 'h', 'a']] true c0 =
      some (.ok (), cAl) := by
  rw [show encode_words_loop 100 [['a', 'l', 'p', 'h', 'a']] true c0 =
    ((do
      if (true : Bool) then pure () else encode_word 100 [' ']
      encode_word 100 ['a', 'l', 'p', 'h', 'a']
      encode_words_loop 100 [] false) : M Unit) c0 from rfl]
  simp only [if_true]
  rw [M.bind_ok (show (pure () : M Unit) c0 = some (.ok (), c0) from rfl)]
  rw [M.bind_ok ew_alpha]
  decide

/-- Full run: a fresh instance encodes "alpha". -/
theorem enc_alpha : encodeFuel 100 initState (String.toList "alpha") =
    some (.ok [128, 0, 5, 97, 108, 112, 104, 97], stAl) := by
  simp only [encodeFuel]
  rw [show (if (String.toList "alpha").isEmpty then ([] : List (List Char))
      else split_sp (String.toList "alpha")) = [['a', 'l', 'p', 'h', 'a']]
      from by decide]
  rw [show ({ st := initState, bw := BitWriter.init, br := BitReader.init [] } : Ctx)
      = c0 from rfl]
  rw [loop_alpha]
  rfl

end AHuff

namespace AHuff

/-- Decoder state after decoding the "alpha" escape payload: the NCW leaf
(index 1) was explicitly incremented to weight 1 before the word was read
and inserted. -/
def stAlD : State :=
  ⟨[N none 1 1 (some 3) (some 4) (some 2) false false,
    N none 1 2 none none (some 2) false true,
    N none 2 3 (some 0) (some 1) none false false,
    N (some ['a', 'l', 'p', 'h', 'a']) 1 3 none none (some 0) false false,
    N none 0 4 none none (some 0) true false],
   [(['a', 'l', 'p', 'h', 'a'], 3)], 5, 4, 1, 2⟩

/-- The "alpha" escape payload. -/
def alP : List Nat := [128, 0, 5, 97, 108, 112, 104, 97]

/-- Context after the decoder consumes the "alpha" token. -/
def cAlD : Ctx := ⟨stAlD, ⟨[], 0, 0⟩, ⟨alP, 8, 0⟩⟩

theorem dnw_alpha :
    decode_next_word 200 (cD alP) = some (.ok ['a', 'l', 'p', 'h', 'a'], cAlD) := by
  decide

theorem dloop_alpha :
    decode_loop 200 200 [] (cD alP) =
      some (.ok [['a', 'l', 'p', 'h', 'a']], cAlD) := by
  rw [show decode_loop 200 200 [] (cD alP) =
    ((do
      let c ← M.getCtx
      if c.br.has_bits then do
        let word ← decode_next_word 200
        if word == [' '] then decode_loop 200 199 []
        else decode_loop 200 199 ([] ++ [word])
      else pure []) : M (List (List Char))) (cD alP) from rfl]
  rw [M.bind_ok (show M.getCtx (cD alP) = some (.ok (cD alP), cD alP) from rfl)]
  simp only [show (cD alP).br.has_bits = true from rfl, if_true]
  rw [M.bind_ok dnw_alpha]
  decide

/-- Full run: a fresh instance decodes the "alpha" escape payload. -/
theorem dec_alpha : decodeFuel 200 initState alP =
    some (.ok ['a', 'l', 'p', 'h', 'a'], stAlD) := by
  simp only [decodeFuel]
  rw [show ({ st := initState, bw := BitWriter.init, br := BitReader.init alP } : Ctx)
      = cD alP from rfl]
  rw [dloop_alpha]
  rfl

end AHuff

namespace AHuff

/-- The C10 decode stream: an NCW escape carrying the empty word (length
header 00 00, no raw bytes) followed by an NCW escape carrying "x". -/
def e10P : List Nat := [128, 0, 0, 128, 0, 1, 120]

/-- Context after the decoder consumes the empty-word escape of e10P. -/
def cE1 : Ctx :=
  ⟨⟨[N none 1 1 (some 3) (some 4) (some 2) false false,
     N none 1 2 none none (some 2) false true,
     N none 2 3 (some 0) (some 1) none false false,
     N (some []) 1 3 none none (some 0) false false,
     N none 0 4 none none (some 0) true false],
    [([], 3)], 5, 4, 1, 2⟩,
   ⟨[], 0, 0⟩, ⟨e10P, 3, 0⟩⟩

/-- Context after the decoder also consumes the "x" escape of e10P. -/
def cE2 : Ctx :=
  ⟨⟨[N none 3 1 (some 1) (some 4) (some 2) false false,
     N none 2 2 none none (some 0) false true,
     N none 4 3 (some 0) (some 3) none false false,
     N (some []) 1 3 none none (some 2) false false,
     N none 1 4 (some 5) (some 6) (some 0) false false,
     N (some ['x']) 1 5 none none (some 4) false false,
     N none 0 6 none none (some 4) true false],
    [(['x'], 5), ([], 3)], 7, 6, 1, 2⟩,
   ⟨[], 0, 0⟩, ⟨e10P, 7, 0⟩⟩

theorem dnw_e10_1 : decode_next_word 300 (cD e10P) = some (.ok [], cE1) := by
  decide

theorem dnw_e10_2 : decode_next_word 300 cE1 = some (.ok ['x'], cE2) := by
  decide

theorem dloop_e10 :
    decode_loop 300 300 [] (cD e10P) = some (.ok [[], ['x']], cE2) := by
  rw [show decode_loop 300 300 [] (cD e10P) =
    ((do
      let c ← M.getCtx
      if c.br.has_bits then do
        let word ← decode_next_word 300
        if word == [' '] then decode_loop 300 299 []
        else decode_loop 300 299 ([] ++ [word])
      else pure []) : M (List (List Char))) (cD e10P) from rfl]
  rw [M.bind_ok (show M.getCtx (cD e10P) = some (.ok (cD e10P), cD e10P) from rfl)]
  simp only [show (cD e10P).br.has_bits = true from rfl, if_true]
  rw [M.bind_ok dnw_e10_1]
  show (if ([] : List Char) == [' '] then decode_loop 300 299 []
    else decode_loop 300 299 ([] ++ [[]])) cE1 = some (.ok [[], ['x']], cE2)
  simp only [show (([] : List Char) == [' ']) = false from rfl, Bool.false_eq_true,
    if_false]
  rw [show decode_loop 300 299 ([] ++ [[]]) cE1 =
    ((do
      let c ← M.getCtx
      if c.br.has_bits then do
        let word ← decode_next_word 300
        if word == [' '] then decode_loop 300 298 [[]]
        else decode_loop 300 298 ([[]] ++ [word])
      else pure [[]]) : M (List (List Char))) cE1 from rfl]
  rw [M.bind_ok (show M.getCtx cE1 = some (.ok cE1, cE1) from rfl)]
  simp only [show cE1.br.has_bits = true from rfl, if_true]
  rw [M.bind_ok dnw_e10_2]
  decide

/-- Full run: a fresh instance decodes e10P; the empty-word token is kept
(only single-space tokens are dropped), so the output is " x" - the join of
[[], ['x']]. -/
theorem dec_e10 : decodeFuel 300 initState e10P =
    some (.ok [' ', 'x'], cE2.st) := by
  simp only [decodeFuel]
  rw [show ({ st := initState, bw := BitWriter.init, br := BitReader.init e10P } : Ctx)
      = cD e10P from rfl]
  rw [dloop_e10]
  rfl

end AHuff

namespace AHuff

/-! ## Claim C2: initial tree shape and the key counter

The initial tree is exactly as claimed (root key 3, weight 0, left child
the NYT leaf key 1, right child the NCW leaf key 2), but the next-assigned
key counter starts at 3, not 4: `self._next_key: int = 3` (line 161),
although its own comment reserves key 3 for the root.  Consequently the
first node created after initialization - the word leaf of the first
insertion - receives key 3, the root's key, not key 4. -/

/-- C2: in the fresh state the root (arena index 2) has key 3 and weight 0,
its left child is the NYT leaf (index 0, key 1, weight 0) and its right
child the NCW leaf (index 1, key 2, weight 0); but the key counter starts
at 3, and the first node created after initialization (the leaf of "a",
arena index 3, created by encoding "a") receives key 3, not 4 as claimed. -/
theorem c2_initial_tree_and_key_counter :
    (getNode initState 2).key = 3 ∧ (getNode initState 2).weight = 0 ∧
    (getNode initState 2).left = some 0 ∧ (getNode initState 2).right = some 1 ∧
    (getNode initState 0).isNyt = true ∧ (getNode initState 0).key = 1 ∧
    (getNode initState 0).weight = 0 ∧
    (getNode initState 1).isNcw = true ∧ (getNode initState 1).key = 2 ∧
    (getNode initState 1).weight = 0 ∧
    initState.root = 2 ∧ initState.nodes.length = 3 ∧
    initState.nextKey = 3 ∧
    (encSt 100 initState (String.toList "a")).map (fun s => (getNode s 3).key) =
      some 3 := by
  refine ⟨rfl, rfl, rfl, rfl, rfl, rfl, rfl, rfl, rfl, rfl, rfl, rfl, rfl, ?_⟩
  rw [encSt, enc_a]
  rfl

/-! ## Claim C3: key uniqueness

Violated: keys are handed out by `self._next_key`, which starts at 3
although the root already carries key 3 (see C2), so after the very first
insertion two nodes of the tree share key 3.  The violating state is
reached by the single completed call encode("a") on a fresh instance. -/

/-- C3 counter-evidence: after a fresh instance encodes "a" (one completed
encode call), the root (index 2) and the word leaf of "a" (index 3, in the
tree: it is the left child of the left child of the root) are two distinct
nodes both carrying key 3. -/
theorem c3_duplicate_keys_after_one_encode :
    (encSt 100 initState (String.toList "a")).map
      (fun s => ((getNode s 2).key, (getNode s 3).key,
        s.root, (getNode s 2).left, (getNode s 0).left)) =
      some (3, 3, 2, some 0, some 3) := by
  rw [encSt, enc_a]
  rfl

/-! ## Claim C9: unknown-word escape -/

/-- C9: a fresh encoder encoding "alpha" produces the payload bytes
0x80 0x00 0x05 0x61 0x6c 0x70 0x68 0x61: the first byte 0x80 = 10000000 is
the single path bit 1 (the initial NCW leaf is the root's right child)
zero-padded to a byte boundary, followed by the big-endian 16-bit length 5
and the five raw bytes of "alpha". -/
theorem c9_alpha_escape_payload :
    encRes 100 initState (String.toList "alpha") =
      some (.ok [0x80, 0x00, 0x05, 0x61, 0x6C, 0x70, 0x68, 0x61]) := by
  rw [encRes, enc_alpha]
  rfl

/-! ## Claim C6: NCW increment asymmetry

_encode_word (lines 198-218) contains no explicit increment of the NCW
leaf when it emits a new word: after the escape path is written it only
flushes, writes the length and raw bytes, and calls _insert_new_word, whose
weight walk starts at the new word leaf.  _decode_next_word (lines 239-247)
does call _increment_weight on the NCW leaf first, before align_to_byte,
read_uint16, read_bytes and the insertion.  Observable consequence proved
below: after a fresh encoder encodes "alpha" its NCW weight is still 0,
while a fresh decoder decoding that very payload returns "alpha" with its
NCW leaf at weight 1. -/

/-- C6: encoding "alpha" on a fresh instance leaves the NCW leaf at weight
0 (the escape emission does not increment it and the insertion walk does
not pass through it), while decoding the produced payload on a fresh
instance returns "alpha" and leaves the decoder's NCW leaf at weight 1 -
the explicit increment(NCW) happens on the decode side only, before the
length and raw bytes are read. -/
theorem c6_ncw_increment_asymmetry :
    encRes 100 initState (String.toList "alpha") = some (.ok alP) ∧
    (encSt 100 initState (String.toList "alpha")).map
      (fun s => (getNode s s.ncw).weight) = some 0 ∧
    decRes 200 initState alP = some (.ok (String.toList "alpha")) ∧
    (decSt 200 initState alP).map (fun s => (getNode s s.ncw).weight) =
      some 1 := by
  refine ⟨?_, ?_, ?_, ?_⟩
  · rw [encRes, enc_alpha]; rfl
  · rw [encSt, enc_alpha]; rfl
  · rw [decRes, dec_alpha]; rfl
  · rw [decSt, dec_alpha]; rfl

end AHuff

/-! ### Fuel monotonicity

Every fueled loop is deterministic: a result obtained with some amount of
fuel is also obtained with any larger amount.  These lemmas let concrete
evaluations at a fixed fuel be lifted to arbitrary fuel. -/

namespace AHuff

theorem is_ancestor_loop_mono {s : State} {anc : Nat} {fuel : Nat}
    {st : Option Nat} {b : Bool}
    (h : is_ancestor_loop s anc fuel st = some b) :
    is_ancestor_loop s anc (fuel + 1) st = some b := by
  induction fuel generalizing st with
  | zero =>
    cases st with
    | none => exact h
    | some cur => simp [is_ancestor_loop] at h
  | succ n ih =>
    cases st with
    | none => exact h
    | some cur =>
      simp only [is_ancestor_loop] at h ⊢
      by_cases hc : (cur == anc) = true
      · simp only [hc, if_true] at h ⊢; exact h
      · simp only [hc, Bool.false_eq_true, if_false] at h ⊢
        exact ih h

theorem is_ancestor_loop_ge {s : State} {anc : Nat} {fuel m : Nat}
    {st : Option Nat} {b : Bool} (hle : fuel ≤ m)
    (h : is_ancestor_loop s anc fuel st = some b) :
    is_ancestor_loop s anc m st = some b := by
  induction m with
  | zero => cases Nat.le_zero.mp hle; exact h
  | succ n ih =>
    rcases Nat.lt_or_ge fuel (n + 1) with hlt | hge
    · exact is_ancestor_loop_mono (ih (Nat.lt_succ_iff.mp hlt))
    · cases Nat.le_antisymm hle hge; exact h


theorem find_highest_loop_mono {s : State} {tw nd fuel : Nat}
    {stack : List Nat} {hst : Nat} {r : Nat}
    (h : find_highest_loop s tw nd fuel stack hst = some r) :
    find_highest_loop s tw nd (fuel + 1) stack hst = some r := by
  induction fuel generalizing stack hst with
  | zero =>
    cases stack with
    | nil => exact h
    | cons cur rest => simp [find_highest_loop] at h
  | succ n ih =>
    cases stack with
    | nil => exact h
    | cons cur rest =>
      simp only [find_highest_loop] at h ⊢
      rcases ha : (if (getNode s cur).weight == tw &&
          decide ((getNode s hst).key < (getNode s cur).key) then
          is_ancestor n s cur nd else some false) with _ | anc
      · rw [ha] at h; exact Option.noConfusion h
      · have ha' : (if (getNode s cur).weight == tw &&
            decide ((getNode s hst).key < (getNode s cur).key) then
            is_ancestor (n + 1) s cur nd else some false) = some anc := by
          by_cases hc : ((getNode s cur).weight == tw &&
              decide ((getNode s hst).key < (getNode s cur).key)) = true
          · rw [if_pos hc] at ha ⊢; exact is_ancestor_loop_mono ha
          · rw [if_neg hc] at ha ⊢; exact ha
        rw [ha] at h; rw [ha']
        exact ih h


theorem find_highest_loop_ge {s : State} {tw nd fuel m : Nat}
    {stack : List Nat} {hst : Nat} {r : Nat} (hle : fuel ≤ m)
    (h : find_highest_loop s tw nd fuel stack hst = some r) :
    find_highest_loop s tw nd m stack hst = some r := by
  induction m with
  | zero => cases Nat.le_zero.mp hle; exact h
  | succ n ih =>
    rcases Nat.lt_or_ge fuel (n + 1) with hlt | hge
    · exact find_highest_loop_mono (ih (Nat.lt_succ_iff.mp hlt))
    · cases Nat.le_antisymm hle hge; exact h

theorem find_highest_ge {s : State} {nd fuel m r : Nat} (hle : fuel ≤ m)
    (h : find_highest_node_in_block fuel s nd = some r) :
    find_highest_node_in_block m s nd = some r :=
  find_highest_loop_ge hle h

theorem path_to_node_loop_mono {s : State} {fuel cur : Nat} {path : List Bool}
    {r : Except PyErr (List Bool)}
    (h : path_to_node_loop s fuel cur path = some r) :
    path_to_node_loop s (fuel + 1) cur path = some r := by
  induction fuel generalizing cur path with
  | zero => simp [path_to_node_loop] at h
  | succ n ih =>
    simp only [path_to_node_loop] at h ⊢
    by_cases hc : (cur == s.root) = true
    · simp only [hc, if_true] at h ⊢; exact h
    · simp only [hc, Bool.false_eq_true, if_false] at h ⊢
      rcases hp : (getNode s cur).parent with _ | p
      · rw [hp] at h; exact h
      · rw [hp] at h; exact ih h

theorem path_to_node_ge {s : State} {fuel m node : Nat}
    {r : Except PyErr (List Bool)} (hle : fuel ≤ m)
    (h : path_to_node fuel s node = some r) : path_to_node m s node = some r := by
  induction m with
  | zero => cases Nat.le_zero.mp hle; exact h
  | succ n ih =>
    rcases Nat.lt_or_ge fuel (n + 1) with hlt | hge
    · exact path_to_node_loop_mono (ih (Nat.lt_succ_iff.mp hlt))
    · cases Nat.le_antisymm hle hge; exact h


theorem increment_weight_loop_mono {fuel : Nat} {s : State} {nd : Option Nat}
    {r : Option PyErr × State}
    (h : increment_weight_loop fuel s nd = some r) :
    increment_weight_loop (fuel + 1) s nd = some r := by
  induction fuel generalizing s nd with
  | zero =>
    cases nd with
    | none => exact h
    | some node => simp [increment_weight_loop] at h
  | succ n ih =>
    cases nd with
    | none => exact h
    | some node =>
      rcases hf : find_highest_node_in_block n s node with _ | highest
      · simp only [increment_weight_loop, hf] at h
        exact Option.noConfusion h
      · have hf2 := find_highest_ge (Nat.le_succ n) hf
        simp only [increment_weight_loop, hf] at h
        simp only [increment_weight_loop, hf2]
        by_cases hd : (highest != node &&
            (getNode s node).parent != some highest &&
            (getNode s highest).parent != some node) = true
        · rw [if_pos hd] at h ⊢
          rcases hys : swap_nodes s node highest with ⟨oe, s2⟩
          rw [hys] at h
          cases oe with
          | some e => exact h
          | none => exact ih h
        · rw [if_neg hd] at h ⊢
          exact ih h

theorem increment_weight_loop_ge {fuel m : Nat} {s : State} {nd : Option Nat}
    {r : Option PyErr × State} (hle : fuel ≤ m)
    (h : increment_weight_loop fuel s nd = some r) :
    increment_weight_loop m s nd = some r := by
  induction m with
  | zero => cases Nat.le_zero.mp hle; exact h
  | succ n ih =>
    rcases Nat.lt_or_ge fuel (n + 1) with hlt | hge
    · exact increment_weight_loop_mono (ih (Nat.lt_succ_iff.mp hlt))
    · cases Nat.le_antisymm hle hge; exact h


theorem increment_weight_ge {fuel m : Nat} {s : State} {n : Nat}
    {r : Option PyErr × State} (hle : fuel ≤ m)
    (h : increment_weight fuel s n = some r) : increment_weight m s n = some r :=
  increment_weight_loop_ge hle h

theorem insert_new_word_ge {fuel m : Nat} {s : State} {w : List Char}
    {r : Option PyErr × State} (hle : fuel ≤ m)
    (h : insert_new_word fuel s w = some r) : insert_new_word m s w = some r :=
  increment_weight_loop_ge hle h

theorem M.bind_apply {α β : Type} (x : M α) (f : α → M β) (c : Ctx) :
    (x >>= f) c = (match x c with
      | none => none
      | some (.error e, c2) => some (.error e, c2)
      | some (.ok a, c2) => f a c2) := rfl

theorem M.getCtx_apply (c : Ctx) : M.getCtx c = some (.ok c, c) := rfl

theorem M.pure_apply {α : Type} (a : α) (c : Ctx) :
    (pure a : M α) c = some (.ok a, c) := rfl

theorem M.modBw_apply (f : BitWriter → BitWriter) (c : Ctx) :
    M.modBw f c = some (.ok (), { c with bw := f c.bw }) := rfl

theorem M.throw_apply {α : Type} (e : PyErr) (c : Ctx) :
    (M.throw e : M α) c = some (.error e, c) := rfl

theorem M.dead_apply {α : Type} (c : Ctx) : (M.dead : M α) c = none := rfl

theorem M.liftTree_apply (x : State → Option (Option PyErr × State)) (c : Ctx) :
    M.liftTree x c = (match x c.st with
      | none => none
      | some (some e, s2) => some (.error e, { c with st := s2 })
      | some (none, s2) => some (.ok (), { c with st := s2 })) := rfl

theorem M.liftRead_apply {α : Type} (x : BitReader → Except PyErr (α × BitReader))
    (c : Ctx) :
    M.liftRead x c = (match x c.br with
      | .error e => some (.error e, c)
      | .ok (a, r2) => some (.ok a, { c with br := r2 })) := rfl


theorem encode_word_ge {fuel m : Nat} {w : List Char} {c : Ctx}
    {r : Except PyErr Unit × Ctx} (hle : fuel ≤ m)
    (h : encode_word fuel w c = some r) : encode_word m w c = some r := by
  rcases hp : path_to_node fuel c.st ((c.st.leaves.lookup w).getD c.st.ncw)
    with _ | er
  · simp only [encode_word, M.bind_apply, M.getCtx_apply, M.dead_apply, hp] at h
    exact Option.noConfusion h
  · have hp2 := path_to_node_ge hle hp
    simp only [encode_word, M.bind_apply, M.getCtx_apply, hp] at h
    simp only [encode_word, M.bind_apply, M.getCtx_apply, hp2]
    cases er with
    | error e => exact h
    | ok path =>
      simp only [M.modBw_apply] at h ⊢
      by_cases hn : (c.st.leaves.lookup w).isNone = true
      · simp only [hn, if_true] at h ⊢
        by_cases hlen : (2 ^ 16 ≤ (utf8Encode w).length) = True
        · simp only [hlen, if_true] at h ⊢
          exact h
        · simp only [eq_iff_iff, iff_true] at hlen
          simp only [if_neg hlen] at h ⊢
          simp only [M.bind_apply, M.modBw_apply, M.liftTree_apply] at h ⊢
          rcases hi : insert_new_word fuel c.st w with _ | ⟨oe, s2⟩
          · rw [hi] at h; exact Option.noConfusion h
          · rw [hi] at h
            rw [insert_new_word_ge hle hi]
            cases oe with
            | some e => exact h
            | none => exact h
      · simp only [hn, Bool.false_eq_true, if_false] at h ⊢
        rcases hl : c.st.leaves.lookup w with _ | leaf
        · simp only [hl] at h ⊢
          exact h
        · simp only [hl, M.bind_apply, M.modBw_apply, M.liftTree_apply] at h ⊢
          rcases hi : increment_weight fuel c.st leaf with _ | ⟨oe, s2⟩
          · rw [hi] at h; exact Option.noConfusion h
          · rw [hi] at h
            rw [increment_weight_ge hle hi]
            cases oe with
            | some e => exact h
            | none => exact h

end AHuff

namespace AHuff

/-! ### Divergence of the second insertion

For any first word w, after a fresh encoder has inserted w, inserting the
separator word " " corrupts the tree: during the weight walk the internal
node 0 (weight 1) is swapped with its own grandchild, the " " leaf (weight
1, key 5), because _find_highest_node_in_block excludes only ancestors -
contradicting its own docstring "not in node's subtree".  The swap makes
nodes 0 and 4 each other's parent, after which _is_ancestor walks the
parent cycle 0 - 4 - 0 - ... forever.  The states below are the exact
states of that walk, parametric in w (the walk never reads the symbol
field). -/

/-- Tree state after a fresh encoder inserted its first word w. -/
def stB1 (w : List Char) : State :=
  ⟨[N none 1 1 (some 3) (some 4) (some 2) false false,
    N none 0 2 none none (some 2) false true,
    N none 1 3 (some 0) (some 1) none false false,
    N (some w) 1 3 none none (some 0) false false,
    N none 0 4 none none (some 0) true false],
   [(w, 3)], 5, 4, 1, 2⟩

/-- stB1 after the structural setup of inserting " " (leaf 5, new NYT 6),
before the weight walk. -/
def sB2 (w : List Char) : State :=
  ⟨[N none 1 1 (some 3) (some 4) (some 2) false false,
    N none 0 2 none none (some 2) false true,
    N none 1 3 (some 0) (some 1) none false false,
    N (some w) 1 3 none none (some 0) false false,
    N none 0 4 (some 6) (some 5) (some 0) false false,
    N (some [' ']) 0 5 none none (some 4) false false,
    N none 0 6 none none (some 4) true false],
   [([' '], 5), (w, 3)], 7, 6, 1, 2⟩

/-- sB2 after walk step 1: leaf 5 is swapped with its sibling 6 and
incremented. -/
def sB3 (w : List Char) : State :=
  ⟨[N none 1 1 (some 3) (some 4) (some 2) false false,
    N none 0 2 none none (some 2) false true,
    N none 1 3 (some 0) (some 1) none false false,
    N (some w) 1 3 none none (some 0) false false,
    N none 0 4 (some 5) (some 6) (some 0) false false,
    N (some [' ']) 1 5 none none (some 4) false false,
    N none 0 6 none none (some 4) true false],
   [([' '], 5), (w, 3)], 7, 6, 1, 2⟩

/-- sB3 after walk step 2: node 4 is incremented (no swap, its candidate 6
is its own child). -/
def sB4 (w : List Char) : State :=
  ⟨[N none 1 1 (some 3) (some 4) (some 2) false false,
    N none 0 2 none none (some 2) false true,
    N none 1 3 (some 0) (some 1) none false false,
    N (some w) 1 3 none none (some 0) false false,
    N none 1 4 (some 5) (some 6) (some 0) false false,
    N (some [' ']) 1 5 none none (some 4) false false,
    N none 0 6 none none (some 4) true false],
   [([' '], 5), (w, 3)], 7, 6, 1, 2⟩

/-- sB4 after walk step 3, the corrupting step: node 0 (weight 1) is
swapped with the equal-weight grandchild leaf 5 (key 5, the block maximum
among non-ancestors) and incremented.  Now node 0's parent is 4 and node
4's parent is 0: a parent cycle disconnected from the root. -/
def sB5 (w : List Char) : State :=
  ⟨[N none 2 1 (some 3) (some 4) (some 4) false false,
    N none 0 2 none none (some 2) false true,
    N none 1 3 (some 5) (some 1) none false false,
    N (some w) 1 3 none none (some 0) false false,
    N none 1 4 (some 0) (some 6) (some 0) false false,
    N (some [' ']) 1 5 none none (some 2) false false,
    N none 0 6 none none (some 4) true false],
   [([' '], 5), (w, 3)], 7, 6, 1, 2⟩

/-- Walking up from a node whose parent chain alternates between i and j
never terminates: _is_ancestor's loop returns nothing at any fuel. -/
theorem is_ancestor_loop_cyc {s : State} {anc i j : Nat}
    (hij : (getNode s i).parent = some j) (hji : (getNode s j).parent = some i)
    (hai : (i == anc) = false) (haj : (j == anc) = false) :
    ∀ (fuel : Nat) (st : Option Nat), (st = some i ∨ st = some j) →
      is_ancestor_loop s anc fuel st = none := by
  intro fuel
  induction fuel with
  | zero => rintro _ (rfl | rfl) <;> rfl
  | succ n ih =>
    rintro _ (rfl | rfl)
    · simp only [is_ancestor_loop, hai, Bool.false_eq_true, if_false, hij]
      exact ih _ (Or.inr rfl)
    · simp only [is_ancestor_loop, haj, Bool.false_eq_true, if_false, hji]
      exact ih _ (Or.inl rfl)

/-- In the corrupted state, _is_ancestor(" "-leaf, node 4) diverges: node
4's parent chain is the cycle 0 - 4. -/
theorem spc_anc_dead (w : List Char) (f : Nat) :
    is_ancestor f (sB5 w) 5 4 = none := by
  show is_ancestor_loop (sB5 w) 5 f (getNode (sB5 w) 4).parent = none
  rw [show (getNode (sB5 w) 4).parent = some 0 from rfl]
  exact is_ancestor_loop_cyc (show (getNode (sB5 w) 0).parent = some 4 from rfl)
    (show (getNode (sB5 w) 4).parent = some 0 from rfl)
    (show ((0 : Nat) == 5) = false from rfl) (show ((4 : Nat) == 5) = false from rfl)
    f (some 0) (Or.inl rfl)

/-- In the corrupted state, _find_highest_node_in_block(node 4) diverges:
the DFS reaches the relocated " " leaf (weight 1, key 5 greater than key 4)
and calls the diverging _is_ancestor. -/
theorem spc_find_dead (w : List Char) : ∀ f : Nat,
    find_highest_node_in_block f (sB5 w) 4 = none := by
  intro f
  rcases Nat.lt_or_ge f 3 with hf | hf
  · interval_cases f <;> rfl
  · obtain ⟨n, rfl⟩ : ∃ n, f = n + 3 := ⟨f - 3, by omega⟩
    show find_highest_loop (sB5 w) 1 4 (n + 3) [2] 4 = none
    rw [show find_highest_loop (sB5 w) 1 4 (n + 3) [2] 4 =
      find_highest_loop (sB5 w) 1 4 (n + 2) [1, 5] 4 from rfl]
    rw [show find_highest_loop (sB5 w) 1 4 (n + 2) [1, 5] 4 =
      find_highest_loop (sB5 w) 1 4 (n + 1) [5] 4 from rfl]
    simp only [find_highest_loop]
    rw [if_pos (show ((getNode (sB5 w) 5).weight == 1 &&
      decide ((getNode (sB5 w) 4).key < (getNode (sB5 w) 5).key)) = true from rfl)]
    rw [spc_anc_dead w n]


/-- The weight walk can never leave the parent cycle: from node 4 in the
corrupted state, _increment_weight diverges at any fuel. -/
theorem spc_inc5_dead (w : List Char) : ∀ f : Nat,
    increment_weight_loop f (sB5 w) (some 4) = none := by
  intro f
  cases f with
  | zero => rfl
  | succ n =>
    simp only [increment_weight_loop]
    rw [spc_find_dead w n]

/-- Walk step 3 (from node 0 in sB4) performs the corrupting swap with the
grandchild leaf 5 and then diverges. -/
theorem spc_inc4_dead (w : List Char) : ∀ f : Nat,
    increment_weight_loop f (sB4 w) (some 0) = none := by
  intro f
  cases f with
  | zero => rfl
  | succ n =>
    rcases Nat.lt_or_ge n 7 with hn | hn
    · interval_cases n <;> rfl
    · simp only [increment_weight_loop]
      rw [find_highest_ge hn
        (show find_highest_node_in_block 7 (sB4 w) 0 = some 5 from rfl)]
      exact spc_inc5_dead w n

/-- Walk step 2 (from node 4 in sB3): no swap, increment, continue at node
0, then diverge. -/
theorem spc_inc3_dead (w : List Char) : ∀ f : Nat,
    increment_weight_loop f (sB3 w) (some 4) = none := by
  intro f
  cases f with
  | zero => rfl
  | succ n =>
    rcases Nat.lt_or_ge n 7 with hn | hn
    · interval_cases n <;> rfl
    · simp only [increment_weight_loop]
      rw [find_highest_ge hn
        (show find_highest_node_in_block 7 (sB3 w) 4 = some 6 from rfl)]
      exact spc_inc4_dead w n

/-- Walk step 1 (from the new " " leaf 5 in sB2): sibling swap with the new
NYT 6, increment, continue at node 4, then diverge. -/
theorem spc_inc2_dead (w : List Char) : ∀ f : Nat,
    increment_weight_loop f (sB2 w) (some 5) = none := by
  intro f
  cases f with
  | zero => rfl
  | succ n =>
    rcases Nat.lt_or_ge n 9 with hn | hn
    · interval_cases n <;> rfl
    · simp only [increment_weight_loop]
      rw [find_highest_ge hn
        (show find_highest_node_in_block 9 (sB2 w) 5 = some 6 from rfl)]
      exact spc_inc3_dead w n

/-- Inserting the separator word " " after any first word w diverges: the
setup produces sB2 and the weight walk never returns. -/
theorem spc_insert_dead (w : List Char) (f : Nat) :
    insert_new_word f (stB1 w) [' '] = none :=
  spc_inc2_dead w f


/-- The escape path to the NCW leaf in stB1: possible results of
_path_to_node(NCW) at any fuel. -/
theorem spc_path_spec (w : List Char) : ∀ f : Nat,
    path_to_node f (stB1 w) 1 = none ∨
    path_to_node f (stB1 w) 1 = some (.ok [true]) := by
  intro f
  rcases Nat.lt_or_ge f 2 with hf | hf
  · interval_cases f <;> exact Or.inl rfl
  · exact Or.inr (path_to_node_ge hf rfl)

/-- Encoding the separator word " " from the state reached after a first
word w was inserted diverges, whatever the bit writer holds. -/
theorem spc_ew_dead (w : List Char) (hsp : (([' '] : List Char) == w) = false)
    (bw : BitWriter) (f : Nat) :
    encode_word f [' '] ⟨stB1 w, bw, ⟨[], 0, 0⟩⟩ = none := by
  have hlk : List.lookup [' '] (stB1 w).leaves = none := by
    simp only [stB1, List.lookup, hsp, Bool.false_eq_true, if_false]
  simp only [encode_word, M.bind_apply, M.getCtx_apply, hlk, Option.getD,
    Option.isNone]
  rw [show (stB1 w).ncw = 1 from rfl]
  rcases spc_path_spec w f with hp | hp
  · rw [hp]; rfl
  · rw [hp]
    simp only [M.bind_apply, M.modBw_apply, if_true]
    rw [if_neg (show ¬(2 ^ 16 ≤ (utf8Encode [' ']).length) from by decide)]
    simp only [M.bind_apply, M.modBw_apply, M.liftTree_apply]
    rw [spc_insert_dead w f]


/-- After the first word, the loop of _encode_internal always encodes the
separator " " next - which diverges. -/
theorem spc_loop_dead (w : List Char) (hsp : (([' '] : List Char) == w) = false)
    (w2 : List Char) (ws : List (List Char)) (bw : BitWriter) (f : Nat) :
    encode_words_loop f (w2 :: ws) false ⟨stB1 w, bw, ⟨[], 0, 0⟩⟩ = none := by
  rw [show encode_words_loop f (w2 :: ws) false ⟨stB1 w, bw, ⟨[], 0, 0⟩⟩ =
    ((do
      if (false : Bool) then pure () else encode_word f [' ']
      encode_word f w2
      encode_words_loop f ws false) : M Unit) ⟨stB1 w, bw, ⟨[], 0, 0⟩⟩ from rfl]
  simp only [Bool.false_eq_true, if_false]
  exact M.bind_dead (spc_ew_dead w hsp bw f)

theorem ew_hello : encode_word 8 ['h', 'e', 'l', 'l', 'o'] c0 =
    some (.ok (), ⟨stB1 ['h', 'e', 'l', 'l', 'o'],
      ⟨[128, 0, 5, 104, 101, 108, 108, 111], 0, 0⟩, ⟨[], 0, 0⟩⟩) := by
  decide

/-! ## Claim C1: round-trip

The docstring of encoder.py itself promises
decode(encode("hello world hello")) == "hello world hello" for fresh
instances.  In fact encode("hello world hello") never returns: after
inserting "hello", the insertion of the separator " " swaps node 0 with its
own grandchild (the " " leaf) inside _increment_weight, making nodes 0 and
4 each other's parent; the next _find_highest_node_in_block call walks that
parent cycle in _is_ancestor forever.  The theorem shows encode returns
nothing at EVERY fuel bound, i.e. the Python loop runs forever, so the
round-trip property fails for every string of two or more words. -/

/-- C1: a fresh encoder applied to the docstring's own example
"hello world hello" diverges (returns nothing at any fuel), so
decode(encode(s)) = s fails for this s: encode(s) never produces a
payload. -/
theorem c1_roundtrip_encode_diverges (fuel : Nat) :
    encodeFuel fuel initState (String.toList "hello world hello") = none := by
  rcases Nat.lt_or_ge fuel 8 with hf | hf
  · interval_cases fuel <;> rfl
  · simp only [encodeFuel]
    rw [show (if (String.toList "hello world hello").isEmpty then
        ([] : List (List Char))
        else split_sp (String.toList "hello world hello")) =
      [['h', 'e', 'l', 'l', 'o'], ['w', 'o', 'r', 'l', 'd'],
       ['h', 'e', 'l', 'l', 'o']] from by decide]
    rw [show ({ st := initState, bw := BitWriter.init, br := BitReader.init [] } :
      Ctx) = c0 from rfl]
    rw [show encode_words_loop fuel [['h', 'e', 'l', 'l', 'o'],
        ['w', 'o', 'r', 'l', 'd'], ['h', 'e', 'l', 'l', 'o']] true c0 =
      ((do
        if (true : Bool) then pure () else encode_word fuel [' ']
        encode_word fuel ['h', 'e', 'l', 'l', 'o']
        encode_words_loop fuel [['w', 'o', 'r', 'l', 'd'],
          ['h', 'e', 'l', 'l', 'o']] false) : M Unit) c0 from rfl]
    simp only [if_true]
    rw [M.bind_ok (show (pure () : M Unit) c0 = some (.ok (), c0) from rfl)]
    rw [M.bind_ok (encode_word_ge hf ew_hello)]
    rw [spc_loop_dead ['h', 'e', 'l', 'l', 'o'] (by decide) _ _ _ fuel]


theorem ew_ab : encode_word 8 ['a', 'b'] c0 =
    some (.ok (), ⟨stB1 ['a', 'b'], ⟨[128, 0, 2, 97, 98], 0, 0⟩, ⟨[], 0, 0⟩⟩) := by
  decide

/-! ## Claim C7: encode failure condition

The claim says encode raises exactly on words of UTF-8 length at least
2^16 and returns a byte string without error on every other text.  The
error branch itself is faithful (line 210-211 raises ValueError on
len(raw) >= 2**16 before inserting), but the "returns without error"
half is false: for any text of two or more words - all of them short -
encode never returns at all, because inserting the separator " " corrupts
the tree into a parent cycle and _is_ancestor loops forever (see C1).
"ab cd" consists of the words "ab" and "cd", both of byte length 2. -/

/-- C7: a fresh encoder applied to "ab cd", whose words are all far below
2^16 bytes, does not return a byte string at any fuel - encode diverges
instead of succeeding, contradicting the claim's "for all texts whose
words are all shorter, encode returns a byte string without error". -/
theorem c7_short_words_encode_diverges (fuel : Nat) :
    encodeFuel fuel initState (String.toList "ab cd") = none := by
  rcases Nat.lt_or_ge fuel 8 with hf | hf
  · interval_cases fuel <;> rfl
  · simp only [encodeFuel]
    rw [show (if (String.toList "ab cd").isEmpty then ([] : List (List Char))
        else split_sp (String.toList "ab cd")) =
      [['a', 'b'], ['c', 'd']] from by decide]
    rw [show ({ st := initState, bw := BitWriter.init, br := BitReader.init [] } :
      Ctx) = c0 from rfl]
    rw [show encode_words_loop fuel [['a', 'b'], ['c', 'd']] true c0 =
      ((do
        if (true : Bool) then pure () else encode_word fuel [' ']
        encode_word fuel ['a', 'b']
        encode_words_loop fuel [['c', 'd']] false) : M Unit) c0 from rfl]
    simp only [if_true]
    rw [M.bind_ok (show (pure () : M Unit) c0 = some (.ok (), c0) from rfl)]
    rw [M.bind_ok (encode_word_ge hf ew_ab)]
    rw [spc_loop_dead ['a', 'b'] (by decide) _ _ _ fuel]

theorem ew_a8 : encode_word 8 ['a'] c0 =
    some (.ok (), ⟨stB1 ['a'], ⟨[128, 0, 1, 97], 0, 0⟩, ⟨[], 0, 0⟩⟩) := by
  decide

/-! ## Claim C10: empty word between two consecutive spaces

text.split(" ") turns two consecutive spaces into an empty word token, and
the decoder does append decoded empty-string tokens to its output list
(only the single-space separator token is dropped) - the decode half of the
claim is real, and is proved on the crafted stream e10P, whose first token
is an NCW escape with a 00 00 length header and no raw bytes: the decoded
token list is [[], ['x']], joined to " x".  The encode half, however, never
happens: any text containing two consecutive spaces splits into at least
three words, and encode diverges while inserting the separator " " after
the first word (see C1), before the empty word is ever reached, so the
claimed emission of the NCW escape followed by 00 00 is never produced. -/

/-- C10: encoding "a  b" (two consecutive spaces) on a fresh instance
diverges at any fuel - the escape-plus-00-00 emission for the empty word is
never reached - while the decode side does treat the empty word as an
ordinary token: decoding e10P (escape "" then escape "x") returns " x",
i.e. the token list [[], ['x']] with the empty token kept, not dropped. -/
theorem c10_empty_word_token (fuel : Nat) :
    encodeFuel fuel initState (String.toList "a  b") = none ∧
    decRes 300 initState e10P = some (.ok [' ', 'x']) := by
  refine ⟨?_, ?_⟩
  · rcases Nat.lt_or_ge fuel 8 with hf | hf
    · interval_cases fuel <;> rfl
    · simp only [encodeFuel]
      rw [show (if (String.toList "a  b").isEmpty then ([] : List (List Char))
          else split_sp (String.toList "a  b")) =
        [['a'], [], ['b']] from by decide]
      rw [show ({ st := initState, bw := BitWriter.init, br := BitReader.init [] } :
        Ctx) = c0 from rfl]
      rw [show encode_words_loop fuel [['a'], [], ['b']] true c0 =
        ((do
          if (true : Bool) then pure () else encode_word fuel [' ']
          encode_word fuel ['a']
          encode_words_loop fuel [[], ['b']] false) : M Unit) c0 from rfl]
      simp only [if_true]
      rw [M.bind_ok (show (pure () : M Unit) c0 = some (.ok (), c0) from rfl)]
      rw [M.bind_ok (encode_word_ge hf ew_a8)]
      rw [spc_loop_dead ['a'] (by decide) _ _ _ fuel]
  · rw [decRes, dec_e10]
    rfl

end AHuff

namespace AHuff

/-- The nodes visited by the stack scan of _find_highest_node_in_block, in
visit order: exactly the same traversal (pop the top, push left then
right), recorded instead of folded. -/
def dfs_list (s : State) : Nat → List Nat → Option (List Nat)
  | _, [] => some []
  | 0, _ :: _ => none
  | fuel+1, cur :: stack =>
    let stack := match (getNode s cur).left with
      | some l => l :: stack
      | none => stack
    let stack := match (getNode s cur).right with
      | some r => r :: stack
      | none => stack
    match dfs_list s fuel stack with
    | none => none
    | some l => some (cur :: l)

theorem is_ancestor_ge {s : State} {anc desc : Nat} {fuel m : Nat} {b : Bool}
    (hle : fuel ≤ m) (h : is_ancestor fuel s anc desc = some b) :
    is_ancestor m s anc desc = some b :=
  is_ancestor_loop_ge hle h

/-- _is_ancestor is deterministic across fuels. -/
theorem is_ancestor_det {s : State} {anc desc : Nat} {g1 g2 : Nat} {b1 b2 : Bool}
    (h1 : is_ancestor g1 s anc desc = some b1)
    (h2 : is_ancestor g2 s anc desc = some b2) : b1 = b2 := by
  have e1 := is_ancestor_ge (Nat.le_max_left g1 g2) h1
  have e2 := is_ancestor_ge (Nat.le_max_right g1 g2) h2
  rw [e1] at e2
  exact Option.some.inj e2

/-- What the scan loop of _find_highest_node_in_block actually computes:
when it terminates with result h, then h is either the incoming `hst`
accumulator or a scanned node of the target weight that _is_ancestor
rejected as ancestor; the accumulator's key never decreases; and h's key
dominates the key of every scanned node of the target weight that is not
an ancestor of `nd`. -/
theorem find_highest_loop_spec {s : State} {tw nd : Nat} :
    ∀ {fuel : Nat} {stack : List Nat} {hst h : Nat},
    find_highest_loop s tw nd fuel stack hst = some h →
    ∃ l, dfs_list s fuel stack = some l ∧
      (h = hst ∨ (h ∈ l ∧ (getNode s h).weight = tw ∧
        ∃ g, is_ancestor g s h nd = some false)) ∧
      (getNode s hst).key ≤ (getNode s h).key ∧
      ∀ u ∈ l, (getNode s u).weight = tw →
        (∃ g, is_ancestor g s u nd = some false) →
        (getNode s u).key ≤ (getNode s h).key := by
  intro fuel
  induction fuel with
  | zero =>
    intro stack hst h hh
    cases stack with
    | nil =>
      refine ⟨[], rfl, Or.inl (Option.some.inj hh).symm, ?_, ?_⟩
      · rw [(Option.some.inj hh)]
      · intro u hu; exact absurd hu (List.not_mem_nil u)
    | cons cur rest => simp [find_highest_loop] at hh
  | succ n ih =>
    intro stack hst h hh
    cases stack with
    | nil =>
      refine ⟨[], rfl, Or.inl (Option.some.inj hh).symm, ?_, ?_⟩
      · rw [(Option.some.inj hh)]
      · intro u hu; exact absurd hu (List.not_mem_nil u)
    | cons cur rest =>
      simp only [find_highest_loop] at hh
      rcases ha : (if ((getNode s cur).weight == tw &&
          decide ((getNode s hst).key < (getNode s cur).key)) = true then
          is_ancestor n s cur nd else some false) with _ | anc
      · rw [ha] at hh; exact Option.noConfusion hh
      · rw [ha] at hh
        rcases ih hh with ⟨l, hl, hmem, hkey, hmax⟩
        refine ⟨cur :: l, ?_, ?_, ?_, ?_⟩
        · simp only [dfs_list, hl]
        · rcases hmem with he | ⟨hin, hwt, hanc⟩
          · by_cases hc : ((getNode s cur).weight == tw &&
                decide ((getNode s hst).key < (getNode s cur).key)) = true
            · rw [if_pos hc] at ha
              by_cases hb : anc = true
              · subst hb
                simp only [Bool.not_true, Bool.and_false, Bool.false_eq_true,
                  if_false] at he
                exact Or.inl he
              · have hbf : anc = false := Bool.eq_false_iff.mpr hb
                subst hbf
                simp only [Bool.not_false, Bool.and_true, hc, if_true] at he
                refine Or.inr ⟨by rw [he]; exact List.mem_cons_self cur l, ?_, ?_⟩
                · rw [he]
                  have hc2 : (getNode s cur).weight == tw := by
                    have := hc
                    simp only [Bool.and_eq_true] at this
                    exact this.1
                  exact eq_of_beq hc2
                · exact ⟨n, by rw [he]; exact ha⟩
            · rw [Bool.eq_false_iff.mpr hc] at he
              simp only [Bool.false_and, Bool.false_eq_true, if_false] at he
              exact Or.inl he
          · exact Or.inr ⟨List.mem_cons_of_mem cur hin, hwt, hanc⟩
        · refine le_trans ?_ hkey
          by_cases hc : ((getNode s cur).weight == tw &&
              decide ((getNode s hst).key < (getNode s cur).key)) = true
          · by_cases hb : anc = true
            · subst hb
              simp only [Bool.not_true, Bool.and_false, Bool.false_eq_true,
                if_false]
              exact Nat.le_refl _
            · have hbf : anc = false := Bool.eq_false_iff.mpr hb
              subst hbf
              simp only [Bool.not_false, Bool.and_true, hc, if_true]
              have hc2 : decide ((getNode s hst).key < (getNode s cur).key) = true := by
                have := hc
                simp only [Bool.and_eq_true] at this
                exact this.2
              exact Nat.le_of_lt (of_decide_eq_true hc2)
          · rw [Bool.eq_false_iff.mpr hc]
            simp only [Bool.false_and, Bool.false_eq_true, if_false]
            exact Nat.le_refl _
        · intro u hu hwt hanc
          rcases List.mem_cons.mp hu with rfl | hin
          · by_cases hc : ((getNode s u).weight == tw &&
                decide ((getNode s hst).key < (getNode s u).key)) = true
            · rw [if_pos hc] at ha
              by_cases hb : anc = true
              · subst hb
                rcases hanc with ⟨g, hg⟩
                exact absurd (is_ancestor_det ha hg) (by simp)
              · have hbf : anc = false := Bool.eq_false_iff.mpr hb
                subst hbf
                simp only [Bool.not_false, Bool.and_true, hc, if_true] at hkey
                exact hkey
            · have hnk : ¬((getNode s hst).key < (getNode s u).key) := by
                intro hlt
                exact hc (by simp [Nat.beq_eq_true_eq, hwt, hlt])
              refine le_trans (Nat.le_of_not_lt hnk) ?_
              refine le_trans ?_ hkey
              rw [Bool.eq_false_iff.mpr hc]
              simp only [Bool.false_and, Bool.false_eq_true, if_false]
              exact Nat.le_refl _
          · exact hmax u hin hwt hanc


/-! ## Claim C5: the swap candidate

The claim says the candidate is the greatest-key node among ALL nodes of
the tree with v's weight.  The code (lines 304-317) excludes ancestors of v
from candidacy (`not self._is_ancestor(cur, node)`), so whenever an
equal-weight ancestor carries the greatest key the selected candidate is a
different node.  This happens already on the fresh tree at v = NCW: all
three nodes have weight 0, the greatest key belongs to the root (key 3, an
ancestor), and the scan keeps v itself (key 2).  The walk reaching this
very call is _increment_weight(NCW), which _decode_next_word performs first
on any fresh-instance stream whose first bit is 1; its first iteration
consults find_highest_node_in_block with fuel one less.  The amended
statement (proved, c5_swap_candidate_amended) keeps the claim's wording
but restricts the block to v itself and the scanned equal-weight nodes
that are not ancestors of v. -/

/-- C5 counterexample: on a fresh instance, at the walk node v = NCW
(index 1, weight 0), the selected candidate is NCW itself (key 2), although
the root (index 2) is a node of the tree with equal weight 0 and a
strictly greater key 3 - so the candidate is not the greatest-key node
among all equal-weight nodes, contradicting the claim as stated.  (The
tree has exactly the three initial nodes here, and the root's key is the
maximum of all three.) -/
theorem c5_candidate_not_global_max :
    find_highest_node_in_block 19 initState 1 = some 1 ∧
    (getNode initState 2).weight = (getNode initState 1).weight ∧
    (getNode initState 1).key < (getNode initState 2).key ∧
    initState.nodes.length = 3 ∧
    (getNode initState 0).key ≤ (getNode initState 2).key ∧
    (getNode initState 1).key ≤ (getNode initState 2).key ∧
    is_ancestor 19 initState 2 1 = some true := by
  decide

/-- C5 amended: whenever the scan of _find_highest_node_in_block
terminates, the selected candidate h is v itself or a scanned node of v's
weight that _is_ancestor rejected as an ancestor of v; and h's key is
maximal among v and all scanned nodes of v's weight that are not ancestors
of v (`dfs_list` records exactly the nodes the scan visits, in the same
pop/push order). -/
theorem c5_swap_candidate_amended {fuel : Nat} {s : State} {v h : Nat}
    {l : List Nat}
    (hf : find_highest_node_in_block fuel s v = some h)
    (hl : dfs_list s fuel [s.root] = some l) :
    (h = v ∨ (h ∈ l ∧ (getNode s h).weight = (getNode s v).weight ∧
      ∃ g, is_ancestor g s h v = some false)) ∧
    (getNode s v).key ≤ (getNode s h).key ∧
    ∀ u ∈ l, (getNode s u).weight = (getNode s v).weight →
      (∃ g, is_ancestor g s u v = some false) →
      (getNode s u).key ≤ (getNode s h).key := by
  rcases find_highest_loop_spec hf with ⟨l2, hl2, hmem, hkey, hmax⟩
  rw [hl] at hl2
  cases Option.some.inj hl2
  exact ⟨hmem, hkey, hmax⟩

/-- Witness for c5_swap_candidate_amended at the concrete counterexample
input: fresh state, v = NCW (index 1), scan list [2, 1, 0]. -/
theorem c5_swap_candidate_amended_witness :
    (1 = 1 ∨ ((1 : Nat) ∈ [2, 1, 0] ∧
      (getNode initState 1).weight = (getNode initState 1).weight ∧
      ∃ g, is_ancestor g initState 1 1 = some false)) ∧
    (getNode initState 1).key ≤ (getNode initState 1).key ∧
    ∀ u ∈ [2, 1, 0], (getNode initState u).weight = (getNode initState 1).weight →
      (∃ g, is_ancestor g initState u 1 = some false) →
      (getNode initState u).key ≤ (getNode initState 1).key :=
  @c5_swap_candidate_amended 20 initState 1 1 [2, 1, 0] (by decide) (by decide)

/-! ### Arena lemmas -/

theorem getNode_setNode_same {s : State} {i : Nat} {x : Node}
    (h : i < s.nodes.length) : getNode (setNode s i x) i = x := by
  simp only [getNode, setNode, List.getD]
  rw [List.get?_set_eq_of_lt _ h]
  rfl

theorem getNode_setNode_ne {s : State} {i j : Nat} {x : Node}
    (h : j ≠ i) : getNode (setNode s i x) j = getNode s j := by
  simp only [getNode, setNode, List.getD]
  rw [List.get?_set_ne _ _ (fun e => h e.symm)]

theorem getNode_setNode_oob {s : State} {i : Nat} {x : Node}
    (h : s.nodes.length ≤ i) : setNode s i x = s := by
  simp only [setNode, List.set_eq_of_length_le h]

theorem setNode_length {s : State} {i : Nat} {x : Node} :
    (setNode s i x).nodes.length = s.nodes.length := by
  simp [setNode]

theorem updNode_length {s : State} {i : Nat} {f : Node → Node} :
    (updNode s i f).nodes.length = s.nodes.length := setNode_length

theorem getNode_updNode_same {s : State} {i : Nat} {f : Node → Node}
    (h : i < s.nodes.length) : getNode (updNode s i f) i = f (getNode s i) :=
  getNode_setNode_same h

theorem getNode_updNode_ne {s : State} {i j : Nat} {f : Node → Node}
    (h : j ≠ i) : getNode (updNode s i f) j = getNode s j :=
  getNode_setNode_ne h

/-- getNode out of range yields the default node. -/
theorem getNode_oob {s : State} {i : Nat} (h : s.nodes.length ≤ i) :
    getNode s i = default := by
  simp only [getNode, List.getD]
  rw [List.get?_eq_none.mpr h]
  rfl

theorem parent_lt_of_some {s : State} {i p : Nat}
    (h : (getNode s i).parent = some p) : i < s.nodes.length := by
  by_contra hc
  rw [getNode_oob (Nat.le_of_not_lt hc)] at h
  exact Option.noConfusion h


/-! ### The well-formedness invariant

Everything encode and decode preserve about an AdaptiveHuffman instance,
strong enough to rule out the runtime errors of _swap_nodes and of the
decoding walk and to carry the weight-additivity argument. -/

/-- Parent pointers are backed by a child slot of a valid parent. -/
def PC (s : State) : Prop :=
  ∀ i p, (getNode s i).parent = some p →
    p < s.nodes.length ∧
      ((getNode s p).left = some i ∨ (getNode s p).right = some i)

/-- Child slots are backed by the child's parent pointer. -/
def CP (s : State) : Prop :=
  (∀ i l, (getNode s i).left = some l → (getNode s l).parent = some i) ∧
  (∀ i r, (getNode s i).right = some r → (getNode s r).parent = some i)

/-- Both children or none (Python nodes always have 0 or 2 children). -/
def Arity (s : State) : Prop :=
  ∀ i, (getNode s i).left = none ↔ (getNode s i).right = none

/-- The two children of a node are distinct. -/
def Distinct (s : State) : Prop :=
  ∀ i l r, (getNode s i).left = some l → (getNode s i).right = some r → l ≠ r

/-- What the instance knows about its NYT pointer: in range, a leaf, NYT
flag set, NCW flag clear, weight 0. -/
def NytOk (s : State) : Prop :=
  s.nyt < s.nodes.length ∧ (getNode s s.nyt).left = none ∧
  (getNode s s.nyt).right = none ∧ (getNode s s.nyt).isNyt = true ∧
  (getNode s s.nyt).isNcw = false ∧ (getNode s s.nyt).weight = 0

/-- The root: in range, parentless, internal. -/
def RootOk (s : State) : Prop :=
  s.root < s.nodes.length ∧ (getNode s s.root).parent = none ∧
  (getNode s s.root).left.isSome = true

/-- Word-index entries point at word leaves (never at the NYT leaf, which
is the only leaf insertion ever turns into an internal node). -/
def MapOk (s : State) : Prop :=
  ∀ w i, (w, i) ∈ s.leaves →
    i < s.nodes.length ∧ (getNode s i).left = none ∧
    (getNode s i).right = none ∧ i ≠ s.nyt

/-- The weight of the child slot c (0 when the slot is empty). -/
def childWeight (s : State) (c : Option Nat) : Nat :=
  match c with
  | none => 0
  | some j => (getNode s j).weight

/-- Weight additivity with a pending increment at v: every node with
children carries the sum of its children's weights, except that the node v
(the one the walk of _increment_weight is about to increment) is one short.
With v = none this is plain weight additivity. -/
def PendAdd (s : State) (v : Option Nat) : Prop :=
  ∀ i, (getNode s i).left.isSome = true →
    childWeight s (getNode s i).left + childWeight s (getNode s i).right =
      (getNode s i).weight + (if v = some i then 1 else 0)

/-- Plain weight additivity: every internal node's weight is the sum of
its two children's weights. -/
def Additive (s : State) : Prop := PendAdd s none

/-- No node is its own parent. -/
def NoSelf (s : State) : Prop :=
  ∀ i p, (getNode s i).parent = some p → p ≠ i

/-- The structural half of the invariant (everything but the weights). -/
def TreeOk (s : State) : Prop :=
  PC s ∧ CP s ∧ Arity s ∧ Distinct s ∧ NoSelf s ∧ NytOk s ∧ RootOk s ∧
  MapOk s

/-- The full invariant. -/
def Inv (s : State) : Prop := TreeOk s ∧ Additive s

theorem inv_init : Inv initState := by
  refine ⟨⟨?_, ⟨?_, ?_⟩, ?_, ?_, ?_, ?_, ?_, ?_⟩, ?_⟩
  · intro i p hp
    match i with
    | 0 =>
      rw [show (getNode initState 0).parent = some 2 from rfl] at hp
      cases hp
      exact ⟨by decide, Or.inl rfl⟩
    | 1 =>
      rw [show (getNode initState 1).parent = some 2 from rfl] at hp
      cases hp
      exact ⟨by decide, Or.inr rfl⟩
    | 2 =>
      rw [show (getNode initState 2).parent = none from rfl] at hp
      exact Option.noConfusion hp
    | n+3 =>
      rw [getNode_oob (by simp [initState])] at hp
      exact Option.noConfusion hp
  · intro i l hl
    match i with
    | 0 =>
      rw [show (getNode initState 0).left = none from rfl] at hl
      exact Option.noConfusion hl
    | 1 =>
      rw [show (getNode initState 1).left = none from rfl] at hl
      exact Option.noConfusion hl
    | 2 =>
      rw [show (getNode initState 2).left = some 0 from rfl] at hl
      cases hl
      rfl
    | n+3 =>
      rw [getNode_oob (by simp [initState])] at hl
      exact Option.noConfusion hl
  · intro i r hr
    match i with
    | 0 =>
      rw [show (getNode initState 0).right = none from rfl] at hr
      exact Option.noConfusion hr
    | 1 =>
      rw [show (getNode initState 1).right = none from rfl] at hr
      exact Option.noConfusion hr
    | 2 =>
      rw [show (getNode initState 2).right = some 1 from rfl] at hr
      cases hr
      rfl
    | n+3 =>
      rw [getNode_oob (by simp [initState])] at hr
      exact Option.noConfusion hr
  · intro i
    match i with
    | 0 => decide
    | 1 => decide
    | 2 => decide
    | n+3 => rw [getNode_oob (by simp [initState])]; decide
  · intro i l r hl hr
    match i with
    | 0 =>
      rw [show (getNode initState 0).left = none from rfl] at hl
      exact Option.noConfusion hl
    | 1 =>
      rw [show (getNode initState 1).left = none from rfl] at hl
      exact Option.noConfusion hl
    | 2 =>
      rw [show (getNode initState 2).left = some 0 from rfl] at hl
      rw [show (getNode initState 2).right = some 1 from rfl] at hr
      cases hl
      cases hr
      decide
    | n+3 =>
      rw [getNode_oob (by simp [initState])] at hl
      exact Option.noConfusion hl
  · intro i p hp
    match i with
    | 0 =>
      rw [show (getNode initState 0).parent = some 2 from rfl] at hp
      cases hp
      decide
    | 1 =>
      rw [show (getNode initState 1).parent = some 2 from rfl] at hp
      cases hp
      decide
    | 2 =>
      rw [show (getNode initState 2).parent = none from rfl] at hp
      exact Option.noConfusion hp
    | n+3 =>
      rw [getNode_oob (by simp [initState])] at hp
      exact Option.noConfusion hp
  · exact ⟨by decide, rfl, rfl, rfl, rfl, rfl⟩
  · exact ⟨by decide, rfl, rfl⟩
  · intro w i hw
    exact absurd hw (by simp [initState])
  · intro i hi
    match i with
    | 0 => exact absurd hi (by decide)
    | 1 => exact absurd hi (by decide)
    | 2 => decide
    | n+3 =>
      rw [getNode_oob (by simp [initState])] at hi
      exact Bool.noConfusion hi


/-- Single rewriting rule for arena updates. -/
theorem upd_spec (s : State) (j : Nat) (f : Node → Node) (i : Nat) :
    getNode (updNode s j f) i =
      if i = j ∧ j < s.nodes.length then f (getNode s j) else getNode s i := by
  by_cases hij : i = j
  · subst hij
    by_cases hj : i < s.nodes.length
    · rw [getNode_updNode_same hj]
      simp [hj]
    · rw [updNode, getNode_setNode_oob (Nat.le_of_not_lt hj)]
      simp [hj]
  · rw [getNode_updNode_ne hij]
    simp [hij]

/-- Everything _swap_nodes guarantees when it succeeds.  The last clause
(children-weight sums are preserved at every node) additionally assumes
the swapped nodes have equal weight, which is how _increment_weight uses
it. -/
def SwapOut (s s' : State) (a b ap bp : Nat) : Prop :=
  s'.nodes.length = s.nodes.length ∧ s'.leaves = s.leaves ∧
  s'.nextKey = s.nextKey ∧ s'.nyt = s.nyt ∧ s'.ncw = s.ncw ∧
  s'.root = s.root ∧
  (∀ i, (getNode s' i).weight = (getNode s i).weight) ∧
  (∀ i, (getNode s' i).key = (getNode s i).key) ∧
  (∀ i, (getNode s' i).symbol = (getNode s i).symbol) ∧
  (∀ i, (getNode s' i).isNyt = (getNode s i).isNyt) ∧
  (∀ i, (getNode s' i).isNcw = (getNode s i).isNcw) ∧
  (∀ i, (getNode s' i).left.isSome = (getNode s i).left.isSome) ∧
  (∀ i, (getNode s' i).right.isSome = (getNode s i).right.isSome) ∧
  (getNode s' a).parent = some bp ∧ (getNode s' b).parent = some ap ∧
  (∀ i, i ≠ a → i ≠ b → (getNode s' i).parent = (getNode s i).parent) ∧
  PC s' ∧ CP s' ∧ Distinct s' ∧
  ((getNode s a).weight = (getNode s b).weight →
    ∀ i, childWeight s' (getNode s' i).left + childWeight s' (getNode s' i).right
      = childWeight s (getNode s i).left + childWeight s (getNode s i).right)

/-- The child-slot substitution a successful swap performs: a and b trade
places, every other slot is untouched. -/
def swapSlot (a b : Nat) : Option Nat → Option Nat
  | none => none
  | some c => if c = a then some b else if c = b then some a else some c

theorem swapSlot_isSome (a b : Nat) (c : Option Nat) :
    (swapSlot a b c).isSome = c.isSome := by
  cases c with
  | none => rfl
  | some x =>
    simp only [swapSlot]
    split_ifs <;> rfl

theorem swapSlot_inj {a b : Nat} {c d : Option Nat}
    (h : swapSlot a b c = swapSlot a b d) : c = d := by
  cases c with
  | none =>
    cases d with
    | none => rfl
    | some y =>
      simp only [swapSlot] at h
      split_ifs at h
  | some x =>
    cases d with
    | none =>
      simp only [swapSlot] at h
      split_ifs at h
    | some y =>
      simp only [swapSlot] at h
      split_ifs at h <;> refine congrArg some ?_ <;> injection h with h2 <;> omega

theorem swapSlot_id {a b : Nat} {c : Option Nat}
    (h1 : c ≠ some a) (h2 : c ≠ some b) : swapSlot a b c = c := by
  cases c with
  | none => rfl
  | some x =>
    have hx1 : ¬ x = a := fun e => h1 (by rw [e])
    have hx2 : ¬ x = b := fun e => h2 (by rw [e])
    simp [swapSlot, hx1, hx2]

/-- A slot of node i never holds x unless i is x's parent. -/
theorem slot_ne {s : State} {x xp i : Nat} (hcp : CP s)
    (hx : (getNode s x).parent = some xp) (hix : i ≠ xp) :
    (getNode s i).left ≠ some x ∧ (getNode s i).right ≠ some x := by
  constructor
  · intro h
    rw [hcp.1 i x h] at hx
    exact hix (Option.some.inj hx)
  · intro h
    rw [hcp.2 i x h] at hx
    exact hix (Option.some.inj hx)

/-- Core of the swap argument: a state whose child slots are those of s
with a and b traded, whose parent pointers are those of s with a's and b's
rewritten crosswise, and whose node attributes and bookkeeping agree with
s, satisfies everything SwapOut promises. -/
theorem swapout_core {s sf : State} {a b ap bp : Nat}
    (hpc : PC s) (hcp : CP s) (hdist : Distinct s)
    (hap : (getNode s a).parent = some ap)
    (hbp : (getNode s b).parent = some bp)
    (hab : a ≠ b)
    (hlen : sf.nodes.length = s.nodes.length)
    (hlv : sf.leaves = s.leaves) (hnk : sf.nextKey = s.nextKey)
    (hny : sf.nyt = s.nyt) (hnc : sf.ncw = s.ncw) (hrt : sf.root = s.root)
    (hw : ∀ i, (getNode sf i).weight = (getNode s i).weight)
    (hk : ∀ i, (getNode sf i).key = (getNode s i).key)
    (hsym : ∀ i, (getNode sf i).symbol = (getNode s i).symbol)
    (hyt : ∀ i, (getNode sf i).isNyt = (getNode s i).isNyt)
    (hcw : ∀ i, (getNode sf i).isNcw = (getNode s i).isNcw)
    (hpar : ∀ i, (getNode sf i).parent =
      (if i = a then some bp else if i = b then some ap
        else (getNode s i).parent))
    (hch : ∀ i, (getNode sf i).left = swapSlot a b ((getNode s i).left) ∧
      (getNode sf i).right = swapSlot a b ((getNode s i).right)) :
    SwapOut s sf a b ap bp := by
  have hba : b ≠ a := fun e => hab e.symm
  have hslota := (hpc a ap hap).2
  have hslotb := (hpc b bp hbp).2
  refine ⟨hlen, hlv, hnk, hny, hnc, hrt, hw, hk, hsym, hyt, hcw,
    ?_, ?_, ?_, ?_, ?_, ?_, ?_, ?_, ?_⟩
  · intro i
    rw [(hch i).1, swapSlot_isSome]
  · intro i
    rw [(hch i).2, swapSlot_isSome]
  · rw [hpar a, if_pos rfl]
  · rw [hpar b, if_neg hba, if_pos rfl]
  · intro i hia hib
    rw [hpar i, if_neg hia, if_neg hib]
  · -- PC
    intro i p hp
    rw [hpar i] at hp
    by_cases hia : i = a
    · rw [if_pos hia] at hp
      cases hp
      subst hia
      refine ⟨by rw [hlen]; exact (hpc b bp hbp).1, ?_⟩
      rcases hslotb with hL | hR
      · left
        rw [(hch bp).1, hL]
        simp [swapSlot, hba]
      · right
        rw [(hch bp).2, hR]
        simp [swapSlot, hba]
    · rw [if_neg hia] at hp
      by_cases hib : i = b
      · rw [if_pos hib] at hp
        cases hp
        subst hib
        refine ⟨by rw [hlen]; exact (hpc a ap hap).1, ?_⟩
        rcases hslota with hL | hR
        · left
          rw [(hch ap).1, hL]
          simp [swapSlot]
        · right
          rw [(hch ap).2, hR]
          simp [swapSlot]
      · rw [if_neg hib] at hp
        obtain ⟨hlt, hsl⟩ := hpc i p hp
        refine ⟨by rw [hlen]; exact hlt, ?_⟩
        rcases hsl with hL | hR
        · left
          rw [(hch p).1, hL, swapSlot_id (by simp [hia]) (by simp [hib])]
        · right
          rw [(hch p).2, hR, swapSlot_id (by simp [hia]) (by simp [hib])]
  · -- CP
    constructor
    · intro i l hl
      rw [(hch i).1] at hl
      rcases hLi : (getNode s i).left with _ | c
      · rw [hLi] at hl
        exact Option.noConfusion hl
      · rw [hLi] at hl
        simp only [swapSlot] at hl
        by_cases hca : c = a
        · rw [if_pos hca] at hl
          cases hl
          rw [hpar b, if_neg hba, if_pos rfl]
          have h2 := hcp.1 i c hLi
          rw [hca, hap] at h2
          exact h2
        · rw [if_neg hca] at hl
          by_cases hcb : c = b
          · rw [if_pos hcb] at hl
            cases hl
            rw [hpar a, if_pos rfl]
            have h2 := hcp.1 i c hLi
            rw [hcb, hbp] at h2
            exact h2
          · rw [if_neg hcb] at hl
            cases hl
            rw [hpar l, if_neg hca, if_neg hcb]
            exact hcp.1 i l hLi
    · intro i r hr
      rw [(hch i).2] at hr
      rcases hRi : (getNode s i).right with _ | c
      · rw [hRi] at hr
        exact Option.noConfusion hr
      · rw [hRi] at hr
        simp only [swapSlot] at hr
        by_cases hca : c = a
        · rw [if_pos hca] at hr
          cases hr
          rw [hpar b, if_neg hba, if_pos rfl]
          have h2 := hcp.2 i c hRi
          rw [hca, hap] at h2
          exact h2
        · rw [if_neg hca] at hr
          by_cases hcb : c = b
          · rw [if_pos hcb] at hr
            cases hr
            rw [hpar a, if_pos rfl]
            have h2 := hcp.2 i c hRi
            rw [hcb, hbp] at h2
            exact h2
          · rw [if_neg hcb] at hr
            cases hr
            rw [hpar r, if_neg hca, if_neg hcb]
            exact hcp.2 i r hRi
  · -- Distinct
    intro i l r hl hr
    rw [(hch i).1] at hl
    rw [(hch i).2] at hr
    rcases hLi : (getNode s i).left with _ | cl
    · rw [hLi] at hl
      exact Option.noConfusion hl
    rcases hRi : (getNode s i).right with _ | cr
    · rw [hRi] at hr
      exact Option.noConfusion hr
    rw [hLi] at hl
    rw [hRi] at hr
    have hne := hdist i cl cr hLi hRi
    intro he
    apply hne
    have hss : swapSlot a b (some cl) = swapSlot a b (some cr) := by
      rw [hl, hr, he]
    exact Option.some.inj (swapSlot_inj hss)
  · -- children-weight sums
    intro hweq i
    have key : ∀ c : Option Nat,
        childWeight sf (swapSlot a b c) = childWeight s c := by
      intro c
      cases c with
      | none => rfl
      | some x =>
        simp only [swapSlot]
        by_cases hxa : x = a
        · rw [if_pos hxa]
          show (getNode sf b).weight = (getNode s x).weight
          rw [hw b, hxa]
          exact hweq.symm
        · rw [if_neg hxa]
          by_cases hxb : x = b
          · rw [if_pos hxb]
            show (getNode sf a).weight = (getNode s x).weight
            rw [hw a, hxb]
            exact hweq
          · rw [if_neg hxb]
            exact hw x
    rw [(hch i).1, (hch i).2, key, key]

/-- Degenerate swap: a and b are siblings with a in the left slot, so the
two child replacements cancel and the parent writes restore the old
values; SwapOut holds with the state unchanged node for node. -/
theorem swapout_id {s sf : State} {a b ap : Nat}
    (hpc : PC s) (hcp : CP s) (hdist : Distinct s)
    (hap : (getNode s a).parent = some ap)
    (hbp : (getNode s b).parent = some ap)
    (hlen : sf.nodes.length = s.nodes.length)
    (hlv : sf.leaves = s.leaves) (hnk : sf.nextKey = s.nextKey)
    (hny : sf.nyt = s.nyt) (hnc : sf.ncw = s.ncw) (hrt : sf.root = s.root)
    (heq : ∀ i, getNode sf i = getNode s i) :
    SwapOut s sf a b ap ap := by
  have hcwEq : ∀ c, childWeight sf c = childWeight s c := by
    intro c
    cases c with
    | none => rfl
    | some x =>
      show (getNode sf x).weight = (getNode s x).weight
      rw [heq x]
  refine ⟨hlen, hlv, hnk, hny, hnc, hrt,
    fun i => by rw [heq i], fun i => by rw [heq i], fun i => by rw [heq i],
    fun i => by rw [heq i], fun i => by rw [heq i],
    fun i => by rw [heq i], fun i => by rw [heq i],
    by rw [heq a]; exact hap, by rw [heq b]; exact hbp,
    fun i _ _ => by rw [heq i], ?_, ⟨?_, ?_⟩, ?_, ?_⟩
  · intro i p hp
    rw [heq i] at hp
    obtain ⟨h1, h2⟩ := hpc i p hp
    exact ⟨by rw [hlen]; exact h1, by rw [heq p]; exact h2⟩
  · intro i l hl
    rw [heq i] at hl
    rw [heq l]
    exact hcp.1 i l hl
  · intro i r hr
    rw [heq i] at hr
    rw [heq r]
    exact hcp.2 i r hr
  · intro i l r hl hr
    rw [heq i] at hl hr
    exact hdist i l r hl hr
  · intro _ i
    rw [heq i, hcwEq, hcwEq]

/-- Swap of two siblings with a in the right slot: the parent ends with
its children exchanged. -/
theorem swapout_sib {s sf : State} {a b ap : Nat}
    (hpc : PC s) (hcp : CP s) (hdist : Distinct s)
    (hap : (getNode s a).parent = some ap)
    (hbp : (getNode s b).parent = some ap)
    (hab : a ≠ b) (hsa : a ≠ ap) (hsb : b ≠ ap)
    (hL : (getNode s ap).left = some b) (hR : (getNode s ap).right = some a)
    (hlen : sf.nodes.length = s.nodes.length)
    (hlv : sf.leaves = s.leaves) (hnk : sf.nextKey = s.nextKey)
    (hny : sf.nyt = s.nyt) (hnc : sf.ncw = s.ncw) (hrt : sf.root = s.root)
    (gA : getNode sf a = { getNode s a with parent := some ap })
    (gB : getNode sf b = { getNode s b with parent := some ap })
    (gAP : getNode sf ap =
      { getNode s ap with left := some a, right := some b })
    (gO : ∀ i, i ≠ a → i ≠ b → i ≠ ap → getNode sf i = getNode s i) :
    SwapOut s sf a b ap ap := by
  have hba : b ≠ a := fun e => hab e.symm
  have hnsA : (getNode s a).left ≠ some a ∧ (getNode s a).right ≠ some a :=
    slot_ne hcp hap hsa
  have hnsA2 : (getNode s a).left ≠ some b ∧ (getNode s a).right ≠ some b :=
    slot_ne hcp hbp hsa
  have hnsB : (getNode s b).left ≠ some a ∧ (getNode s b).right ≠ some a :=
    slot_ne hcp hap hsb
  have hnsB2 : (getNode s b).left ≠ some b ∧ (getNode s b).right ≠ some b :=
    slot_ne hcp hbp hsb
  apply swapout_core hpc hcp hdist hap hbp hab hlen hlv hnk hny hnc hrt
  · intro i
    by_cases hia : i = a
    · rw [hia, gA]
    · by_cases hib : i = b
      · rw [hib, gB]
      · by_cases hip : i = ap
        · rw [hip, gAP]
        · rw [gO i hia hib hip]
  · intro i
    by_cases hia : i = a
    · rw [hia, gA]
    · by_cases hib : i = b
      · rw [hib, gB]
      · by_cases hip : i = ap
        · rw [hip, gAP]
        · rw [gO i hia hib hip]
  · intro i
    by_cases hia : i = a
    · rw [hia, gA]
    · by_cases hib : i = b
      · rw [hib, gB]
      · by_cases hip : i = ap
        · rw [hip, gAP]
        · rw [gO i hia hib hip]
  · intro i
    by_cases hia : i = a
    · rw [hia, gA]
    · by_cases hib : i = b
      · rw [hib, gB]
      · by_cases hip : i = ap
        · rw [hip, gAP]
        · rw [gO i hia hib hip]
  · intro i
    by_cases hia : i = a
    · rw [hia, gA]
    · by_cases hib : i = b
      · rw [hib, gB]
      · by_cases hip : i = ap
        · rw [hip, gAP]
        · rw [gO i hia hib hip]
  · intro i
    by_cases hia : i = a
    · rw [hia, gA, if_pos rfl]
    · rw [if_neg hia]
      by_cases hib : i = b
      · rw [hib, gB, if_pos rfl]
      · rw [if_neg hib]
        by_cases hip : i = ap
        · rw [hip, gAP]
        · rw [gO i hia hib hip]
  · intro i
    by_cases hia : i = a
    · rw [hia, gA]
      exact ⟨(swapSlot_id hnsA.1 hnsA2.1).symm,
        (swapSlot_id hnsA.2 hnsA2.2).symm⟩
    · by_cases hib : i = b
      · rw [hib, gB]
        exact ⟨(swapSlot_id hnsB.1 hnsB2.1).symm,
          (swapSlot_id hnsB.2 hnsB2.2).symm⟩
      · by_cases hip : i = ap
        · rw [hip, gAP]
          constructor
          · show some a = swapSlot a b ((getNode s ap).left)
            rw [hL]
            simp [swapSlot, hba]
          · show some b = swapSlot a b ((getNode s ap).right)
            rw [hR]
            simp [swapSlot]
        · rw [gO i hia hib hip]
          have h1 := slot_ne hcp hap hip
          have h2 := slot_ne hcp hbp hip
          exact ⟨(swapSlot_id h1.1 h2.1).symm, (swapSlot_id h1.2 h2.2).symm⟩


/-- Swap of two non-sibling nodes: each parent's slot that held one node
now holds the other. -/
theorem swapout_nonsib {s sf : State} {a b ap bp : Nat}
    (hpc : PC s) (hcp : CP s) (hdist : Distinct s)
    (hap : (getNode s a).parent = some ap)
    (hbp : (getNode s b).parent = some bp)
    (hab : a ≠ b) (hpp : ap ≠ bp) (hsa : a ≠ ap) (hsb : b ≠ bp)
    (hga : bp ≠ a) (hgb : ap ≠ b)
    (hlen : sf.nodes.length = s.nodes.length)
    (hlv : sf.leaves = s.leaves) (hnk : sf.nextKey = s.nextKey)
    (hny : sf.nyt = s.nyt) (hnc : sf.ncw = s.ncw) (hrt : sf.root = s.root)
    (gA : getNode sf a = { getNode s a with parent := some bp })
    (gB : getNode sf b = { getNode s b with parent := some ap })
    (gAP : ((getNode s ap).left = some a ∧
        getNode sf ap = { getNode s ap with left := some b }) ∨
      ((getNode s ap).left ≠ some a ∧ (getNode s ap).right = some a ∧
        getNode sf ap = { getNode s ap with right := some b }))
    (gBP : ((getNode s bp).left = some b ∧
        getNode sf bp = { getNode s bp with left := some a }) ∨
      ((getNode s bp).left ≠ some b ∧ (getNode s bp).right = some b ∧
        getNode sf bp = { getNode s bp with right := some a }))
    (gO : ∀ i, i ≠ a → i ≠ b → i ≠ ap → i ≠ bp → getNode sf i = getNode s i) :
    SwapOut s sf a b ap bp := by
  have hba : b ≠ a := fun e => hab e.symm
  have hnsA : (getNode s a).left ≠ some a ∧ (getNode s a).right ≠ some a :=
    slot_ne hcp hap hsa
  have hnsA2 : (getNode s a).left ≠ some b ∧ (getNode s a).right ≠ some b :=
    slot_ne hcp hbp (fun e => hga e.symm)
  have hnsB : (getNode s b).left ≠ some a ∧ (getNode s b).right ≠ some a :=
    slot_ne hcp hap (fun e => hgb e.symm)
  have hnsB2 : (getNode s b).left ≠ some b ∧ (getNode s b).right ≠ some b :=
    slot_ne hcp hbp hsb
  have hnsAP : (getNode s ap).left ≠ some b ∧ (getNode s ap).right ≠ some b :=
    slot_ne hcp hbp hpp
  have hnsBP : (getNode s bp).left ≠ some a ∧ (getNode s bp).right ≠ some a :=
    slot_ne hcp hap (fun e => hpp e.symm)
  apply swapout_core hpc hcp hdist hap hbp hab hlen hlv hnk hny hnc hrt
  · intro i
    by_cases hia : i = a
    · rw [hia, gA]
    · by_cases hib : i = b
      · rw [hib, gB]
      · by_cases hiap : i = ap
        · rcases gAP with ⟨_, g⟩ | ⟨_, _, g⟩ <;> rw [hiap, g]
        · by_cases hibp : i = bp
          · rcases gBP with ⟨_, g⟩ | ⟨_, _, g⟩ <;> rw [hibp, g]
          · rw [gO i hia hib hiap hibp]
  · intro i
    by_cases hia : i = a
    · rw [hia, gA]
    · by_cases hib : i = b
      · rw [hib, gB]
      · by_cases hiap : i = ap
        · rcases gAP with ⟨_, g⟩ | ⟨_, _, g⟩ <;> rw [hiap, g]
        · by_cases hibp : i = bp
          · rcases gBP with ⟨_, g⟩ | ⟨_, _, g⟩ <;> rw [hibp, g]
          · rw [gO i hia hib hiap hibp]
  · intro i
    by_cases hia : i = a
    · rw [hia, gA]
    · by_cases hib : i = b
      · rw [hib, gB]
      · by_cases hiap : i = ap
        · rcases gAP with ⟨_, g⟩ | ⟨_, _, g⟩ <;> rw [hiap, g]
        · by_cases hibp : i = bp
          · rcases gBP with ⟨_, g⟩ | ⟨_, _, g⟩ <;> rw [hibp, g]
          · rw [gO i hia hib hiap hibp]
  · intro i
    by_cases hia : i = a
    · rw [hia, gA]
    · by_cases hib : i = b
      · rw [hib, gB]
      · by_cases hiap : i = ap
        · rcases gAP with ⟨_, g⟩ | ⟨_, _, g⟩ <;> rw [hiap, g]
        · by_cases hibp : i = bp
          · rcases gBP with ⟨_, g⟩ | ⟨_, _, g⟩ <;> rw [hibp, g]
          · rw [gO i hia hib hiap hibp]
  · intro i
    by_cases hia : i = a
    · rw [hia, gA]
    · by_cases hib : i = b
      · rw [hib, gB]
      · by_cases hiap : i = ap
        · rcases gAP with ⟨_, g⟩ | ⟨_, _, g⟩ <;> rw [hiap, g]
        · by_cases hibp : i = bp
          · rcases gBP with ⟨_, g⟩ | ⟨_, _, g⟩ <;> rw [hibp, g]
          · rw [gO i hia hib hiap hibp]
  · intro i
    by_cases hia : i = a
    · rw [hia, gA, if_pos rfl]
    · rw [if_neg hia]
      by_cases hib : i = b
      · rw [hib, gB, if_pos rfl]
      · rw [if_neg hib]
        by_cases hiap : i = ap
        · rcases gAP with ⟨_, g⟩ | ⟨_, _, g⟩ <;> rw [hiap, g]
        · by_cases hibp : i = bp
          · rcases gBP with ⟨_, g⟩ | ⟨_, _, g⟩ <;> rw [hibp, g]
          · rw [gO i hia hib hiap hibp]
  · intro i
    by_cases hia : i = a
    · rw [hia, gA]
      exact ⟨(swapSlot_id hnsA.1 hnsA2.1).symm,
        (swapSlot_id hnsA.2 hnsA2.2).symm⟩
    · by_cases hib : i = b
      · rw [hib, gB]
        exact ⟨(swapSlot_id hnsB.1 hnsB2.1).symm,
          (swapSlot_id hnsB.2 hnsB2.2).symm⟩
      · by_cases hiap : i = ap
        · rcases gAP with ⟨hsl, g⟩ | ⟨hnl, hsl, g⟩
          · rw [hiap, g]
            constructor
            · show some b = swapSlot a b ((getNode s ap).left)
              rw [hsl]
              simp [swapSlot]
            · show (getNode s ap).right = swapSlot a b ((getNode s ap).right)
              have hra : (getNode s ap).right ≠ some a := by
                intro e
                exact (hdist ap a a hsl e) rfl
              rw [swapSlot_id hra hnsAP.2]
          · rw [hiap, g]
            constructor
            · show (getNode s ap).left = swapSlot a b ((getNode s ap).left)
              rw [swapSlot_id hnl hnsAP.1]
            · show some b = swapSlot a b ((getNode s ap).right)
              rw [hsl]
              simp [swapSlot]
        · by_cases hibp : i = bp
          · rcases gBP with ⟨hsl, g⟩ | ⟨hnl, hsl, g⟩
            · rw [hibp, g]
              constructor
              · show some a = swapSlot a b ((getNode s bp).left)
                rw [hsl]
                simp [swapSlot, hba]
              · show (getNode s bp).right = swapSlot a b ((getNode s bp).right)
                have hrb : (getNode s bp).right ≠ some b := by
                  intro e
                  exact (hdist bp b b hsl e) rfl
                rw [swapSlot_id hnsBP.2 hrb]
            · rw [hibp, g]
              constructor
              · show (getNode s bp).left = swapSlot a b ((getNode s bp).left)
                rw [swapSlot_id hnsBP.1 hnl]
              · show some a = swapSlot a b ((getNode s bp).right)
                rw [hsl]
                simp [swapSlot, hba]
          · rw [gO i hia hib hiap hibp]
            have h1 := slot_ne hcp hap hiap
            have h2 := slot_ne hcp hbp hibp
            exact ⟨(swapSlot_id h1.1 h2.1).symm, (swapSlot_id h1.2 h2.2).symm⟩


/-- A successful run of _swap_nodes: under the tree invariants and the
guards _increment_weight checks before calling it, the swap never raises
and its net effect is described by SwapOut. -/
theorem swap_spec {s : State} {a b ap bp : Nat}
    (hpc : PC s) (hcp : CP s) (hdist : Distinct s)
    (hap : (getNode s a).parent = some ap)
    (hbp : (getNode s b).parent = some bp)
    (hab : a ≠ b) (hgb : ap ≠ b) (hga : bp ≠ a)
    (hsa : a ≠ ap) (hsb : b ≠ bp) :
    ∃ sf, swap_nodes s a b = (none, sf) ∧ SwapOut s sf a b ap bp := by
  have hba : b ≠ a := fun e => hab e.symm
  have ha_lt : a < s.nodes.length := parent_lt_of_some hap
  have hb_lt : b < s.nodes.length := parent_lt_of_some hbp
  have hap_lt : ap < s.nodes.length := (hpc a ap hap).1
  have hbp_lt : bp < s.nodes.length := (hpc b bp hbp).1
  have hslota := (hpc a ap hap).2
  have hslotb := (hpc b bp hbp).2
  have step1 : swap_nodes s a b =
      (match replace_child s ap a b with
       | (some e, s1) => (some e, s1)
       | (none, s1) =>
         match replace_child s1 bp b a with
         | (some e, s2) => (some e, s2)
         | (none, s2) =>
           (none,
             updNode (updNode s2 a (fun n => { n with parent := some bp })) b
               (fun n => { n with parent := some ap }))) := by
    rw [swap_nodes, if_neg (by simp [hab]), hap, hbp]
  by_cases hPP : ap = bp
  · -- a and b are siblings
    subst hPP
    by_cases hL1 : (getNode s ap).left = some a
    · -- a left child, b right child: the two replacements cancel
      have hR2 : (getNode s ap).right = some b := by
        rcases hslotb with h | h
        · rw [hL1] at h
          exact absurd (Option.some.inj h) hab
        · exact h
      have rc1 : replace_child s ap a b =
          (none, updNode s ap (fun n => { n with left := some b })) := by
        rw [replace_child, if_pos (by simp [hL1])]
      have g1 : getNode (updNode s ap (fun n => { n with left := some b })) ap
          = { getNode s ap with left := some b } := getNode_updNode_same hap_lt
      have rc2 : replace_child
            (updNode s ap (fun n => { n with left := some b })) ap b a =
          (none, updNode (updNode s ap (fun n => { n with left := some b })) ap
            (fun n => { n with left := some a })) := by
        rw [replace_child, if_pos (by rw [g1]; simp)]
      rw [rc1] at step1
      have step2 : swap_nodes s a b =
          (match replace_child
              (updNode s ap (fun n => { n with left := some b })) ap b a with
           | (some e, s2) => (some e, s2)
           | (none, s2) =>
             (none,
               updNode (updNode s2 a (fun n => { n with parent := some ap })) b
                 (fun n => { n with parent := some ap }))) := by
        rw [step1]
      rw [rc2] at step2
      have step3 : swap_nodes s a b =
          (none,
            updNode (updNode
              (updNode (updNode s ap (fun n => { n with left := some b })) ap
                (fun n => { n with left := some a }))
              a (fun n => { n with parent := some ap })) b
              (fun n => { n with parent := some ap })) := by
        rw [step2]
      refine ⟨_, step3, ?_⟩
      apply swapout_id hpc hcp hdist hap hbp
      · simp only [updNode_length]
      · rfl
      · rfl
      · rfl
      · rfl
      · rfl
      · intro i
        by_cases hiap : i = ap
        · rw [hiap, getNode_updNode_ne hgb,
            getNode_updNode_ne (fun e => hsa e.symm),
            getNode_updNode_same (by simp only [updNode_length]; exact hap_lt),
            getNode_updNode_same hap_lt, ← hL1]
        · by_cases hia : i = a
          · rw [hia, getNode_updNode_ne hab,
              getNode_updNode_same (by simp only [updNode_length]; exact ha_lt),
              getNode_updNode_ne hsa, getNode_updNode_ne hsa, ← hap]
          · by_cases hib : i = b
            · rw [hib,
                getNode_updNode_same (by simp only [updNode_length]; exact hb_lt),
                getNode_updNode_ne hba, getNode_updNode_ne hsb,
                getNode_updNode_ne hsb, ← hbp]
            · rw [getNode_updNode_ne hib, getNode_updNode_ne hia,
                getNode_updNode_ne hiap, getNode_updNode_ne hiap]
    · -- b left child, a right child: children end up exchanged
      have hR1 : (getNode s ap).right = some a := by
        rcases hslota with h | h
        · exact absurd h hL1
        · exact h
      have hL2 : (getNode s ap).left = some b := by
        rcases hslotb with h | h
        · exact h
        · rw [hR1] at h
          exact absurd (Option.some.inj h) hab
      have rc1 : replace_child s ap a b =
          (none, updNode s ap (fun n => { n with right := some b })) := by
        rw [replace_child, if_neg (by simp [hL2, hba]),
          if_pos (by simp [hR1])]
      have g1 : getNode (updNode s ap (fun n => { n with right := some b })) ap
          = { getNode s ap with right := some b } := getNode_updNode_same hap_lt
      have rc2 : replace_child
            (updNode s ap (fun n => { n with right := some b })) ap b a =
          (none, updNode (updNode s ap (fun n => { n with right := some b })) ap
            (fun n => { n with left := some a })) := by
        rw [replace_child, if_pos (by rw [g1]; simp [hL2])]
      rw [rc1] at step1
      have step2 : swap_nodes s a b =
          (match replace_child
              (updNode s ap (fun n => { n with right := some b })) ap b a with
           | (some e, s2) => (some e, s2)
           | (none, s2) =>
             (none,
               updNode (updNode s2 a (fun n => { n with parent := some ap })) b
                 (fun n => { n with parent := some ap }))) := by
        rw [step1]
      rw [rc2] at step2
      have step3 : swap_nodes s a b =
          (none,
            updNode (updNode
              (updNode (updNode s ap (fun n => { n with right := some b })) ap
                (fun n => { n with left := some a }))
              a (fun n => { n with parent := some ap })) b
              (fun n => { n with parent := some ap })) := by
        rw [step2]
      refine ⟨_, step3, ?_⟩
      apply swapout_sib hpc hcp hdist hap hbp hab hsa hsb hL2 hR1
      · simp only [updNode_length]
      · rfl
      · rfl
      · rfl
      · rfl
      · rfl
      · rw [getNode_updNode_ne hab,
          getNode_updNode_same (by simp only [updNode_length]; exact ha_lt),
          getNode_updNode_ne hsa, getNode_updNode_ne hsa]
      · rw [getNode_updNode_same (by simp only [updNode_length]; exact hb_lt),
          getNode_updNode_ne hba, getNode_updNode_ne hsb,
          getNode_updNode_ne hsb]
      · rw [getNode_updNode_ne hgb, getNode_updNode_ne (fun e => hsa e.symm),
          getNode_updNode_same (by simp only [updNode_length]; exact hap_lt),
          getNode_updNode_same hap_lt]
      · intro i hia hib hiap
        rw [getNode_updNode_ne hib, getNode_updNode_ne hia,
          getNode_updNode_ne hiap, getNode_updNode_ne hiap]
  · -- a and b sit under different parents
    have hbpap : bp ≠ ap := fun e => hPP e.symm
    have hapa : ap ≠ a := fun e => hsa e.symm
    have hbpb : bp ≠ b := fun e => hsb e.symm
    have habp : a ≠ bp := fun e => hga e.symm
    have hbap : b ≠ ap := fun e => hgb e.symm
    by_cases hL1 : (getNode s ap).left = some a
    · have rc1 : replace_child s ap a b =
          (none, updNode s ap (fun n => { n with left := some b })) := by
        rw [replace_child, if_pos (by simp [hL1])]
      have g1bp : getNode (updNode s ap (fun n => { n with left := some b })) bp
          = getNode s bp := getNode_updNode_ne hbpap
      rw [rc1] at step1
      have step2 : swap_nodes s a b =
          (match replace_child
              (updNode s ap (fun n => { n with left := some b })) bp b a with
           | (some e, s2) => (some e, s2)
           | (none, s2) =>
             (none,
               updNode (updNode s2 a (fun n => { n with parent := some bp })) b
                 (fun n => { n with parent := some ap }))) := by
        rw [step1]
      by_cases hL2 : (getNode s bp).left = some b
      · have rc2 : replace_child
              (updNode s ap (fun n => { n with left := some b })) bp b a =
            (none,
              updNode (updNode s ap (fun n => { n with left := some b })) bp
                (fun n => { n with left := some a })) := by
          rw [replace_child, if_pos (by rw [g1bp]; simp [hL2])]
        rw [rc2] at step2
        have step3 : swap_nodes s a b =
            (none,
              updNode (updNode
                (updNode (updNode s ap (fun n => { n with left := some b })) bp
                  (fun n => { n with left := some a }))
                a (fun n => { n with parent := some bp })) b
                (fun n => { n with parent := some ap })) := by
          rw [step2]
        refine ⟨_, step3, ?_⟩
        apply swapout_nonsib hpc hcp hdist hap hbp hab hPP hsa hsb hga hgb
        · simp only [updNode_length]
        · rfl
        · rfl
        · rfl
        · rfl
        · rfl
        · rw [getNode_updNode_ne hab,
            getNode_updNode_same (by simp only [updNode_length]; exact ha_lt),
            getNode_updNode_ne habp, getNode_updNode_ne hsa]
        · rw [getNode_updNode_same (by simp only [updNode_length]; exact hb_lt),
            getNode_updNode_ne hba, getNode_updNode_ne hsb,
            getNode_updNode_ne hbap]
        · refine Or.inl ⟨hL1, ?_⟩
          rw [getNode_updNode_ne hgb, getNode_updNode_ne hapa,
            getNode_updNode_ne hPP, getNode_updNode_same hap_lt]
        · refine Or.inl ⟨hL2, ?_⟩
          rw [getNode_updNode_ne hbpb, getNode_updNode_ne hga,
            getNode_updNode_same (by simp only [updNode_length]; exact hbp_lt),
            g1bp]
        · intro i hia hib hiap hibp
          rw [getNode_updNode_ne hib, getNode_updNode_ne hia,
            getNode_updNode_ne hibp, getNode_updNode_ne hiap]
      · have hR2 : (getNode s bp).right = some b := by
          rcases hslotb with h | h
          · exact absurd h hL2
          · exact h
        have rc2 : replace_child
              (updNode s ap (fun n => { n with left := some b })) bp b a =
            (none,
              updNode (updNode s ap (fun n => { n with left := some b })) bp
                (fun n => { n with right := some a })) := by
          rw [replace_child, if_neg (by rw [g1bp]; simp [hL2]),
            if_pos (by rw [g1bp]; simp [hR2])]
        rw [rc2] at step2
        have step3 : swap_nodes s a b =
            (none,
              updNode (updNode
                (updNode (updNode s ap (fun n => { n with left := some b })) bp
                  (fun n => { n with right := some a }))
                a (fun n => { n with parent := some bp })) b
                (fun n => { n with parent := some ap })) := by
          rw [step2]
        refine ⟨_, step3, ?_⟩
        apply swapout_nonsib hpc hcp hdist hap hbp hab hPP hsa hsb hga hgb
        · simp only [updNode_length]
        · rfl
        · rfl
        · rfl
        · rfl
        · rfl
        · rw [getNode_updNode_ne hab,
            getNode_updNode_same (by simp only [updNode_length]; exact ha_lt),
            getNode_updNode_ne habp, getNode_updNode_ne hsa]
        · rw [getNode_updNode_same (by simp only [updNode_length]; exact hb_lt),
            getNode_updNode_ne hba, getNode_updNode_ne hsb,
            getNode_updNode_ne hbap]
        · refine Or.inl ⟨hL1, ?_⟩
          rw [getNode_updNode_ne hgb, getNode_updNode_ne hapa,
            getNode_updNode_ne hPP, getNode_updNode_same hap_lt]
        · refine Or.inr ⟨hL2, hR2, ?_⟩
          rw [getNode_updNode_ne hbpb, getNode_updNode_ne hga,
            getNode_updNode_same (by simp only [updNode_length]; exact hbp_lt),
            g1bp]
        · intro i hia hib hiap hibp
          rw [getNode_updNode_ne hib, getNode_updNode_ne hia,
            getNode_updNode_ne hibp, getNode_updNode_ne hiap]
    · have hR1 : (getNode s ap).right = some a := by
        rcases hslota with h | h
        · exact absurd h hL1
        · exact h
      have rc1 : replace_child s ap a b =
          (none, updNode s ap (fun n => { n with right := some b })) := by
        rw [replace_child, if_neg (by simp [hL1]), if_pos (by simp [hR1])]
      have g1bp : getNode (updNode s ap (fun n => { n with right := some b })) bp
          = getNode s bp := getNode_updNode_ne hbpap
      rw [rc1] at step1
      have step2 : swap_nodes s a b =
          (match replace_child
              (updNode s ap (fun n => { n with right := some b })) bp b a with
           | (some e, s2) => (some e, s2)
           | (none, s2) =>
             (none,
               updNode (updNode s2 a (fun n => { n with parent := some bp })) b
                 (fun n => { n with parent := some ap }))) := by
        rw [step1]
      by_cases hL2 : (getNode s bp).left = some b
      · have rc2 : replace_child
              (updNode s ap (fun n => { n with right := some b })) bp b a =
            (none,
              updNode (updNode s ap (fun n => { n with right := some b })) bp
                (fun n => { n with left := some a })) := by
          rw [replace_child, if_pos (by rw [g1bp]; simp [hL2])]
        rw [rc2] at step2
        have step3 : swap_nodes s a b =
            (none,
              updNode (updNode
                (updNode (updNode s ap (fun n => { n with right := some b })) bp
                  (fun n => { n with left := some a }))
                a (fun n => { n with parent := some bp })) b
                (fun n => { n with parent := some ap })) := by
          rw [step2]
        refine ⟨_, step3, ?_⟩
        apply swapout_nonsib hpc hcp hdist hap hbp hab hPP hsa hsb hga hgb
        · simp only [updNode_length]
        · rfl
        · rfl
        · rfl
        · rfl
        · rfl
        · rw [getNode_updNode_ne hab,
            getNode_updNode_same (by simp only [updNode_length]; exact ha_lt),
            getNode_updNode_ne habp, getNode_updNode_ne hsa]
        · rw [getNode_updNode_same (by simp only [updNode_length]; exact hb_lt),
            getNode_updNode_ne hba, getNode_updNode_ne hsb,
            getNode_updNode_ne hbap]
        · refine Or.inr ⟨hL1, hR1, ?_⟩
          rw [getNode_updNode_ne hgb, getNode_updNode_ne hapa,
            getNode_updNode_ne hPP, getNode_updNode_same hap_lt]
        · refine Or.inl ⟨hL2, ?_⟩
          rw [getNode_updNode_ne hbpb, getNode_updNode_ne hga,
            getNode_updNode_same (by simp only [updNode_length]; exact hbp_lt),
            g1bp]
        · intro i hia hib hiap hibp
          rw [getNode_updNode_ne hib, getNode_updNode_ne hia,
            getNode_updNode_ne hibp, getNode_updNode_ne hiap]
      · have hR2 : (getNode s bp).right = some b := by
          rcases hslotb with h | h
          · exact absurd h hL2
          · exact h
        have rc2 : replace_child
              (updNode s ap (fun n => { n with right := some b })) bp b a =
            (none,
              updNode (updNode s ap (fun n => { n with right := some b })) bp
                (fun n => { n with right := some a })) := by
          rw [replace_child, if_neg (by rw [g1bp]; simp [hL2]),
            if_pos (by rw [g1bp]; simp [hR2])]
        rw [rc2] at step2
        have step3 : swap_nodes s a b =
            (none,
              updNode (updNode
                (updNode (updNode s ap (fun n => { n with right := some b })) bp
                  (fun n => { n with right := some a }))
                a (fun n => { n with parent := some bp })) b
                (fun n => { n with parent := some ap })) := by
          rw [step2]
        refine ⟨_, step3, ?_⟩
        apply swapout_nonsib hpc hcp hdist hap hbp hab hPP hsa hsb hga hgb
        · simp only [updNode_length]
        · rfl
        · rfl
        · rfl
        · rfl
        · rfl
        · rw [getNode_updNode_ne hab,
            getNode_updNode_same (by simp only [updNode_length]; exact ha_lt),
            getNode_updNode_ne habp, getNode_updNode_ne hsa]
        · rw [getNode_updNode_same (by simp only [updNode_length]; exact hb_lt),
            getNode_updNode_ne hba, getNode_updNode_ne hsb,
            getNode_updNode_ne hbap]
        · refine Or.inr ⟨hL1, hR1, ?_⟩
          rw [getNode_updNode_ne hgb, getNode_updNode_ne hapa,
            getNode_updNode_ne hPP, getNode_updNode_same hap_lt]
        · refine Or.inr ⟨hL2, hR2, ?_⟩
          rw [getNode_updNode_ne hbpb, getNode_updNode_ne hga,
            getNode_updNode_same (by simp only [updNode_length]; exact hbp_lt),
            g1bp]
        · intro i hia hib hiap hibp
          rw [getNode_updNode_ne hib, getNode_updNode_ne hia,
            getNode_updNode_ne hibp, getNode_updNode_ne hiap]


/-! ### Transport lemmas for the weight-increment walk -/

theorem none_iff_of_isSome {α : Type} {x y : Option α}
    (h : x.isSome = y.isSome) : x = none ↔ y = none := by
  cases x <;> cases y <;> simp_all

/-- A pending increment at a leaf is no constraint at all. -/
theorem pendadd_of_leaf {s : State} {v : Nat} (ha : Additive s)
    (hv : (getNode s v).left = none) : PendAdd s (some v) := by
  intro i hi
  by_cases hiv : i = v
  · rw [hiv, hv] at hi
    exact Bool.noConfusion hi
  · rw [if_neg (fun e => hiv (Option.some.inj e).symm)]
    exact ha i hi

/-- The scan result of _find_highest_node_in_block is the start node or an
equal-weight node. -/
theorem find_highest_weight {fuel : Nat} {s : State} {nd h : Nat}
    (hh : find_highest_node_in_block fuel s nd = some h) :
    h = nd ∨ (getNode s h).weight = (getNode s nd).weight := by
  rw [find_highest_node_in_block] at hh
  obtain ⟨l, _, hc, _, _⟩ := find_highest_loop_spec hh
  rcases hc with he | ⟨_, hw, _⟩
  · exact Or.inl he
  · exact Or.inr hw

theorem bump_left (s : State) (v i : Nat) :
    (getNode (updNode s v (fun n => { n with weight := n.weight + 1 })) i).left
      = (getNode s i).left := by
  rw [upd_spec]
  split_ifs with h
  · rw [h.1]
  · rfl

theorem bump_right (s : State) (v i : Nat) :
    (getNode (updNode s v (fun n => { n with weight := n.weight + 1 })) i).right
      = (getNode s i).right := by
  rw [upd_spec]
  split_ifs with h
  · rw [h.1]
  · rfl

theorem bump_parent (s : State) (v i : Nat) :
    (getNode (updNode s v (fun n => { n with weight := n.weight + 1 })) i).parent
      = (getNode s i).parent := by
  rw [upd_spec]
  split_ifs with h
  · rw [h.1]
  · rfl

theorem bump_isNyt (s : State) (v i : Nat) :
    (getNode (updNode s v (fun n => { n with weight := n.weight + 1 })) i).isNyt
      = (getNode s i).isNyt := by
  rw [upd_spec]
  split_ifs with h
  · rw [h.1]
  · rfl

theorem bump_isNcw (s : State) (v i : Nat) :
    (getNode (updNode s v (fun n => { n with weight := n.weight + 1 })) i).isNcw
      = (getNode s i).isNcw := by
  rw [upd_spec]
  split_ifs with h
  · rw [h.1]
  · rfl

theorem bump_weight_ne (s : State) (v i : Nat) (h : i ≠ v) :
    (getNode (updNode s v (fun n => { n with weight := n.weight + 1 })) i).weight
      = (getNode s i).weight := by
  rw [getNode_updNode_ne h]

theorem bump_weight_self (s : State) (v : Nat) (h : v < s.nodes.length) :
    (getNode (updNode s v (fun n => { n with weight := n.weight + 1 })) v).weight
      = (getNode s v).weight + 1 := by
  rw [getNode_updNode_same h]

/-- The structural invariant survives a swap. -/
theorem treeok_swapout {s sf : State} {a b ap bp : Nat} (ht : TreeOk s)
    (hap : (getNode s a).parent = some ap)
    (hbp : (getNode s b).parent = some bp)
    (hgb : ap ≠ b) (hga : bp ≠ a)
    (hout : SwapOut s sf a b ap bp) : TreeOk sf := by
  obtain ⟨hpc, hcp, har, hdist, hns, hnyt, hroot, hmap⟩ := ht
  obtain ⟨hlen, hlv, hnk, hny, hnc, hrt, hw, hk, hsym, hyt, hcw, hlS, hrS,
    hpA, hpB, hpO, hPC, hCP, hDist, _⟩ := hout
  refine ⟨hPC, hCP, ?_, hDist, ?_, ?_, ?_, ?_⟩
  · intro i
    rw [none_iff_of_isSome (hlS i), none_iff_of_isSome (hrS i)]
    exact har i
  · intro i p hp
    by_cases hia : i = a
    · rw [hia, hpA] at hp
      cases hp
      rw [hia]
      exact hga
    · by_cases hib : i = b
      · rw [hib, hpB] at hp
        cases hp
        rw [hib]
        exact hgb
      · rw [hpO i hia hib] at hp
        exact hns i p hp
  · obtain ⟨h1, h2, h3, h4, h5, h6⟩ := hnyt
    refine ⟨?_, ?_, ?_, ?_, ?_, ?_⟩
    · rw [hny, hlen]
      exact h1
    · rw [hny, none_iff_of_isSome (hlS s.nyt)]
      exact h2
    · rw [hny, none_iff_of_isSome (hrS s.nyt)]
      exact h3
    · rw [hny, hyt s.nyt]
      exact h4
    · rw [hny, hcw s.nyt]
      exact h5
    · rw [hny, hw s.nyt]
      exact h6
  · obtain ⟨h1, h2, h3⟩ := hroot
    have hrna : s.root ≠ a := by
      intro e
      rw [← e, h2] at hap
      exact Option.noConfusion hap
    have hrnb : s.root ≠ b := by
      intro e
      rw [← e, h2] at hbp
      exact Option.noConfusion hbp
    refine ⟨?_, ?_, ?_⟩
    · rw [hrt, hlen]
      exact h1
    · rw [hrt, hpO s.root hrna hrnb]
      exact h2
    · rw [hrt, hlS s.root]
      exact h3
  · intro w i hwv
    rw [hlv] at hwv
    obtain ⟨h1, h2, h3, h4⟩ := hmap w i hwv
    rw [hlen, hny]
    refine ⟨h1, ?_, ?_, h4⟩
    · rw [none_iff_of_isSome (hlS i)]
      exact h2
    · rw [none_iff_of_isSome (hrS i)]
      exact h3

/-- A pending increment survives a swap of two nodes of equal weight. -/
theorem pendadd_swapout {s sf : State} {a b ap bp : Nat} {v : Option Nat}
    (hweq : (getNode s a).weight = (getNode s b).weight)
    (hP : PendAdd s v)
    (hout : SwapOut s sf a b ap bp) : PendAdd sf v := by
  obtain ⟨hlen, hlv, hnk, hny, hnc, hrt, hw, hk, hsym, hyt, hcw, hlS, hrS,
    hpA, hpB, hpO, hPC, hCP, hDist, hSums⟩ := hout
  intro i hi
  rw [hSums hweq i, hw i]
  apply hP
  rw [← hlS i]
  exact hi

/-- The structural invariant survives the weight bump, provided the NYT
leaf is not the bumped node. -/
theorem treeok_bump {s : State} {v : Nat} (ht : TreeOk s) (hvn : v ≠ s.nyt) :
    TreeOk (updNode s v (fun n => { n with weight := n.weight + 1 })) := by
  obtain ⟨hpc, hcp, har, hdist, hns, hnyt, hroot, hmap⟩ := ht
  refine ⟨?_, ⟨?_, ?_⟩, ?_, ?_, ?_, ?_, ?_, ?_⟩
  · intro i p hp
    rw [bump_parent] at hp
    obtain ⟨h1, h2⟩ := hpc i p hp
    rw [updNode_length, bump_left, bump_right]
    exact ⟨h1, h2⟩
  · intro i l hl
    rw [bump_left] at hl
    rw [bump_parent]
    exact hcp.1 i l hl
  · intro i r hr
    rw [bump_right] at hr
    rw [bump_parent]
    exact hcp.2 i r hr
  · intro i
    rw [bump_left, bump_right]
    exact har i
  · intro i l r hl hr
    rw [bump_left] at hl
    rw [bump_right] at hr
    exact hdist i l r hl hr
  · intro i p hp
    rw [bump_parent] at hp
    exact hns i p hp
  · obtain ⟨h1, h2, h3, h4, h5, h6⟩ := hnyt
    refine ⟨?_, ?_, ?_, ?_, ?_, ?_⟩
    · rw [show (updNode s v (fun n => { n with weight := n.weight + 1 })).nyt
        = s.nyt from rfl, updNode_length]
      exact h1
    · rw [show (updNode s v (fun n => { n with weight := n.weight + 1 })).nyt
        = s.nyt from rfl, bump_left]
      exact h2
    · rw [show (updNode s v (fun n => { n with weight := n.weight + 1 })).nyt
        = s.nyt from rfl, bump_right]
      exact h3
    · rw [show (updNode s v (fun n => { n with weight := n.weight + 1 })).nyt
        = s.nyt from rfl, bump_isNyt]
      exact h4
    · rw [show (updNode s v (fun n => { n with weight := n.weight + 1 })).nyt
        = s.nyt from rfl, bump_isNcw]
      exact h5
    · rw [show (updNode s v (fun n => { n with weight := n.weight + 1 })).nyt
        = s.nyt from rfl, bump_weight_ne s v s.nyt (fun e => hvn e.symm)]
      exact h6
  · obtain ⟨h1, h2, h3⟩ := hroot
    refine ⟨?_, ?_, ?_⟩
    · rw [show (updNode s v (fun n => { n with weight := n.weight + 1 })).root
        = s.root from rfl, updNode_length]
      exact h1
    · rw [show (updNode s v (fun n => { n with weight := n.weight + 1 })).root
        = s.root from rfl, bump_parent]
      exact h2
    · rw [show (updNode s v (fun n => { n with weight := n.weight + 1 })).root
        = s.root from rfl, bump_left]
      exact h3
  · intro w i hwv
    rw [show (updNode s v (fun n => { n with weight := n.weight + 1 })).leaves
      = s.leaves from rfl] at hwv
    obtain ⟨h1, h2, h3, h4⟩ := hmap w i hwv
    rw [updNode_length, bump_left, bump_right]
    refine ⟨h1, h2, h3, ?_⟩
    rw [show (updNode s v (fun n => { n with weight := n.weight + 1 })).nyt
      = s.nyt from rfl]
    exact h4

/-- Bumping the pending node's weight moves the pending increment to its
parent (or discharges it when the node is parentless). -/
theorem pendadd_bump {s : State} {v : Nat} (hpc : PC s) (hcp : CP s)
    (hdist : Distinct s) (hns : NoSelf s) (hv : v < s.nodes.length)
    (hP : PendAdd s (some v)) :
    PendAdd (updNode s v (fun n => { n with weight := n.weight + 1 }))
      ((getNode s v).parent) := by
  have hcwL : ∀ c : Option Nat, c ≠ some v →
      childWeight (updNode s v (fun n => { n with weight := n.weight + 1 })) c
        = childWeight s c := by
    intro c hc
    cases c with
    | none => rfl
    | some x =>
      show (getNode _ x).weight = (getNode s x).weight
      exact bump_weight_ne s v x (fun e => hc (by rw [e]))
  have hcwV : childWeight
        (updNode s v (fun n => { n with weight := n.weight + 1 })) (some v)
      = childWeight s (some v) + 1 := bump_weight_self s v hv
  rcases hpv : (getNode s v).parent with _ | p
  · intro i hi
    rw [bump_left] at hi
    have hbase := hP i hi
    rw [bump_left, bump_right]
    have hnvL : (getNode s i).left ≠ some v := by
      intro e
      rw [hcp.1 i v e] at hpv
      exact Option.noConfusion hpv
    have hnvR : (getNode s i).right ≠ some v := by
      intro e
      rw [hcp.2 i v e] at hpv
      exact Option.noConfusion hpv
    rw [hcwL _ hnvL, hcwL _ hnvR,
      if_neg (fun h : (none : Option Nat) = some i => Option.noConfusion h)]
    by_cases hiv : i = v
    · rw [hiv, bump_weight_self s v hv]
      rw [hiv, if_pos rfl] at hbase
      omega
    · rw [bump_weight_ne s v i hiv]
      rw [if_neg (fun e => hiv (Option.some.inj e).symm)] at hbase
      omega
  · intro i hi
    rw [bump_left] at hi
    have hbase := hP i hi
    rw [bump_left, bump_right]
    have hpneq : p ≠ v := hns v p hpv
    by_cases hiv : i = v
    · have hnvL : (getNode s i).left ≠ some v := by
        intro e
        have e2 := hcp.1 i v e
        rw [hiv, hpv] at e2
        exact hpneq (Option.some.inj e2)
      have hnvR : (getNode s i).right ≠ some v := by
        intro e
        have e2 := hcp.2 i v e
        rw [hiv, hpv] at e2
        exact hpneq (Option.some.inj e2)
      rw [hcwL _ hnvL, hcwL _ hnvR, hiv, bump_weight_self s v hv,
        if_neg (fun e => hpneq (Option.some.inj e))]
      rw [hiv, if_pos rfl] at hbase
      omega
    · by_cases hip : i = p
      · obtain ⟨_, hslot⟩ := hpc v p hpv
        rw [if_neg (fun e => hiv (Option.some.inj e).symm)] at hbase
        rcases hslot with hLp | hRp
        · have hnvR : (getNode s p).right ≠ some v :=
            fun e => (hdist p v v hLp e) rfl
          rw [hip, hLp, hcwV, hcwL _ hnvR, bump_weight_ne s v p hpneq,
            if_pos rfl]
          rw [hip, hLp] at hbase
          omega
        · have hnvL : (getNode s p).left ≠ some v :=
            fun e => (hdist p v v e hRp) rfl
          rw [hip, hRp, hcwV, hcwL _ hnvL, bump_weight_ne s v p hpneq,
            if_pos rfl]
          rw [hip, hRp] at hbase
          omega
      · have hnvL : (getNode s i).left ≠ some v := by
          intro e
          have e2 := hcp.1 i v e
          rw [hpv] at e2
          exact hip (Option.some.inj e2).symm
        have hnvR : (getNode s i).right ≠ some v := by
          intro e
          have e2 := hcp.2 i v e
          rw [hpv] at e2
          exact hip (Option.some.inj e2).symm
        rw [hcwL _ hnvL, hcwL _ hnvR, bump_weight_ne s v i hiv,
          if_neg (fun e => hip (Option.some.inj e).symm)]
        rw [if_neg (fun e => hiv (Option.some.inj e).symm)] at hbase
        omega


theorem increment_weight_loop_none (fuel : Nat) (s : State) :
    increment_weight_loop fuel s none = some (none, s) := by
  cases fuel <;> rfl

/-- The weight-increment walk of _increment_weight never raises under the
invariant, preserves the structural invariant and the bookkeeping fields,
and restores plain weight additivity when it finishes. -/
theorem increment_loop_ok :
    ∀ (fuel : Nat) {s : State} {v : Nat} {oe : Option PyErr} {s2 : State},
    TreeOk s → PendAdd s (some v) → v < s.nodes.length → v ≠ s.nyt →
    increment_weight_loop fuel s (some v) = some (oe, s2) →
    oe = none ∧ TreeOk s2 ∧ Additive s2 ∧
    s2.nodes.length = s.nodes.length ∧ s2.leaves = s.leaves ∧
    s2.nextKey = s.nextKey ∧ s2.nyt = s.nyt ∧ s2.ncw = s.ncw ∧
    s2.root = s.root := by
  intro fuel
  induction fuel with
  | zero =>
    intro s v oe s2 _ _ _ _ h
    simp [increment_weight_loop] at h
  | succ n ih =>
    intro s v oe s2 ht hP hv hvn h
    obtain ⟨hpc, hcp, har, hdist, hns, hnyt, hroot, hmap⟩ := ht
    rcases hf : find_highest_node_in_block n s v with _ | hg
    · simp only [increment_weight_loop, hf] at h
      exact Option.noConfusion h
    · simp only [increment_weight_loop, hf] at h
      have tail : ∀ sm : State, TreeOk sm → PendAdd sm (some v) →
          v < sm.nodes.length → v ≠ sm.nyt →
          sm.nodes.length = s.nodes.length → sm.leaves = s.leaves →
          sm.nextKey = s.nextKey → sm.nyt = s.nyt → sm.ncw = s.ncw →
          sm.root = s.root →
          increment_weight_loop n
            (updNode sm v (fun nd => { nd with weight := nd.weight + 1 }))
            ((getNode
              (updNode sm v (fun nd => { nd with weight := nd.weight + 1 }))
              v).parent) = some (oe, s2) →
          oe = none ∧ TreeOk s2 ∧ Additive s2 ∧
            s2.nodes.length = s.nodes.length ∧ s2.leaves = s.leaves ∧
            s2.nextKey = s.nextKey ∧ s2.nyt = s.nyt ∧ s2.ncw = s.ncw ∧
            s2.root = s.root := by
        intro sm htm hPm hvm hvnm me1 me2 me3 me4 me5 me6 h2
        obtain ⟨hpcm, hcpm, harm, hdistm, hnsm, hnytm, hrootm, hmapm⟩ := htm
        have ht3 : TreeOk
            (updNode sm v (fun nd => { nd with weight := nd.weight + 1 })) :=
          treeok_bump ⟨hpcm, hcpm, harm, hdistm, hnsm, hnytm, hrootm, hmapm⟩
            hvnm
        have hP3 := pendadd_bump hpcm hcpm hdistm hnsm hvm hPm
        rw [bump_parent] at h2
        rcases hq : (getNode sm v).parent with _ | p
        · rw [hq] at h2 hP3
          rw [increment_weight_loop_none] at h2
          have h4 := Option.some.inj h2
          have h5 := congrArg Prod.fst h4
          have h6 := congrArg Prod.snd h4
          simp only at h5 h6
          subst h6
          refine ⟨h5.symm, ht3, hP3, ?_, me2, me3, me4, me5, me6⟩
          rw [updNode_length]
          exact me1
        · rw [hq] at h2 hP3
          have hplt : p <
              (updNode sm v (fun nd => { nd with weight := nd.weight + 1 })).nodes.length := by
            rw [updNode_length]
            exact (hpcm v p hq).1
          have hpnyt : p ≠
              (updNode sm v (fun nd => { nd with weight := nd.weight + 1 })).nyt := by
            intro e
            have e2 : p = sm.nyt := e
            rcases (hpcm v p hq).2 with hL | hR
            · rw [e2, hnytm.2.1] at hL
              exact Option.noConfusion hL
            · rw [e2, hnytm.2.2.1] at hR
              exact Option.noConfusion hR
          obtain ⟨ho, ht2, ha2, m1, m2, m3, m4, m5, m6⟩ :=
            ih ht3 hP3 hplt hpnyt h2
          refine ⟨ho, ht2, ha2, ?_, ?_, ?_, ?_, ?_, ?_⟩
          · rw [m1, updNode_length]
            exact me1
          · rw [m2]
            exact me2
          · rw [m3]
            exact me3
          · rw [m4]
            exact me4
          · rw [m5]
            exact me5
          · rw [m6]
            exact me6
      by_cases hd : (hg != v && (getNode s v).parent != some hg &&
          (getNode s hg).parent != some v) = true
      · rw [if_pos hd] at h
        simp only [Bool.and_eq_true, bne_iff_ne] at hd
        obtain ⟨⟨hgv, hpvg⟩, hphv⟩ := hd
        have hvg : v ≠ hg := fun e => hgv e.symm
        rcases hpv : (getNode s v).parent with _ | ap
        · have hsw : swap_nodes s v hg = (none, s) := by
            rcases hph : (getNode s hg).parent with _ | bp
            · rw [swap_nodes, if_neg (by simp [hvg]), hpv, hph]
            · rw [swap_nodes, if_neg (by simp [hvg]), hpv, hph]
          rw [hsw] at h
          have h2 : increment_weight_loop n
              (updNode s v (fun nd => { nd with weight := nd.weight + 1 }))
              ((getNode
                (updNode s v (fun nd => { nd with weight := nd.weight + 1 }))
                v).parent) = some (oe, s2) := h
          exact tail s ⟨hpc, hcp, har, hdist, hns, hnyt, hroot, hmap⟩ hP hv hvn
            rfl rfl rfl rfl rfl rfl h2
        · rcases hph : (getNode s hg).parent with _ | bp
          · have hsw : swap_nodes s v hg = (none, s) := by
              rw [swap_nodes, if_neg (by simp [hvg]), hpv, hph]
            rw [hsw] at h
            have h2 : increment_weight_loop n
                (updNode s v (fun nd => { nd with weight := nd.weight + 1 }))
                ((getNode
                  (updNode s v (fun nd => { nd with weight := nd.weight + 1 }))
                  v).parent) = some (oe, s2) := h
            exact tail s ⟨hpc, hcp, har, hdist, hns, hnyt, hroot, hmap⟩ hP hv
              hvn rfl rfl rfl rfl rfl rfl h2
          · have hgb2 : ap ≠ hg := by
              intro e
              rw [hpv] at hpvg
              exact hpvg (by rw [e])
            have hga2 : bp ≠ v := by
              intro e
              rw [hph] at hphv
              exact hphv (by rw [e])
            have hsa2 : v ≠ ap := fun e => hns v ap hpv e.symm
            have hsb2 : hg ≠ bp := fun e => hns hg bp hph e.symm
            obtain ⟨sf, hsw, hout⟩ :=
              swap_spec hpc hcp hdist hpv hph hvg hgb2 hga2 hsa2 hsb2
            rw [hsw] at h
            have h2 : increment_weight_loop n
                (updNode sf v (fun nd => { nd with weight := nd.weight + 1 }))
                ((getNode
                  (updNode sf v (fun nd => { nd with weight := nd.weight + 1 }))
                  v).parent) = some (oe, s2) := h
            have hweq : (getNode s v).weight = (getNode s hg).weight := by
              rcases find_highest_weight hf with he | hwq
              · exact absurd he hgv
              · exact hwq.symm
            have htf : TreeOk sf :=
              treeok_swapout ⟨hpc, hcp, har, hdist, hns, hnyt, hroot, hmap⟩
                hpv hph hgb2 hga2 hout
            have hPf : PendAdd sf (some v) := pendadd_swapout hweq hP hout
            obtain ⟨hlen2, hlv2, hnk2, hny2, hnc2, hrt2, _⟩ := hout
            exact tail sf htf hPf (by rw [hlen2]; exact hv)
              (by rw [hny2]; exact hvn) hlen2 hlv2 hnk2 hny2 hnc2 hrt2 h2
      · rw [if_neg hd] at h
        have h2 : increment_weight_loop n
            (updNode s v (fun nd => { nd with weight := nd.weight + 1 }))
            ((getNode
              (updNode s v (fun nd => { nd with weight := nd.weight + 1 }))
              v).parent) = some (oe, s2) := h
        exact tail s ⟨hpc, hcp, har, hdist, hns, hnyt, hroot, hmap⟩ hP hv hvn
          rfl rfl rfl rfl rfl rfl h2


/-! ### _insert_new_word preserves the invariant -/

theorem getNode_withMeta (X : State) (lv : List (List Char × Nat)) (ny i : Nat) :
    getNode { X with leaves := lv, nyt := ny } i = getNode X i := rfl

theorem getNode_extend {s : State} {l : List Node} {k i : Nat}
    (h : i < s.nodes.length) :
    getNode { s with nodes := s.nodes ++ l, nextKey := k } i = getNode s i := by
  show (s.nodes ++ l).getD i default = s.nodes.getD i default
  simp only [List.getD]
  rw [List.get?_append h]

theorem getNode_extend2_fst {s : State} {a b : Node} {k : Nat} :
    getNode { s with nodes := s.nodes ++ [a, b], nextKey := k }
      s.nodes.length = a := by
  show (s.nodes ++ [a, b]).getD s.nodes.length default = a
  simp only [List.getD]
  rw [List.get?_append_right (Nat.le_refl _)]
  simp

theorem getNode_extend2_snd {s : State} {a b : Node} {k : Nat} :
    getNode { s with nodes := s.nodes ++ [a, b], nextKey := k }
      (s.nodes.length + 1) = b := by
  show (s.nodes ++ [a, b]).getD (s.nodes.length + 1) default = b
  simp only [List.getD]
  rw [List.get?_append_right (Nat.le_succ_of_le (Nat.le_refl _))]
  simp

/-- The state _insert_new_word builds before its weight walk (lines
259-277 of encoder.py, the part of insert_new_word before the
_increment_weight call): two fresh nodes appended, the old NYT rewired as
an internal node, parents set, the word registered, the NYT pointer
moved. -/
def insertPre (s : State) (word : List Char) : State :=
  let leafIdx := s.nodes.length
  let nytIdx := s.nodes.length + 1
  let internal := s.nyt
  let leafNode : Node :=
    { symbol := some word, weight := 0, key := s.nextKey,
      left := none, right := none, parent := none, isNyt := false, isNcw := false }
  let nytNode : Node :=
    { symbol := none, weight := 0, key := s.nextKey + 1,
      left := none, right := none, parent := none, isNyt := true, isNcw := false }
  let s := { s with nodes := s.nodes ++ [leafNode, nytNode], nextKey := s.nextKey + 2 }
  let s := updNode s internal
    (fun n => { n with isNyt := false, left := some nytIdx, right := some leafIdx })
  let s := updNode s leafIdx (fun n => { n with parent := some internal })
  let s := updNode s nytIdx (fun n => { n with parent := some internal })
  { s with leaves := (word, leafIdx) :: s.leaves, nyt := nytIdx }

theorem insert_new_word_eq (fuel : Nat) (s : State) (w : List Char) :
    insert_new_word fuel s w =
      increment_weight_loop fuel (insertPre s w) (some s.nodes.length) := rfl

theorem insertPre_len (s : State) (w : List Char) :
    (insertPre s w).nodes.length = s.nodes.length + 2 := by
  simp [insertPre, updNode, setNode]

theorem insertPre_leaves (s : State) (w : List Char) :
    (insertPre s w).leaves = (w, s.nodes.length) :: s.leaves := rfl

theorem insertPre_nextKey (s : State) (w : List Char) :
    (insertPre s w).nextKey = s.nextKey + 2 := rfl

theorem insertPre_nyt (s : State) (w : List Char) :
    (insertPre s w).nyt = s.nodes.length + 1 := rfl

theorem insertPre_ncw (s : State) (w : List Char) :
    (insertPre s w).ncw = s.ncw := rfl

theorem insertPre_root (s : State) (w : List Char) :
    (insertPre s w).root = s.root := rfl

theorem insertPre_at_oldnyt {s : State} {w : List Char}
    (hny : s.nyt < s.nodes.length) :
    getNode (insertPre s w) s.nyt =
      { getNode s s.nyt with
          isNyt := false
          left := some (s.nodes.length + 1)
          right := some s.nodes.length } := by
  have hne1 : s.nyt ≠ s.nodes.length := Nat.ne_of_lt hny
  have hne2 : s.nyt ≠ s.nodes.length + 1 := Nat.ne_of_lt (Nat.lt_succ_of_lt hny)
  simp only [insertPre]
  rw [getNode_withMeta, getNode_updNode_ne hne2, getNode_updNode_ne hne1,
    getNode_updNode_same (by simp only [updNode_length]
                             show s.nyt < (s.nodes ++ _).length
                             simp only [List.length_append, List.length_cons,
                               List.length_nil]
                             omega),
    getNode_extend hny]

theorem insertPre_at_leaf {s : State} {w : List Char}
    (hny : s.nyt < s.nodes.length) :
    getNode (insertPre s w) s.nodes.length =
      { symbol := some w, weight := 0, key := s.nextKey, left := none,
        right := none, parent := some s.nyt, isNyt := false,
        isNcw := false } := by
  have hne1 : s.nodes.length ≠ s.nodes.length + 1 :=
    Nat.ne_of_lt (Nat.lt_succ_self _)
  have hne2 : s.nodes.length ≠ s.nyt := (Nat.ne_of_lt hny).symm
  simp only [insertPre]
  rw [getNode_withMeta, getNode_updNode_ne hne1,
    getNode_updNode_same (by simp only [updNode_length]
                             show s.nodes.length < (s.nodes ++ _).length
                             simp only [List.length_append, List.length_cons,
                               List.length_nil]
                             omega),
    getNode_updNode_ne hne2, getNode_extend2_fst]

theorem insertPre_at_newnyt {s : State} {w : List Char}
    (hny : s.nyt < s.nodes.length) :
    getNode (insertPre s w) (s.nodes.length + 1) =
      { symbol := none, weight := 0, key := s.nextKey + 1, left := none,
        right := none, parent := some s.nyt, isNyt := true,
        isNcw := false } := by
  have hne1 : s.nodes.length + 1 ≠ s.nodes.length :=
    (Nat.ne_of_lt (Nat.lt_succ_self _)).symm
  have hne2 : s.nodes.length + 1 ≠ s.nyt := by omega
  simp only [insertPre]
  rw [getNode_withMeta,
    getNode_updNode_same (by simp only [updNode_length]
                             show s.nodes.length + 1 < (s.nodes ++ _).length
                             simp only [List.length_append, List.length_cons,
                               List.length_nil]
                             omega),
    getNode_updNode_ne hne1, getNode_updNode_ne hne2, getNode_extend2_snd]

theorem insertPre_at_other {s : State} {w : List Char} {i : Nat}
    (h1 : i ≠ s.nyt) (h2 : i ≠ s.nodes.length) (h3 : i ≠ s.nodes.length + 1) :
    getNode (insertPre s w) i = getNode s i := by
  simp only [insertPre]
  rw [getNode_withMeta, getNode_updNode_ne h3, getNode_updNode_ne h2,
    getNode_updNode_ne h1]
  by_cases hi : i < s.nodes.length
  · rw [getNode_extend hi]
  · rw [getNode_oob (show ({ s with
        nodes := s.nodes ++ _, nextKey := s.nextKey + 2 } : State).nodes.length ≤ i by
      show (s.nodes ++ _).length ≤ i
      simp only [List.length_append, List.length_cons, List.length_nil]
      omega)]
    rw [getNode_oob (Nat.le_of_not_lt hi)]


/-- The wiring _insert_new_word performs before its weight walk keeps the
full invariant (the new internal node's sum is 0 = 0 + 0 because the old
NYT had weight 0). -/
theorem insertPre_inv {s : State} {w : List Char} (hI : Inv s) :
    TreeOk (insertPre s w) ∧ Additive (insertPre s w) := by
  obtain ⟨⟨hpc, hcp, har, hdist, hns, hnyt, hroot, hmap⟩, hadd⟩ := hI
  have hny : s.nyt < s.nodes.length := hnyt.1
  have gI := insertPre_at_oldnyt (w := w) hny
  have gLf := insertPre_at_leaf (w := w) hny
  have gNy := insertPre_at_newnyt (w := w) hny
  have len5 := insertPre_len s w
  have wI : (getNode (insertPre s w) s.nyt).weight =
      (getNode s s.nyt).weight := by
    rw [gI]
  refine ⟨⟨?_, ⟨?_, ?_⟩, ?_, ?_, ?_, ?_, ?_, ?_⟩, ?_⟩
  · -- PC
    intro i p hp
    by_cases hiL : i = s.nodes.length
    · subst hiL
      rw [gLf] at hp
      have hp2 : some s.nyt = some p := hp
      cases hp2
      refine ⟨by rw [len5]; omega, Or.inr ?_⟩
      rw [gI]
    · by_cases hiL1 : i = s.nodes.length + 1
      · subst hiL1
        rw [gNy] at hp
        have hp2 : some s.nyt = some p := hp
        cases hp2
        refine ⟨by rw [len5]; omega, Or.inl ?_⟩
        rw [gI]
      · by_cases hiI : i = s.nyt
        · subst hiI
          rw [gI] at hp
          have hp2 : (getNode s s.nyt).parent = some p := hp
          obtain ⟨hplt, hslot⟩ := hpc s.nyt p hp2
          have hpneI : p ≠ s.nyt := hns s.nyt p hp2
          have hpneL : p ≠ s.nodes.length := Nat.ne_of_lt hplt
          have hpneL1 : p ≠ s.nodes.length + 1 := by omega
          refine ⟨by rw [len5]; omega, ?_⟩
          rw [insertPre_at_other hpneI hpneL hpneL1]
          exact hslot
        · rw [insertPre_at_other hiI hiL hiL1] at hp
          obtain ⟨hplt, hslot⟩ := hpc i p hp
          have hpneL : p ≠ s.nodes.length := Nat.ne_of_lt hplt
          have hpneL1 : p ≠ s.nodes.length + 1 := by omega
          by_cases hpI : p = s.nyt
          · rcases hslot with hL | hR
            · rw [hpI, hnyt.2.1] at hL
              exact Option.noConfusion hL
            · rw [hpI, hnyt.2.2.1] at hR
              exact Option.noConfusion hR
          · refine ⟨by rw [len5]; omega, ?_⟩
            rw [insertPre_at_other hpI hpneL hpneL1]
            exact hslot
  · -- CP, left slots
    intro i c hl
    by_cases hiL : i = s.nodes.length
    · subst hiL
      rw [gLf] at hl
      exact Option.noConfusion (show (none : Option Nat) = some c from hl)
    · by_cases hiL1 : i = s.nodes.length + 1
      · subst hiL1
        rw [gNy] at hl
        exact Option.noConfusion (show (none : Option Nat) = some c from hl)
      · by_cases hiI : i = s.nyt
        · subst hiI
          rw [gI] at hl
          have hl2 : some (s.nodes.length + 1) = some c := hl
          cases hl2
          rw [gNy]
        · rw [insertPre_at_other hiI hiL hiL1] at hl
          have hcl := hcp.1 i c hl
          have hclt : c < s.nodes.length := parent_lt_of_some hcl
          have hcL : c ≠ s.nodes.length := Nat.ne_of_lt hclt
          have hcL1 : c ≠ s.nodes.length + 1 := by omega
          by_cases hcI : c = s.nyt
          · rw [hcI] at hcl ⊢
            rw [gI]
            exact hcl
          · rw [insertPre_at_other hcI hcL hcL1]
            exact hcl
  · -- CP, right slots
    intro i c hr
    by_cases hiL : i = s.nodes.length
    · subst hiL
      rw [gLf] at hr
      exact Option.noConfusion (show (none : Option Nat) = some c from hr)
    · by_cases hiL1 : i = s.nodes.length + 1
      · subst hiL1
        rw [gNy] at hr
        exact Option.noConfusion (show (none : Option Nat) = some c from hr)
      · by_cases hiI : i = s.nyt
        · subst hiI
          rw [gI] at hr
          have hr2 : some s.nodes.length = some c := hr
          cases hr2
          rw [gLf]
        · rw [insertPre_at_other hiI hiL hiL1] at hr
          have hcl := hcp.2 i c hr
          have hclt : c < s.nodes.length := parent_lt_of_some hcl
          have hcL : c ≠ s.nodes.length := Nat.ne_of_lt hclt
          have hcL1 : c ≠ s.nodes.length + 1 := by omega
          by_cases hcI : c = s.nyt
          · rw [hcI] at hcl ⊢
            rw [gI]
            exact hcl
          · rw [insertPre_at_other hcI hcL hcL1]
            exact hcl
  · -- Arity
    intro i
    by_cases hiL : i = s.nodes.length
    · subst hiL
      rw [gLf]
    · by_cases hiL1 : i = s.nodes.length + 1
      · subst hiL1
        rw [gNy]
      · by_cases hiI : i = s.nyt
        · subst hiI
          rw [gI]
          exact ⟨fun h => Option.noConfusion h, fun h => Option.noConfusion h⟩
        · rw [insertPre_at_other hiI hiL hiL1]
          exact har i
  · -- Distinct
    intro i l r hl hr
    by_cases hiL : i = s.nodes.length
    · subst hiL
      rw [gLf] at hl
      exact Option.noConfusion (show (none : Option Nat) = some l from hl)
    · by_cases hiL1 : i = s.nodes.length + 1
      · subst hiL1
        rw [gNy] at hl
        exact Option.noConfusion (show (none : Option Nat) = some l from hl)
      · by_cases hiI : i = s.nyt
        · subst hiI
          rw [gI] at hl hr
          have hl2 : some (s.nodes.length + 1) = some l := hl
          have hr2 : some s.nodes.length = some r := hr
          cases hl2
          cases hr2
          omega
        · rw [insertPre_at_other hiI hiL hiL1] at hl hr
          exact hdist i l r hl hr
  · -- NoSelf
    intro i p hp
    by_cases hiL : i = s.nodes.length
    · subst hiL
      rw [gLf] at hp
      have hp2 : some s.nyt = some p := hp
      cases hp2
      exact Nat.ne_of_lt hny
    · by_cases hiL1 : i = s.nodes.length + 1
      · subst hiL1
        rw [gNy] at hp
        have hp2 : some s.nyt = some p := hp
        cases hp2
        omega
      · by_cases hiI : i = s.nyt
        · subst hiI
          rw [gI] at hp
          exact hns s.nyt p hp
        · rw [insertPre_at_other hiI hiL hiL1] at hp
          exact hns i p hp
  · -- NytOk
    refine ⟨?_, ?_, ?_, ?_, ?_, ?_⟩
    · rw [insertPre_nyt, len5]
      omega
    · rw [insertPre_nyt, gNy]
    · rw [insertPre_nyt, gNy]
    · rw [insertPre_nyt, gNy]
    · rw [insertPre_nyt, gNy]
    · rw [insertPre_nyt, gNy]
  · -- RootOk
    obtain ⟨hr1, hr2, hr3⟩ := hroot
    have hrI : s.root ≠ s.nyt := by
      intro e
      rw [e, hnyt.2.1] at hr3
      exact Bool.noConfusion hr3
    have hrL : s.root ≠ s.nodes.length := Nat.ne_of_lt hr1
    have hrL1 : s.root ≠ s.nodes.length + 1 := by omega
    refine ⟨?_, ?_, ?_⟩
    · rw [insertPre_root, len5]
      omega
    · rw [insertPre_root, insertPre_at_other hrI hrL hrL1]
      exact hr2
    · rw [insertPre_root, insertPre_at_other hrI hrL hrL1]
      exact hr3
  · -- MapOk
    intro w2 i hmem
    rw [insertPre_leaves] at hmem
    rcases List.mem_cons.mp hmem with he | hm
    · have hi : i = s.nodes.length := congrArg Prod.snd he
      subst hi
      refine ⟨by rw [len5]; omega, by rw [gLf], by rw [gLf], ?_⟩
      rw [insertPre_nyt]
      omega
    · obtain ⟨h1, h2, h3, h4⟩ := hmap w2 i hm
      have hiL : i ≠ s.nodes.length := Nat.ne_of_lt h1
      have hiL1 : i ≠ s.nodes.length + 1 := by omega
      refine ⟨by rw [len5]; omega, ?_, ?_, ?_⟩
      · rw [insertPre_at_other h4 hiL hiL1]
        exact h2
      · rw [insertPre_at_other h4 hiL hiL1]
        exact h3
      · rw [insertPre_nyt]
        omega
  · -- Additive
    intro i hi
    by_cases hiL : i = s.nodes.length
    · subst hiL
      rw [gLf] at hi
      exact Bool.noConfusion (show ((none : Option Nat).isSome = true) from hi)
    · by_cases hiL1 : i = s.nodes.length + 1
      · subst hiL1
        rw [gNy] at hi
        exact Bool.noConfusion (show ((none : Option Nat).isSome = true) from hi)
      · by_cases hiI : i = s.nyt
        · subst hiI
          have c1 : childWeight (insertPre s w) (some (s.nodes.length + 1))
              = 0 := by
            show (getNode (insertPre s w) (s.nodes.length + 1)).weight = 0
            rw [gNy]
          have c2 : childWeight (insertPre s w) (some s.nodes.length) = 0 := by
            show (getNode (insertPre s w) s.nodes.length).weight = 0
            rw [gLf]
          have e1 : (getNode (insertPre s w) s.nyt).left
              = some (s.nodes.length + 1) := by
            rw [gI]
          have e2 : (getNode (insertPre s w) s.nyt).right
              = some s.nodes.length := by
            rw [gI]
          rw [e1, e2, c1, c2, wI, hnyt.2.2.2.2.2]
          simp
        · have hne : getNode (insertPre s w) i = getNode s i :=
            insertPre_at_other hiI hiL hiL1
          rw [hne] at hi ⊢
          have hbase := hadd i hi
          have wEq : ∀ x : Nat, x ≠ s.nodes.length → x ≠ s.nodes.length + 1 →
              (getNode (insertPre s w) x).weight = (getNode s x).weight := by
            intro x hx1 hx2
            by_cases hxI : x = s.nyt
            · rw [hxI]
              exact wI
            · rw [insertPre_at_other hxI hx1 hx2]
          have cEq : ∀ c : Option Nat,
              (∀ x, c = some x → (getNode s x).parent = some i) →
              childWeight (insertPre s w) c = childWeight s c := by
            intro c hc
            cases c with
            | none => rfl
            | some x =>
              have hpar := hc x rfl
              have hxlt : x < s.nodes.length := parent_lt_of_some hpar
              show (getNode (insertPre s w) x).weight = (getNode s x).weight
              exact wEq x (Nat.ne_of_lt hxlt) (by omega)
          rw [cEq _ (fun x hx => hcp.1 i x hx),
            cEq _ (fun x hx => hcp.2 i x hx)]
          exact hbase

/-- _insert_new_word never raises and preserves the invariant. -/
theorem insert_ok {fuel : Nat} {s : State} {w : List Char} {oe : Option PyErr}
    {s2 : State} (hI : Inv s) (h : insert_new_word fuel s w = some (oe, s2)) :
    oe = none ∧ Inv s2 := by
  rw [insert_new_word_eq] at h
  obtain ⟨htp, hap2⟩ := insertPre_inv (w := w) hI
  have hny : s.nyt < s.nodes.length := hI.1.2.2.2.2.2.1.1
  have hlf : (getNode (insertPre s w) s.nodes.length).left = none := by
    rw [insertPre_at_leaf hny]
  have hpend : PendAdd (insertPre s w) (some s.nodes.length) :=
    pendadd_of_leaf hap2 hlf
  have hvlt : s.nodes.length < (insertPre s w).nodes.length := by
    rw [insertPre_len]
    omega
  have hvny : s.nodes.length ≠ (insertPre s w).nyt := by
    rw [insertPre_nyt]
    omega
  obtain ⟨ho, ht2, ha2, _⟩ := increment_loop_ok fuel htp hpend hvlt hvny h
  exact ⟨ho, ht2, ha2⟩

/-- _increment_weight starting at a leaf that is not the NYT leaf never
raises and preserves the invariant. -/
theorem increment_ok {fuel : Nat} {s : State} {v : Nat} {oe : Option PyErr}
    {s2 : State} (hI : Inv s) (hleaf : (getNode s v).left = none)
    (hv : v < s.nodes.length) (hvn : v ≠ s.nyt)
    (h : increment_weight fuel s v = some (oe, s2)) :
    oe = none ∧ Inv s2 := by
  obtain ⟨ht, ha⟩ := hI
  obtain ⟨ho, ht2, ha2, _⟩ :=
    increment_loop_ok fuel ht (pendadd_of_leaf ha hleaf) hv hvn h
  exact ⟨ho, ht2, ha2⟩


/-! ### Error classification and invariant preservation at the M level -/

theorem read_bit_val {r : BitReader} {e : PyErr}
    (h : BitReader.read_bit r = Except.error e) : ∃ m, e = PyErr.valueError m := by
  rw [BitReader.read_bit] at h
  split_ifs at h
  · cases h
    exact ⟨_, rfl⟩

theorem read_uint16_val {r : BitReader} {e : PyErr}
    (h : BitReader.read_uint16 r = Except.error e) :
    ∃ m, e = PyErr.valueError m := by
  rw [BitReader.read_uint16] at h
  split_ifs at h
  · cases h
    exact ⟨_, rfl⟩

theorem read_bytes_val {r : BitReader} {len : Nat} {e : PyErr}
    (h : BitReader.read_bytes r len = Except.error e) :
    ∃ m, e = PyErr.valueError m := by
  rw [BitReader.read_bytes] at h
  split_ifs at h
  · cases h
    exact ⟨_, rfl⟩

/-- Every failure of one decoding step is the UnicodeDecodeError (a
ValueError in Python). -/
theorem utf8DecodeOne_err {b0 : Nat} {rest : List Nat} {e : PyErr}
    (h : utf8DecodeOne b0 rest = Except.error e) : e = utf8Err := by
  rw [utf8DecodeOne.eq_def] at h
  by_cases h1 : b0 < 0x80
  · rw [if_pos h1] at h
    exact Except.noConfusion h
  · rw [if_neg h1] at h
    by_cases h2 : (decide (0xC2 ≤ b0) && decide (b0 ≤ 0xDF)) = true
    · rw [if_pos h2] at h
      cases rest with
      | nil =>
        have h3 : (Except.error utf8Err : Except PyErr (Char × List Nat))
            = Except.error e := h
        cases h3
        rfl
      | cons b1 rest1 =>
        have h3 : (if isCont b1 then
            Except.ok (Char.ofNat ((b0 - 0xC0) * 0x40 + (b1 - 0x80)), rest1)
            else (Except.error utf8Err : Except PyErr (Char × List Nat)))
            = Except.error e := h
        split_ifs at h3 with h5
        cases h3
        rfl
    · rw [if_neg h2] at h
      by_cases h3 : (decide (0xE0 ≤ b0) && decide (b0 ≤ 0xEF)) = true
      · rw [if_pos h3] at h
        cases rest with
        | nil =>
          have h4 : (Except.error utf8Err : Except PyErr (Char × List Nat))
              = Except.error e := h
          cases h4
          rfl
        | cons b1 rest1 =>
          cases rest1 with
          | nil =>
            have h4 : (Except.error utf8Err : Except PyErr (Char × List Nat))
                = Except.error e := h
            cases h4
            rfl
          | cons b2 rest2 =>
            have h4 : (if ((if (b0 == 0xE0) = true then
                  decide (0xA0 ≤ b1) && decide (b1 ≤ 0xBF)
                else if (b0 == 0xED) = true then
                  decide (0x80 ≤ b1) && decide (b1 ≤ 0x9F)
                else isCont b1) && isCont b2) = true then
                Except.ok (Char.ofNat ((b0 - 0xE0) * 0x1000 +
                  (b1 - 0x80) * 0x40 + (b2 - 0x80)), rest2)
                else (Except.error utf8Err : Except PyErr (Char × List Nat)))
                = Except.error e := h
            by_cases h5 : ((if (b0 == 0xE0) = true then
                  decide (0xA0 ≤ b1) && decide (b1 ≤ 0xBF)
                else if (b0 == 0xED) = true then
                  decide (0x80 ≤ b1) && decide (b1 ≤ 0x9F)
                else isCont b1) && isCont b2) = true
            · rw [if_pos h5] at h4
              exact Except.noConfusion h4
            · rw [if_neg h5] at h4
              cases h4
              rfl
      · rw [if_neg h3] at h
        by_cases h4 : (decide (0xF0 ≤ b0) && decide (b0 ≤ 0xF4)) = true
        · rw [if_pos h4] at h
          cases rest with
          | nil =>
            have h5 : (Except.error utf8Err : Except PyErr (Char × List Nat))
                = Except.error e := h
            cases h5
            rfl
          | cons b1 rest1 =>
            cases rest1 with
            | nil =>
              have h5 : (Except.error utf8Err : Except PyErr (Char × List Nat))
                  = Except.error e := h
              cases h5
              rfl
            | cons b2 rest2 =>
              cases rest2 with
              | nil =>
                have h5 : (Except.error utf8Err :
                    Except PyErr (Char × List Nat)) = Except.error e := h
                cases h5
                rfl
              | cons b3 rest3 =>
                have h5 : (if ((if (b0 == 0xF0) = true then
                      decide (0x90 ≤ b1) && decide (b1 ≤ 0xBF)
                    else if (b0 == 0xF4) = true then
                      decide (0x80 ≤ b1) && decide (b1 ≤ 0x8F)
                    else isCont b1) && isCont b2 && isCont b3) = true then
                    Except.ok (Char.ofNat ((b0 - 0xF0) * 0x40000 +
                      (b1 - 0x80) * 0x1000 + (b2 - 0x80) * 0x40 +
                      (b3 - 0x80)), rest3)
                    else (Except.error utf8Err : Except PyErr (Char × List Nat)))
                    = Except.error e := h
                by_cases h6 : ((if (b0 == 0xF0) = true then
                      decide (0x90 ≤ b1) && decide (b1 ≤ 0xBF)
                    else if (b0 == 0xF4) = true then
                      decide (0x80 ≤ b1) && decide (b1 ≤ 0x8F)
                    else isCont b1) && isCont b2 && isCont b3) = true
                · rw [if_pos h6] at h5
                  exact Except.noConfusion h5
                · rw [if_neg h6] at h5
                  cases h5
                  rfl
        · rw [if_neg h4] at h
          cases h
          rfl

theorem utf8Decode_go_err : ∀ (fuel : Nat) (bs : List Nat) {e : PyErr},
    utf8Decode_go fuel bs = Except.error e → e = utf8Err := by
  intro fuel
  induction fuel with
  | zero =>
    intro bs e h
    cases bs with
    | nil => exact Except.noConfusion h
    | cons b0 rest =>
      have h2 : (Except.error utf8Err : Except PyErr (List Char))
          = Except.error e := h
      cases h2
      rfl
  | succ n ih =>
    intro bs e h
    cases bs with
    | nil => exact Except.noConfusion h
    | cons b0 rest =>
      have h2 : (match utf8DecodeOne b0 rest with
          | Except.error e2 => (Except.error e2 : Except PyErr (List Char))
          | Except.ok (c, suffix) =>
            match utf8Decode_go n suffix with
            | Except.error e2 => Except.error e2
            | Except.ok cs => Except.ok (c :: cs)) = Except.error e := h
      rcases ho : utf8DecodeOne b0 rest with e2 | ⟨c, suffix⟩
      · rw [ho] at h2
        have h3 : (Except.error e2 : Except PyErr (List Char))
            = Except.error e := h2
        cases h3
        exact utf8DecodeOne_err ho
      · rw [ho] at h2
        have h3 : (match utf8Decode_go n suffix with
            | Except.error e2 => (Except.error e2 : Except PyErr (List Char))
            | Except.ok cs => Except.ok (c :: cs)) = Except.error e := h2
        rcases hg : utf8Decode_go n suffix with e2 | cs
        · rw [hg] at h3
          have h4 : (Except.error e2 : Except PyErr (List Char))
              = Except.error e := h3
          cases h4
          exact ih suffix hg
        · rw [hg] at h3
          exact Except.noConfusion h3

/-- Every failure of bytes.decode() in the model is the UnicodeDecodeError
(a ValueError in Python). -/
theorem utf8Decode_err {bs : List Nat} {e : PyErr}
    (h : utf8Decode bs = Except.error e) : e = utf8Err :=
  utf8Decode_go_err bs.length bs h



/-- Hoare-style postcondition for decoding operations run at a specific
context: the invariant is preserved and any raised error is a ValueError. -/
def ValAt {α : Type} (x : M α) (c : Ctx) : Prop :=
  ∀ r, Inv c.st → x c = some r →
    Inv r.2.st ∧ ∀ e, r.1 = Except.error e → ∃ m, e = PyErr.valueError m

/-- Invariant preservation alone, for encoding operations (which may also
raise non-ValueError exceptions). -/
def PresAt {α : Type} (x : M α) (c : Ctx) : Prop :=
  ∀ r, Inv c.st → x c = some r → Inv r.2.st

theorem valAt_bind {α β : Type} {x : M α} {f : α → M β} {c : Ctx}
    (hx : ValAt x c)
    (hf : ∀ a c2, x c = some (Except.ok a, c2) → ValAt (f a) c2) :
    ValAt (x >>= f) c := by
  intro r hI h
  rw [M.bind_apply] at h
  rcases hx2 : x c with _ | ⟨ea, c2⟩
  · rw [hx2] at h
    exact Option.noConfusion h
  · rw [hx2] at h
    cases ea with
    | error e =>
      have h2 : some (Except.error e, c2) = some r := h
      cases h2
      obtain ⟨hI2, hE⟩ := hx _ hI hx2
      refine ⟨hI2, ?_⟩
      intro e2 he
      have he2 : Except.error (ε := PyErr) (α := β) e = Except.error e2 := he
      cases he2
      exact hE e rfl
    | ok a =>
      have h2 : f a c2 = some r := h
      exact hf a c2 hx2 r (hx _ hI hx2).1 h2

theorem presAt_bind {α β : Type} {x : M α} {f : α → M β} {c : Ctx}
    (hx : PresAt x c)
    (hf : ∀ a c2, x c = some (Except.ok a, c2) → PresAt (f a) c2) :
    PresAt (x >>= f) c := by
  intro r hI h
  rw [M.bind_apply] at h
  rcases hx2 : x c with _ | ⟨ea, c2⟩
  · rw [hx2] at h
    exact Option.noConfusion h
  · rw [hx2] at h
    cases ea with
    | error e =>
      have h2 : some (Except.error e, c2) = some r := h
      cases h2
      exact hx _ hI hx2
    | ok a =>
      have h2 : f a c2 = some r := h
      exact hf a c2 hx2 r (hx _ hI hx2) h2

theorem valAt_pure {α : Type} (a : α) (c : Ctx) : ValAt (pure a : M α) c := by
  intro r hI h
  have h2 : some (Except.ok a, c) = some r := h
  cases h2
  exact ⟨hI, fun e he => Except.noConfusion he⟩

theorem presAt_pure {α : Type} (a : α) (c : Ctx) : PresAt (pure a : M α) c := by
  intro r hI h
  have h2 : some (Except.ok a, c) = some r := h
  cases h2
  exact hI

theorem valAt_dead {α : Type} (c : Ctx) : ValAt (M.dead : M α) c := by
  intro r hI h
  exact Option.noConfusion h

theorem presAt_dead {α : Type} (c : Ctx) : PresAt (M.dead : M α) c := by
  intro r hI h
  exact Option.noConfusion h

theorem valAt_throw {α : Type} {e0 : PyErr} (c : Ctx)
    (h0 : ∃ m, e0 = PyErr.valueError m) : ValAt (M.throw e0 : M α) c := by
  intro r hI h
  have h2 : some (Except.error e0, c) = some r := h
  cases h2
  refine ⟨hI, ?_⟩
  intro e2 he
  have he2 : Except.error (ε := PyErr) (α := α) e0 = Except.error e2 := he
  cases he2
  exact h0

theorem presAt_throw {α : Type} (e0 : PyErr) (c : Ctx) :
    PresAt (M.throw e0 : M α) c := by
  intro r hI h
  have h2 : some (Except.error e0, c) = some r := h
  cases h2
  exact hI

theorem valAt_modBw (g : BitWriter → BitWriter) (c : Ctx) :
    ValAt (M.modBw g) c := by
  intro r hI h
  have h2 : some (Except.ok (), { c with bw := g c.bw }) = some r := h
  cases h2
  exact ⟨hI, fun e he => Except.noConfusion he⟩

theorem presAt_modBw (g : BitWriter → BitWriter) (c : Ctx) :
    PresAt (M.modBw g) c := by
  intro r hI h
  have h2 : some (Except.ok (), { c with bw := g c.bw }) = some r := h
  cases h2
  exact hI

theorem valAt_getCtx (c : Ctx) : ValAt M.getCtx c := by
  intro r hI h
  have h2 : some (Except.ok c, c) = some r := h
  cases h2
  exact ⟨hI, fun e he => Except.noConfusion he⟩

theorem valAt_liftRead {α : Type} {op : BitReader → Except PyErr (α × BitReader)}
    (hop : ∀ r0 e, op r0 = Except.error e → ∃ m, e = PyErr.valueError m)
    (c : Ctx) : ValAt (M.liftRead op) c := by
  intro r hI h
  rw [M.liftRead_apply] at h
  rcases ho : op c.br with e | ⟨a, r2⟩
  · rw [ho] at h
    have h2 : some (Except.error e, c) = some r := h
    cases h2
    refine ⟨hI, ?_⟩
    intro e2 he
    have he2 : Except.error (ε := PyErr) (α := α) e = Except.error e2 := he
    cases he2
    exact hop c.br e ho
  · rw [ho] at h
    have h2 : some (Except.ok a, { c with br := r2 }) = some r := h
    cases h2
    exact ⟨hI, fun e he => Except.noConfusion he⟩

theorem presAt_liftRead {α : Type}
    (op : BitReader → Except PyErr (α × BitReader)) (c : Ctx) :
    PresAt (M.liftRead op) c := by
  intro r hI h
  rw [M.liftRead_apply] at h
  rcases ho : op c.br with e | ⟨a, r2⟩
  · rw [ho] at h
    have h2 : some (Except.error e, c) = some r := h
    cases h2
    exact hI
  · rw [ho] at h
    have h2 : some (Except.ok a, { c with br := r2 }) = some r := h
    cases h2
    exact hI

theorem valAt_liftTree {op : State → Option (Option PyErr × State)} (c : Ctx)
    (hop : ∀ oe s2, Inv c.st → op c.st = some (oe, s2) → oe = none ∧ Inv s2) :
    ValAt (M.liftTree op) c := by
  intro r hI h
  rw [M.liftTree_apply] at h
  rcases ho : op c.st with _ | ⟨oe, s2⟩
  · rw [ho] at h
    exact Option.noConfusion h
  · rw [ho] at h
    obtain ⟨hoe, hI2⟩ := hop oe s2 hI ho
    subst hoe
    have h2 : some (Except.ok (), { c with st := s2 }) = some r := h
    cases h2
    exact ⟨hI2, fun e he => Except.noConfusion he⟩

theorem presAt_liftTree {op : State → Option (Option PyErr × State)} (c : Ctx)
    (hop : ∀ oe s2, Inv c.st → op c.st = some (oe, s2) → Inv s2) :
    PresAt (M.liftTree op) c := by
  intro r hI h
  rw [M.liftTree_apply] at h
  rcases ho : op c.st with _ | ⟨oe, s2⟩
  · rw [ho] at h
    exact Option.noConfusion h
  · rw [ho] at h
    have hI2 := hop oe s2 hI ho
    cases oe with
    | none =>
      have h2 : some (Except.ok (), { c with st := s2 }) = some r := h
      cases h2
      exact hI2
    | some e =>
      have h2 : some (Except.error e, { c with st := s2 }) = some r := h
      cases h2
      exact hI2


/-- The root-to-leaf walk of _decode_next_word: it never touches the tree
or the writer, it can only fail with the bit reader's ValueError (the
AttributeError branch is unreachable because every internal node has both
children), and when it lands it lands on a leaf of the arena. -/
theorem decode_walk_ok (fuel : Nat) :
    ∀ (wfuel node : Nat) (c : Ctx) (r : Except PyErr Nat × Ctx),
    Arity c.st → CP c.st → node < c.st.nodes.length →
    decode_walk_loop fuel wfuel node c = some r →
    r.2.st = c.st ∧
    (∀ e, r.1 = Except.error e → ∃ m, e = PyErr.valueError m) ∧
    (∀ lf, r.1 = Except.ok lf →
      (getNode c.st lf).is_leaf = true ∧ lf < c.st.nodes.length) := by
  intro wfuel
  induction wfuel with
  | zero =>
    intro node c r _ _ _ h
    exact Option.noConfusion h
  | succ w ih =>
    intro node c r har hcp hnode h
    have h2 : (if (getNode c.st node).is_leaf = true then (pure node : M Nat)
        else
          (M.liftRead BitReader.read_bit >>= fun bit =>
            M.getCtx >>= fun c2 =>
            match (if bit then (getNode c2.st node).right
                else (getNode c2.st node).left) with
            | none => (M.throw PyErr.attributeError : M Nat)
            | some nxt => decode_walk_loop fuel w nxt)) c = some r := h
    by_cases hleaf : (getNode c.st node).is_leaf = true
    · rw [if_pos hleaf] at h2
      have h3 : some (Except.ok node, c) = some r := h2
      cases h3
      refine ⟨rfl, ?_, ?_⟩
      · intro e he
        exact Except.noConfusion he
      · intro lf he
        have he2 : Except.ok (ε := PyErr) node = Except.ok lf := he
        cases he2
        exact ⟨hleaf, hnode⟩
    · rw [if_neg hleaf] at h2
      have hch : ∃ ln rn, (getNode c.st node).left = some ln ∧
          (getNode c.st node).right = some rn := by
        rcases hL : (getNode c.st node).left with _ | ln
        · exfalso
          apply hleaf
          have hR := (har node).mp hL
          rw [Node.is_leaf, hL, hR]
          rfl
        · rcases hR : (getNode c.st node).right with _ | rn
          · exfalso
            apply hleaf
            have hL2 := (har node).mpr hR
            rw [hL2] at hL
            exact Option.noConfusion hL
          · exact ⟨ln, rn, rfl, rfl⟩
      obtain ⟨ln, rn, hL, hR⟩ := hch
      rw [M.bind_apply] at h2
      rcases hrb : BitReader.read_bit c.br with e | ⟨bit, br2⟩
      · rw [M.liftRead_apply, hrb] at h2
        have h3 : some (Except.error (ε := PyErr) (α := Nat) e, c)
            = some r := h2
        cases h3
        refine ⟨rfl, ?_, ?_⟩
        · intro e2 he
          have he2 : Except.error (ε := PyErr) (α := Nat) e
              = Except.error e2 := he
          cases he2
          exact read_bit_val hrb
        · intro lf he
          exact Except.noConfusion he
      · rw [M.liftRead_apply, hrb] at h2
        have h3 : (match (if bit = true then (getNode c.st node).right
              else (getNode c.st node).left) with
            | none => (M.throw PyErr.attributeError : M Nat)
            | some nxt => decode_walk_loop fuel w nxt) { c with br := br2 }
            = some r := h2
        cases bit with
        | false =>
          rw [if_neg Bool.false_ne_true, hL] at h3
          have h4 : decode_walk_loop fuel w ln { c with br := br2 }
              = some r := h3
          obtain ⟨hst, herr, hok⟩ := ih ln { c with br := br2 } r har hcp
            (parent_lt_of_some (hcp.1 node ln hL)) h4
          exact ⟨hst, herr, hok⟩
        | true =>
          rw [if_pos rfl, hR] at h3
          have h4 : decode_walk_loop fuel w rn { c with br := br2 }
              = some r := h3
          obtain ⟨hst, herr, hok⟩ := ih rn { c with br := br2 } r har hcp
            (parent_lt_of_some (hcp.2 node rn hR)) h4
          exact ⟨hst, herr, hok⟩


/-- The part of _decode_next_word after the walk, as a function of the
leaf the walk returned (lines 239-254). -/
def decode_tail (fuel node : Nat) : M (List Char) := do
  let c ← M.getCtx
  if (getNode c.st node).isNcw then do
    M.liftTree (fun s => increment_weight fuel s node)
    let _ ← M.liftRead (fun r => Except.ok ((), r.align_to_byte))
    let length ← M.liftRead BitReader.read_uint16
    let raw ← M.liftRead (fun r => r.read_bytes length)
    match utf8Decode raw with
    | .error e => M.throw e
    | .ok word => do
      M.liftTree (fun s => insert_new_word fuel s word)
      pure word
  else if (getNode c.st node).isNyt then
    pure []
  else do
    M.liftTree (fun s => increment_weight fuel s node)
    pure ((getNode c.st node).symbol.getD [])

theorem decode_next_word_eq (fuel : Nat) : decode_next_word fuel = (do
    let c ← M.getCtx
    let node ← decode_walk_loop fuel fuel c.st.root
    decode_tail fuel node) := rfl

/-- After the walk has landed on a leaf, the rest of _decode_next_word
keeps the invariant and only raises ValueErrors. -/
theorem decode_tail_ok (fuel node : Nat) (c : Ctx)
    (hleaf : (getNode c.st node).is_leaf = true)
    (hnode : node < c.st.nodes.length) :
    ValAt (decode_tail fuel node) c := by
  have hLnone : (getNode c.st node).left = none := by
    rw [Node.is_leaf, Bool.and_eq_true] at hleaf
    exact Option.isNone_iff_eq_none.mp hleaf.1
  refine valAt_bind (valAt_getCtx c) ?_
  intro a c2 hx2
  have hx3 : some (Except.ok c, c) = some (Except.ok a, c2) := hx2
  cases hx3
  by_cases hncw : (getNode c.st node).isNcw = true
  · rw [if_pos hncw]
    refine valAt_bind (valAt_liftTree c ?_) ?_
    · intro oe s2 hI2 hrun
      have hnn : node ≠ c.st.nyt := by
        intro e
        have h6 := hI2.1.2.2.2.2.2.1.2.2.2.2.1
        rw [e, h6] at hncw
        exact Bool.noConfusion hncw
      exact increment_ok hI2 hLnone hnode hnn hrun
    · intro u c3 _
      refine valAt_bind (valAt_liftRead ?_ c3) ?_
      · intro r0 e h0
        exact Except.noConfusion h0
      · intro u2 c4 _
        refine valAt_bind
          (valAt_liftRead (fun r0 e h0 => read_uint16_val h0) c4) ?_
        intro length c5 _
        refine valAt_bind
          (valAt_liftRead (fun r0 e h0 => read_bytes_val h0) c5) ?_
        intro raw c6 _
        rcases hu : utf8Decode raw with e | word
        · exact valAt_throw c6 ⟨_, utf8Decode_err hu⟩
        · refine valAt_bind (valAt_liftTree c6 ?_) ?_
          · intro oe s2 hI2 hrun
            exact insert_ok hI2 hrun
          · intro u3 c7 _
            exact valAt_pure word c7
  · rw [if_neg hncw]
    by_cases hnyt : (getNode c.st node).isNyt = true
    · rw [if_pos hnyt]
      exact valAt_pure [] c
    · rw [if_neg hnyt]
      refine valAt_bind (valAt_liftTree c ?_) ?_
      · intro oe s2 hI2 hrun
        have hnn : node ≠ c.st.nyt := by
          intro e
          have h6 := hI2.1.2.2.2.2.2.1.2.2.2.1
          rw [e] at hnyt
          exact hnyt h6
        exact increment_ok hI2 hLnone hnode hnn hrun
      · intro u c3 _
        exact valAt_pure _ c3


/-- _decode_next_word keeps the invariant and only raises ValueErrors. -/
theorem decode_next_ok (fuel : Nat) (c : Ctx) :
    ValAt (decode_next_word fuel) c := by
  rw [decode_next_word_eq]
  refine valAt_bind (valAt_getCtx c) ?_
  intro a c2 hx2
  have hx3 : some (Except.ok c, c) = some (Except.ok a, c2) := hx2
  cases hx3
  intro r hI h
  rw [M.bind_apply] at h
  rcases hw : decode_walk_loop fuel fuel c.st.root c with _ | ⟨ea, c3⟩
  · rw [hw] at h
    exact Option.noConfusion h
  · rw [hw] at h
    obtain ⟨hst, herr, hok⟩ := decode_walk_ok fuel fuel c.st.root c (ea, c3)
      hI.1.2.2.1 hI.1.2.1 hI.1.2.2.2.2.2.2.1.1 hw
    have hst2 : c3.st = c.st := hst
    cases ea with
    | error e =>
      have h2 : some (Except.error (ε := PyErr) (α := List Char) e, c3)
          = some r := h
      cases h2
      refine ⟨?_, ?_⟩
      · show Inv c3.st
        rw [hst2]
        exact hI
      · intro e2 he
        have he2 : Except.error (ε := PyErr) (α := List Char) e
            = Except.error e2 := he
        cases he2
        exact herr e rfl
    | ok node =>
      have h2 : decode_tail fuel node c3 = some r := h
      obtain ⟨hlf, hlt⟩ := hok node rfl
      have hI3 : Inv c3.st := by
        rw [hst2]
        exact hI
      exact decode_tail_ok fuel node c3 (by rw [hst2]; exact hlf)
        (by rw [hst2]; exact hlt) r hI3 h2

/-- The token loop of _decode_internal keeps the invariant and only raises
ValueErrors. -/
theorem decode_loop_ok (fuel : Nat) :
    ∀ (wfuel : Nat) (words : List (List Char)) (c : Ctx),
    ValAt (decode_loop fuel wfuel words) c := by
  intro wfuel
  induction wfuel with
  | zero =>
    intro words c
    exact valAt_dead c
  | succ w ih =>
    intro words c
    show ValAt ((M.getCtx : M Ctx) >>= fun c2 =>
      if c2.br.has_bits = true then
        decode_next_word fuel >>= fun word =>
          if (word == [' ']) = true then decode_loop fuel w words
          else decode_loop fuel w (words ++ [word])
      else pure words) c
    refine valAt_bind (valAt_getCtx c) ?_
    intro a c2 hx2
    have hx3 : some (Except.ok c, c) = some (Except.ok a, c2) := hx2
    cases hx3
    by_cases hb : c.br.has_bits = true
    · rw [if_pos hb]
      refine valAt_bind (decode_next_ok fuel c) ?_
      intro word c3 _
      by_cases hsp : (word == [' ']) = true
      · rw [if_pos hsp]
        exact ih words c3
      · rw [if_neg hsp]
        exact ih (words ++ [word]) c3
    · rw [if_neg hb]
      exact valAt_pure words c

/-- A completed decode call keeps the invariant in the mutated instance
and can only raise a ValueError. -/
theorem decode_inv {fuel : Nat} {s : State} {data : List Nat}
    {res : Except PyErr (List Char)} {s2 : State} (hI : Inv s)
    (h : decodeFuel fuel s data = some (res, s2)) :
    Inv s2 ∧ ∀ e, res = Except.error e → ∃ m, e = PyErr.valueError m := by
  rw [decodeFuel] at h
  rcases hl : decode_loop fuel fuel []
      { st := s, bw := BitWriter.init, br := BitReader.init data }
    with _ | ⟨ea, c2⟩
  · rw [hl] at h
    exact Option.noConfusion h
  · rw [hl] at h
    obtain ⟨hI2, herr⟩ := decode_loop_ok fuel fuel [] _ (ea, c2) hI hl
    cases ea with
    | error e =>
      have h2 : some (Except.error (ε := PyErr) (α := List Char) e, c2.st)
          = some (res, s2) := h
      have h3 := Option.some.inj h2
      have h4 := congrArg Prod.fst h3
      have h5 := congrArg Prod.snd h3
      simp only at h4 h5
      subst h5
      subst h4
      refine ⟨hI2, ?_⟩
      intro e2 he
      have he2 : Except.error (ε := PyErr) (α := List Char) e
          = Except.error e2 := he
      cases he2
      exact herr e rfl
    | ok words =>
      have h2 : some (Except.ok (ε := PyErr)
          (List.intercalate [' '] words), c2.st) = some (res, s2) := h
      have h3 := Option.some.inj h2
      have h4 := congrArg Prod.fst h3
      have h5 := congrArg Prod.snd h3
      simp only at h4 h5
      subst h5
      subst h4
      exact ⟨hI2, fun e2 he => Except.noConfusion he⟩


theorem presAt_getCtx (c : Ctx) : PresAt M.getCtx c := by
  intro r hI h
  have h2 : some (Except.ok c, c) = some r := h
  cases h2
  exact hI

theorem lookup_mem {w : List Char} {l : List (List Char × Nat)} {i : Nat}
    (h : l.lookup w = some i) : (w, i) ∈ l := by
  induction l with
  | nil => exact Option.noConfusion h
  | cons p rest ih =>
    obtain ⟨k, v⟩ := p
    have h2 : (match w == k with
        | true => some v
        | false => rest.lookup w) = some i := h
    rcases hbe : (w == k) with _ | _
    · rw [hbe] at h2
      exact List.mem_cons_of_mem _ (ih h2)
    · rw [hbe] at h2
      have h3 : some v = some i := h2
      cases h3
      have hk : w = k := eq_of_beq hbe
      rw [hk]
      exact List.mem_cons_self _ _

/-- _encode_word preserves the invariant (its errors are not classified:
besides the ValueError for overlong words it can raise the RuntimeError of
_path_to_node on a node that lost its root connection). -/
theorem encode_word_ok (fuel : Nat) (word : List Char) (c : Ctx) :
    PresAt (encode_word fuel word) c := by
  show PresAt ((M.getCtx : M Ctx) >>= fun c2 =>
    match path_to_node fuel c2.st
        ((c2.st.leaves.lookup word).getD c2.st.ncw) with
    | none => (M.dead : M Unit)
    | some (Except.error e) => M.throw e
    | some (Except.ok path) =>
      M.modBw (fun w => w.add_bits path) >>= fun _ =>
        if (c2.st.leaves.lookup word).isNone = true then
          M.modBw BitWriter.flush_to_byte >>= fun _ =>
            if 2 ^ 16 ≤ (utf8Encode word).length then
              M.throw (.valueError
                "Word too long to encode (more than 65535 bytes)")
            else
              M.modBw (fun w => w.add_uint16 (utf8Encode word).length) >>=
                fun _ =>
                M.modBw (fun w => w.add_bytes (utf8Encode word)) >>= fun _ =>
                M.liftTree (fun s => insert_new_word fuel s word)
        else
          match c2.st.leaves.lookup word with
          | some leaf => M.liftTree (fun s => increment_weight fuel s leaf)
          | none => M.throw (.runtimeError "unreachable")) c
  refine presAt_bind (presAt_getCtx c) ?_
  intro a c2 hx2
  have hx3 : some (Except.ok c, c) = some (Except.ok a, c2) := hx2
  cases hx3
  rcases hp : path_to_node fuel c.st ((c.st.leaves.lookup word).getD c.st.ncw)
    with _ | ea
  · exact presAt_dead c
  · cases ea with
    | error e => exact presAt_throw e c
    | ok path =>
      refine presAt_bind (presAt_modBw _ c) ?_
      intro u c3 hx4
      have hx5 : some (Except.ok (), { c with bw := c.bw.add_bits path })
          = some (Except.ok u, c3) := hx4
      cases hx5
      by_cases hnw : (c.st.leaves.lookup word).isNone = true
      · rw [if_pos hnw]
        refine presAt_bind (presAt_modBw _ _) ?_
        intro u2 c4 _
        by_cases hlen2 : 2 ^ 16 ≤ (utf8Encode word).length
        · rw [if_pos hlen2]
          exact presAt_throw _ _
        · rw [if_neg hlen2]
          refine presAt_bind (presAt_modBw _ _) ?_
          intro u3 c5 _
          refine presAt_bind (presAt_modBw _ _) ?_
          intro u4 c6 _
          exact presAt_liftTree c6
            (fun oe s2 hI2 hrun => (insert_ok hI2 hrun).2)
      · rw [if_neg hnw]
        rcases hlk : c.st.leaves.lookup word with _ | leaf
        · exfalso
          apply hnw
          rw [hlk]
          rfl
        · exact presAt_liftTree _ (fun oe s2 hI2 hrun => by
            have hmem := lookup_mem hlk
            obtain ⟨h1, h2, h3, h4⟩ := hI2.1.2.2.2.2.2.2.2 word leaf hmem
            exact (increment_ok hI2 h2 h1 h4 hrun).2)

/-- The word loop of _encode_internal preserves the invariant. -/
theorem encode_words_ok (fuel : Nat) :
    ∀ (ws : List (List Char)) (first : Bool) (c : Ctx),
    PresAt (encode_words_loop fuel ws first) c := by
  intro ws
  induction ws with
  | nil =>
    intro first c
    exact presAt_pure () c
  | cons w rest ih =>
    intro first c
    show PresAt
      (if first = true then
        (pure () : M Unit) >>= fun y =>
          encode_word fuel w >>= fun _ => encode_words_loop fuel rest false
      else
        encode_word fuel [' '] >>= fun y =>
          encode_word fuel w >>= fun _ => encode_words_loop fuel rest false) c
    by_cases hf : first = true
    · rw [if_pos hf]
      refine presAt_bind (presAt_pure () c) ?_
      intro u c2 _
      refine presAt_bind (encode_word_ok fuel w c2) ?_
      intro u2 c3 _
      exact ih false c3
    · rw [if_neg hf]
      refine presAt_bind (encode_word_ok fuel [' '] c) ?_
      intro u c2 _
      refine presAt_bind (encode_word_ok fuel w c2) ?_
      intro u2 c3 _
      exact ih false c3

/-- A completed encode call keeps the invariant in the mutated instance. -/
theorem encode_inv {fuel : Nat} {s : State} {text : List Char}
    {res : Except PyErr (List Nat)} {s2 : State} (hI : Inv s)
    (h : encodeFuel fuel s text = some (res, s2)) : Inv s2 := by
  rw [encodeFuel] at h
  rcases hl : encode_words_loop fuel
      (if text.isEmpty = true then [] else split_sp text) true
      { st := s, bw := BitWriter.init, br := BitReader.init [] }
    with _ | ⟨ea, c2⟩
  · rw [hl] at h
    exact Option.noConfusion h
  · rw [hl] at h
    have hI2 := encode_words_ok fuel
      (if text.isEmpty = true then [] else split_sp text) true _ (ea, c2)
      hI hl
    cases ea with
    | error e =>
      have h2 : some (Except.error (ε := PyErr) (α := List Nat) e, c2.st)
          = some (res, s2) := h
      have h3 := congrArg Prod.snd (Option.some.inj h2)
      simp only at h3
      subst h3
      exact hI2
    | ok u =>
      have h2 : some (Except.ok (ε := PyErr) c2.bw.get_data, c2.st)
          = some (res, s2) := h
      have h3 := congrArg Prod.snd (Option.some.inj h2)
      simp only at h3
      subst h3
      exact hI2

end AHuff
namespace AHuff

/-! ## Reachable states

encode and decode preserve the invariant, so every state reachable from a
fresh instance by completed calls satisfies it. -/

/-- States of an AdaptiveHuffman instance reachable from a fresh instance
by any sequence of completed encode and decode calls. -/
inductive Reach : State → Prop where
  | init : Reach initState
  | enc {fuel : Nat} {s : State} {text : List Char}
      {res : Except PyErr (List Nat)} {s2 : State} : Reach s →
      encodeFuel fuel s text = some (res, s2) → Reach s2
  | dec {fuel : Nat} {s : State} {data : List Nat}
      {res : Except PyErr (List Char)} {s2 : State} : Reach s →
      decodeFuel fuel s data = some (res, s2) → Reach s2

/-- Every reachable state satisfies the full invariant. -/
theorem reach_inv {s : State} (h : Reach s) : Inv s := by
  induction h with
  | init => exact inv_init
  | enc _ he ih => exact encode_inv ih he
  | dec _ hd ih => exact (decode_inv ih hd).1

/-! ## A bitstream exhausted in mid-path

c8P carries the escapes for "a" and "b" followed by a stray byte 0x49.
The decoder recovers 'a', then 'b' three times (the trailing bits re-walk
the tree to the "b" leaf twice), and the final two bits 0b01 strand the
walk at an internal node: read_bit then raises. -/

def c8P : List Nat := [128, 0, 1, 97, 128, 0, 1, 98, 73]

/-- Context after the decoder consumes the "a" escape of c8P. -/
def cG1 : Ctx :=
  ⟨⟨[N none 1 1 (some 3) (some 4) (some 2) false false,
     N none 1 2 none none (some 2) false true,
     N none 2 3 (some 0) (some 1) none false false,
     N (some ['a']) 1 3 none none (some 0) false false,
     N none 0 4 none none (some 0) true false],
    [(['a'], 3)], 5, 4, 1, 2⟩,
   ⟨[], 0, 0⟩, ⟨c8P, 4, 0⟩⟩

/-- Context after the decoder also consumes the "b" escape of c8P. -/
def cG2 : Ctx :=
  ⟨⟨[N none 3 1 (some 1) (some 4) (some 2) false false,
     N none 2 2 none none (some 0) false true,
     N none 4 3 (some 0) (some 3) none false false,
     N (some ['a']) 1 3 none none (some 2) false false,
     N none 1 4 (some 5) (some 6) (some 0) false false,
     N (some ['b']) 1 5 none none (some 4) false false,
     N none 0 6 none none (some 4) true false],
    [(['b'], 5), (['a'], 3)], 7, 6, 1, 2⟩,
   ⟨[], 0, 0⟩, ⟨c8P, 8, 0⟩⟩

/-- Context after the decoder reads the code 010 of the stray byte as a
second "b". -/
def cG3 : Ctx :=
  ⟨⟨[N none 4 1 (some 1) (some 4) (some 2) false false,
     N none 2 2 none none (some 0) false true,
     N none 5 3 (some 0) (some 3) none false false,
     N (some ['a']) 1 3 none none (some 2) false false,
     N none 2 4 (some 5) (some 6) (some 0) false false,
     N (some ['b']) 2 5 none none (some 4) false false,
     N none 0 6 none none (some 4) true false],
    [(['b'], 5), (['a'], 3)], 7, 6, 1, 2⟩,
   ⟨[], 0, 0⟩, ⟨c8P, 8, 3⟩⟩

/-- Context after the decoder reads the next code 010 as a third "b". -/
def cG4 : Ctx :=
  ⟨⟨[N none 5 1 (some 1) (some 4) (some 2) false false,
     N none 2 2 none none (some 0) false true,
     N none 6 3 (some 0) (some 3) none false false,
     N (some ['a']) 1 3 none none (some 2) false false,
     N none 3 4 (some 5) (some 6) (some 0) false false,
     N (some ['b']) 3 5 none none (some 4) false false,
     N none 0 6 none none (some 4) true false],
    [(['b'], 5), (['a'], 3)], 7, 6, 1, 2⟩,
   ⟨[], 0, 0⟩, ⟨c8P, 8, 6⟩⟩

/-- Context at the failure: the last two bits 01 walk root-left-right and
strand the decoder at an internal node with the reader exhausted; the tree
is unchanged. -/
def cGE : Ctx := ⟨cG4.st, ⟨[], 0, 0⟩, ⟨c8P, 9, 0⟩⟩

theorem dnw_c8_1 : decode_next_word 300 (cD c8P) = some (.ok ['a'], cG1) := by
  decide

theorem dnw_c8_2 : decode_next_word 300 cG1 = some (.ok ['b'], cG2) := by
  decide

theorem dnw_c8_3 : decode_next_word 300 cG2 = some (.ok ['b'], cG3) := by
  decide

theorem dnw_c8_4 : decode_next_word 300 cG3 = some (.ok ['b'], cG4) := by
  decide

theorem dnw_c8_5 : decode_next_word 300 cG4 =
    some (.error (.valueError "Not enough bits left in stream"), cGE) := by
  decide

theorem dloop_c8 : decode_loop 300 300 [] (cD c8P) =
    some (.error (.valueError "Not enough bits left in stream"), cGE) := by
  rw [show decode_loop 300 300 [] (cD c8P) =
    ((do
      let c ← M.getCtx
      if c.br.has_bits then do
        let word ← decode_next_word 300
        if word == [' '] then decode_loop 300 299 []
        else decode_loop 300 299 ([] ++ [word])
      else pure []) : M (List (List Char))) (cD c8P) from rfl]
  rw [M.bind_ok (show M.getCtx (cD c8P) = some (.ok (cD c8P), cD c8P) from rfl)]
  simp only [show (cD c8P).br.has_bits = true from rfl, if_true]
  rw [M.bind_ok dnw_c8_1]
  show (if (['a'] : List Char) == [' '] then decode_loop 300 299 []
    else decode_loop 300 299 ([] ++ [['a']])) cG1 =
    some (.error (.valueError "Not enough bits left in stream"), cGE)
  simp only [show ((['a'] : List Char) == [' ']) = false from rfl,
    Bool.false_eq_true, if_false]
  rw [show decode_loop 300 299 ([] ++ [['a']]) cG1 =
    ((do
      let c ← M.getCtx
      if c.br.has_bits then do
        let word ← decode_next_word 300
        if word == [' '] then decode_loop 300 298 [['a']]
        else decode_loop 300 298 ([['a']] ++ [word])
      else pure [['a']]) : M (List (List Char))) cG1 from rfl]
  rw [M.bind_ok (show M.getCtx cG1 = some (.ok cG1, cG1) from rfl)]
  simp only [show cG1.br.has_bits = true from rfl, if_true]
  rw [M.bind_ok dnw_c8_2]
  show (if (['b'] : List Char) == [' '] then decode_loop 300 298 [['a']]
    else decode_loop 300 298 ([['a']] ++ [['b']])) cG2 =
    some (.error (.valueError "Not enough bits left in stream"), cGE)
  simp only [show ((['b'] : List Char) == [' ']) = false from rfl,
    Bool.false_eq_true, if_false]
  rw [show decode_loop 300 298 ([['a']] ++ [['b']]) cG2 =
    ((do
      let c ← M.getCtx
      if c.br.has_bits then do
        let word ← decode_next_word 300
        if word == [' '] then decode_loop 300 297 [['a'], ['b']]
        else decode_loop 300 297 ([['a'], ['b']] ++ [word])
      else pure [['a'], ['b']]) : M (List (List Char))) cG2 from rfl]
  rw [M.bind_ok (show M.getCtx cG2 = some (.ok cG2, cG2) from rfl)]
  simp only [show cG2.br.has_bits = true from rfl, if_true]
  rw [M.bind_ok dnw_c8_3]
  show (if (['b'] : List Char) == [' '] then decode_loop 300 297 [['a'], ['b']]
    else decode_loop 300 297 ([['a'], ['b']] ++ [['b']])) cG3 =
    some (.error (.valueError "Not enough bits left in stream"), cGE)
  simp only [show ((['b'] : List Char) == [' ']) = false from rfl,
    Bool.false_eq_true, if_false]
  rw [show decode_loop 300 297 ([['a'], ['b']] ++ [['b']]) cG3 =
    ((do
      let c ← M.getCtx
      if c.br.has_bits then do
        let word ← decode_next_word 300
        if word == [' '] then decode_loop 300 296 [['a'], ['b'], ['b']]
        else decode_loop 300 296 ([['a'], ['b'], ['b']] ++ [word])
      else pure [['a'], ['b'], ['b']]) : M (List (List Char))) cG3 from rfl]
  rw [M.bind_ok (show M.getCtx cG3 = some (.ok cG3, cG3) from rfl)]
  simp only [show cG3.br.has_bits = true from rfl, if_true]
  rw [M.bind_ok dnw_c8_4]
  show (if (['b'] : List Char) == [' ']
      then decode_loop 300 296 [['a'], ['b'], ['b']]
      else decode_loop 300 296 ([['a'], ['b'], ['b']] ++ [['b']])) cG4 =
    some (.error (.valueError "Not enough bits left in stream"), cGE)
  simp only [show ((['b'] : List Char) == [' ']) = false from rfl,
    Bool.false_eq_true, if_false]
  rw [show decode_loop 300 296 ([['a'], ['b'], ['b']] ++ [['b']]) cG4 =
    ((do
      let c ← M.getCtx
      if c.br.has_bits then do
        let word ← decode_next_word 300
        if word == [' ']
          then decode_loop 300 295 [['a'], ['b'], ['b'], ['b']]
          else decode_loop 300 295 ([['a'], ['b'], ['b'], ['b']] ++ [word])
      else pure [['a'], ['b'], ['b'], ['b']]) : M (List (List Char))) cG4
    from rfl]
  rw [M.bind_ok (show M.getCtx cG4 = some (.ok cG4, cG4) from rfl)]
  simp only [show cG4.br.has_bits = true from rfl, if_true]
  rw [M.bind_err dnw_c8_5]

/-- Full run: decoding c8P on a fresh instance raises the mid-path
exhaustion ValueError of read_bit. -/
theorem dec_c8 : decodeFuel 300 initState c8P =
    some (.error (.valueError "Not enough bits left in stream"), cGE.st) := by
  simp only [decodeFuel]
  rw [show ({ st := initState, bw := BitWriter.init, br := BitReader.init c8P } : Ctx)
      = cD c8P from rfl]
  rw [dloop_c8]

/-! ## The other three concrete decode failures -/

/-- A lone NCW path bit with no length header: read_uint16 raises. -/
theorem dec_short16 : decRes 300 initState [128] =
    some (.error (.valueError
      "Unexpected end of stream while reading uint16")) := by
  decide

/-- A length header promising five raw bytes when only one follows:
read_bytes raises. -/
theorem dec_shortbytes : decRes 300 initState [128, 0, 5, 97] =
    some (.error (.valueError
      "Unexpected end of stream while reading bytes")) := by
  decide

/-- A raw payload that is not valid UTF-8 (a lone continuation byte):
bytes.decode raises. -/
theorem dec_badutf8 : decRes 300 initState [128, 0, 1, 255] =
    some (.error utf8Err) := by
  decide

/-- The tree state left behind by the failed decode of [128]: the walk has
already reached the NCW leaf, so its weight and the root weight were
bumped before read_uint16 raised. -/
def stE16 : State :=
  ⟨[N none 0 1 none none (some 2) true false,
    N none 1 2 none none (some 2) false true,
    N none 1 3 (some 0) (some 1) none false false],
   [], 3, 0, 1, 2⟩

/-! ## Claims C4 and C8 -/

/-- C4: in every state reachable from a fresh instance by encode and
decode calls, every node with children carries the sum of its children's
weights.  This survives the corrupting swaps because _swap_nodes only ever
exchanges the equal-weight nodes chosen by _find_highest_weight_in_level. -/
theorem c4_weight_additivity {s : State} (h : Reach s) :
    ∀ i, (getNode s i).left.isSome = true →
      childWeight s (getNode s i).left + childWeight s (getNode s i).right =
        (getNode s i).weight := by
  intro i hi
  have h2 := (reach_inv h).2 i hi
  simpa using h2

theorem c4_weight_additivity_witness :
    Reach stA ∧ ((getNode stA 2).left.isSome = true ∧
      childWeight stA (getNode stA 2).left +
        childWeight stA (getNode stA 2).right = (getNode stA 2).weight) := by
  have hr : Reach stA := Reach.enc Reach.init enc_a
  exact ⟨hr, by decide, c4_weight_additivity hr 2 (by decide)⟩

/-- C8: every error a completed decode raises from an invariant-satisfying
state is a ValueError (the single decode-error kind), and each listed
failure condition is realized: a bitstream exhausted mid-path (c8P), a
truncated NCW length header ([128]), a truncated raw payload
([128, 0, 5, 97]), and a payload that is invalid UTF-8 ([128, 0, 1, 255]). -/
theorem c8_decode_failure_kinds :
    (∀ fuel s data res s2, Inv s →
      decodeFuel fuel s data = some (res, s2) →
      ∀ e, res = Except.error e → ∃ m, e = PyErr.valueError m) ∧
    decRes 300 initState [128] =
      some (.error (.valueError
        "Unexpected end of stream while reading uint16")) ∧
    decRes 300 initState [128, 0, 5, 97] =
      some (.error (.valueError
        "Unexpected end of stream while reading bytes")) ∧
    decRes 300 initState [128, 0, 1, 255] =
      some (.error (.valueError "utf-8 codec cannot decode")) ∧
    decRes 300 initState c8P =
      some (.error (.valueError "Not enough bits left in stream")) := by
  refine ⟨?_, dec_short16, dec_shortbytes, dec_badutf8, ?_⟩
  · intro fuel s data res s2 hI h e he
    exact (decode_inv hI h).2 e he
  · rw [decRes, dec_c8]
    rfl

theorem c8_decode_failure_kinds_witness :
    ∃ m, PyErr.valueError "Unexpected end of stream while reading uint16" =
      PyErr.valueError m :=
  c8_decode_failure_kinds.1 300 initState [128]
    (.error (.valueError "Unexpected end of stream while reading uint16"))
    stE16 inv_init (by decide)
    (PyErr.valueError "Unexpected end of stream while reading uint16") rfl

end AHuff
